import Mathlib

/-!
# Verification of the poly-nba-markets injury-report pipeline

Shallow embedding of `src/lib/polymarket.ts` (candidate generation, existence-checked
fetching, single-flight TTL cache) and `src/lib/injuryParse.ts` (text normalizer,
tokenizer state machine, team-name resolver, summary aggregator), with theorems
settling the specification claims.

Times are modelled as integers (milliseconds, as JavaScript `Date` values).
Strings are modelled as Lean `String` / `List Char`; the JavaScript regular
expressions used by the source are implemented as explicit character-level
scanners with the same matching behaviour on the relevant (ASCII) inputs.
-/

namespace Polymarket

/-- `InjuryCacheValue` from `polymarket.ts`: the cached artifact. -/
structure InjuryCacheValue where
  fetchedAtMs : Int
  sourceUrl : String
  reportLabel : String
  pdfText : String
deriving DecidableEq, Repr

/-- The module-level mutable state of `polymarket.ts`: the cache slot (`cache`),
the in-flight marker (`inFlight`, modelled as a flag since the promise identity
is not observable here), and an instrumentation counter `started` recording how
many underlying `fetchLatestInjuryReport` pipeline executions have been started. -/
structure CacheState where
  cache : Option InjuryCacheValue
  inFlight : Bool
  started : Nat
deriving DecidableEq, Repr

/-- `getCachedInjuryReport(maxAgeMs)`: returns the cache slot when present and
`now - fetchedAtMs <= maxAgeMs`, else `null`.  `now` (JavaScript `Date.now()`)
is passed explicitly. -/
def getCachedInjuryReport (now maxAgeMs : Int) (cache : Option InjuryCacheValue) :
    Option InjuryCacheValue :=
  match cache with
  | none => none
  | some c => if now - c.fetchedAtMs ≤ maxAgeMs then some c else none

/-- Outcome of the synchronous prefix of one `getInjuryReportWithCache` call
(the code it runs before its first `await`). -/
inductive CallOutcome where
  /-- the call returned `{ value, stale }` without touching the refresh machinery -/
  | value (v : InjuryCacheValue) (stale : Bool)
  /-- the call found a refresh in flight and no cache, and awaits that refresh -/
  | awaiting
  /-- the call set the in-flight marker and started a new pipeline execution -/
  | initiated
deriving DecidableEq, Repr

/-- The synchronous prefix of `getInjuryReportWithCache`: everything up to the
first `await`.  JavaScript runs this atomically (single-threaded event loop), so
a sequence of concurrent calls is a sequence of these steps. -/
def getOrRefreshSync (now maxAgeMs : Int) (s : CacheState) : CacheState × CallOutcome :=
  match getCachedInjuryReport now maxAgeMs s.cache with
  | some fresh => (s, .value fresh false)
  | none =>
    if s.inFlight then
      match s.cache with
      | some c => (s, .value c true)
      | none => (s, .awaiting)
    else
      ({ s with inFlight := true, started := s.started + 1 }, .initiated)

/-- Completion of the in-flight refresh: on success (`some v`) the body of the
async closure has already stored `cache = v`; the `finally` clears `inFlight`.
On failure (`none`) only the `finally` runs: `inFlight` is cleared and the
cache slot is untouched. -/
def refreshComplete (result : Option InjuryCacheValue) (s : CacheState) : CacheState :=
  match result with
  | some v => { s with cache := some v, inFlight := false }
  | none => { s with inFlight := false }

/-- How a call's outcome resolves into the value the caller receives, given the
outcome of the awaited refresh (lines 44-45 and 57-59 of `polymarket.ts`):
a directly returned value keeps its staleness flag; an awaiting or initiating
caller receives the refresh result marked non-stale, or the refresh error. -/
def finishCall (out : CallOutcome) (refresh : Except String InjuryCacheValue) :
    Except String (InjuryCacheValue × Bool) :=
  match out with
  | .value v st => .ok (v, st)
  | .awaiting => refresh.map (fun v => (v, false))
  | .initiated => refresh.map (fun v => (v, false))

/-- A sequence of concurrent `getInjuryReportWithCache` calls, each with its own
`(now, maxAgeMs)`, issued before any refresh completes: fold the synchronous
prefixes over the state, collecting each call's outcome. -/
def processCalls (calls : List (Int × Int)) (s : CacheState) :
    CacheState × List CallOutcome :=
  match calls with
  | [] => (s, [])
  | (now, ma) :: rest =>
    let (s', out) := getOrRefreshSync now ma s
    let (s'', outs) := processCalls rest s'
    (s'', out :: outs)

/-- An HTTP response as observed by the code: `ok`, `status`, `statusText`, and
the body (the PDF buffer, abstracted to a string of bytes-as-text). -/
structure HttpResponse where
  ok : Bool
  status : Nat
  statusText : String
  body : String
deriving DecidableEq, Repr

/-- The network/parse environment of one candidate: the outcome of the HEAD
probe, of the fallback GET probe inside `urlExists`, of the GET performed by
`fetchPdf`, and of the `pdf(...)` text extraction applied to the fetched
buffer.  `.error e` models a thrown/rejected operation. -/
structure CandidateEnv where
  head : Except String HttpResponse
  get : Except String HttpResponse
  pdfResp : Except String HttpResponse
  parse : String → Except String String

/-- `urlExists` instrumented with whether the fallback GET probe was executed.
The source awaits `fetch(url, HEAD).catch(() => null)`; when the HEAD fetch
itself rejected (`head = null`) it falls back to a full GET probe, otherwise it
returns `head.ok` directly. -/
def urlExistsTraced (head get : Except String HttpResponse) :
    Except String Bool × Bool :=
  match head with
  | .ok r => (.ok r.ok, false)
  | .error _ =>
    match get with
    | .ok r => (.ok r.ok, true)
    | .error e => (.error e, true)

/-- `urlExists(url)`: HEAD probe, falling back to a GET probe only when the
HEAD fetch itself throws. -/
def urlExists (head get : Except String HttpResponse) : Except String Bool :=
  (urlExistsTraced head get).1

/-- `fetchPdf(url)`: GET the url; throw on a non-ok status; return the body. -/
def fetchPdf (resp : Except String HttpResponse) : Except String String :=
  match resp with
  | .error e => .error e
  | .ok r =>
    if r.ok then .ok r.body
    else .error ("Failed to fetch PDF: " ++ toString r.status ++ " " ++ r.statusText)

/-- Per-candidate outcome of one iteration of the `fetchLatestInjuryReport`
loop body. -/
inductive CandResult where
  /-- `urlExists` returned `false`: `continue` without recording an error -/
  | notFound
  /-- some step threw: the `catch` records it as `lastErr` and continues -/
  | failed (e : String)
  /-- existence confirmed, PDF fetched and parsed: return its text -/
  | found (text : String)
deriving DecidableEq, Repr

/-- One iteration of the candidate loop: probe existence, then fetch, then
parse; any thrown error is caught. -/
def tryCandidate (env : CandidateEnv) : CandResult :=
  match urlExists env.head env.get with
  | .error e => .failed e
  | .ok false => .notFound
  | .ok true =>
    match fetchPdf env.pdfResp with
    | .error e => .failed e
    | .ok buf =>
      match env.parse buf with
      | .error e => .failed e
      | .ok text => .found text

/-- A candidate location: `{ url, label }`. -/
structure Candidate where
  url : String
  label : String
deriving DecidableEq, Repr

/-- The aggregate failure thrown after exhausting all candidates: the source
builds the message "Failed to locate a recent NBA injury report PDF (checked
`${candidates.length}` candidates). Last error: `${String(lastErr)}`"; we keep
its two data components (`none` prints as `null`). -/
structure FetchExhausted where
  checked : Nat
  lastErr : Option String
deriving DecidableEq, Repr

/-- The candidate loop of `fetchLatestInjuryReport`, carrying the running
`lastErr` and the total candidate count used by the exhaustion error. -/
def fetchLoop (pairs : List (Candidate × CandidateEnv)) (fetchNow : Int)
    (total : Nat) (lastErr : Option String) : Except FetchExhausted InjuryCacheValue :=
  match pairs with
  | [] => .error ⟨total, lastErr⟩
  | (c, env) :: rest =>
    match tryCandidate env with
    | .notFound => fetchLoop rest fetchNow total lastErr
    | .failed e => fetchLoop rest fetchNow total (some e)
    | .found text => .ok ⟨fetchNow, c.url, c.label, text⟩

/-- `fetchLatestInjuryReport`, over an explicit candidate list paired with each
candidate's network environment; `fetchNow` is the `Date.now()` recorded in a
successful artifact. -/
def fetchLatestInjuryReport (pairs : List (Candidate × CandidateEnv))
    (fetchNow : Int) : Except FetchExhausted InjuryCacheValue :=
  fetchLoop pairs fetchNow pairs.length none

/-- The last per-candidate error recorded by the loop, characterised
declaratively: the last error among the non-success candidate outcomes. -/
def lastFailure (pairs : List (Candidate × CandidateEnv)) : Option String :=
  (pairs.filterMap fun p =>
    match tryCandidate p.2 with
    | .failed e => some e
    | _ => none).getLast?

/-- The date/time parts `formatEtFilenameParts` extracts via `Intl` in the
publisher's timezone (`America/New_York`): `YYYY-MM-DD` date string, 12-hour
zero-padded hour, zero-padded minute, AM/PM marker.  The `Intl` formatter is an
external capability; it enters the model as a function `Int → EtParts` of the
instant in milliseconds. -/
structure EtParts where
  dateStr : String
  hh12 : String
  mm : String
  ampm : String
deriving DecidableEq, Repr

/-- URL template of `buildCandidateUrls`. -/
def candidateUrl (p : EtParts) : String :=
  "https://ak-static.cms.nba.com/referee/injury/Injury-Report_" ++ p.dateStr ++
    "_" ++ p.hh12 ++ "_" ++ p.mm ++ p.ampm ++ ".pdf"

/-- Label template of `buildCandidateUrls`. -/
def candidateLabel (p : EtParts) : String :=
  p.dateStr ++ " " ++ p.hh12 ++ ":" ++ p.mm ++ " " ++ p.ampm ++ " ET"

/-- A candidate together with the nominal instant it was generated for (the
instant is used only to state ordering; the source keeps `{url, label}`). -/
structure TimedCandidate where
  t : Int
  url : String
  label : String
deriving DecidableEq, Repr

/-- The generation loop of `buildCandidateUrls`, instrumented with each
candidate's nominal instant `now - i*stepMinutes*60000`. -/
def candidateSeries (fmt : Int → EtParts) (now : Int) (lookbackSteps : Nat)
    (stepMinutes : Int) : List TimedCandidate :=
  (List.range (lookbackSteps + 1)).map fun (i : Nat) =>
    ⟨now - (i : Int) * stepMinutes * 60000,
     candidateUrl (fmt (now - (i : Int) * stepMinutes * 60000)),
     candidateLabel (fmt (now - (i : Int) * stepMinutes * 60000))⟩

/-- The de-duplication filter of `buildCandidateUrls`: drop a candidate whose
url was already seen, keeping the first occurrence. -/
def dedupByUrl (l : List TimedCandidate) (seen : List String) : List TimedCandidate :=
  match l with
  | [] => []
  | c :: rest =>
    if c.url ∈ seen then dedupByUrl rest seen
    else c :: dedupByUrl rest (c.url :: seen)

/-- `buildCandidateUrls` instrumented with nominal instants. -/
def buildCandidateUrlsTimed (fmt : Int → EtParts) (now : Int) (lookbackSteps : Nat)
    (stepMinutes : Int) : List TimedCandidate :=
  dedupByUrl (candidateSeries fmt now lookbackSteps stepMinutes) []

/-- `buildCandidateUrls(now, lookbackSteps, stepMinutes)`: the series of
candidates going backward in `stepMinutes` steps, de-duplicated by URL. -/
def buildCandidateUrls (fmt : Int → EtParts) (now : Int) (lookbackSteps : Nat)
    (stepMinutes : Int) : List Candidate :=
  (buildCandidateUrlsTimed fmt now lookbackSteps stepMinutes).map fun c =>
    ⟨c.url, c.label⟩

/-- Are the nominal instants of the candidates strictly decreasing
(most-recent-first)? -/
def timesDescending : List TimedCandidate → Bool
  | a :: b :: rest => (decide (b.t < a.t)) && timesDescending (b :: rest)
  | _ => true

/-- The number of formatting collisions: candidates whose URL already occurred
earlier in the series (these are the ones the de-duplication removes). -/
def dupCount : List TimedCandidate → List String → Nat
  | [], _ => 0
  | c :: rest, seen =>
    if c.url ∈ seen then 1 + dupCount rest seen
    else dupCount rest (c.url :: seen)

end Polymarket

namespace InjuryParse

/-! ## Character classes (JavaScript regex classes, ASCII)

The source's regexes use the ASCII classes `[A-Z]`, `[a-z]`, `[0-9]`, `\w` and
the whitespace class `\s`.  JavaScript's `toUpperCase`/`toLowerCase` are
modelled by `Char.toUpper`/`Char.toLower` (correct on the ASCII tokens the
report text contains). -/

/-- `[A-Z]` -/
def isUpperAZ (c : Char) : Bool := 'A' ≤ c && c ≤ 'Z'

/-- `[a-z]` -/
def isLowerAZ (c : Char) : Bool := 'a' ≤ c && c ≤ 'z'

/-- `[0-9]` / `\d` -/
def isDigit09 (c : Char) : Bool := '0' ≤ c && c ≤ '9'

/-- `[A-Za-z]` -/
def isAlphaAZ (c : Char) : Bool := isUpperAZ c || isLowerAZ c

/-- `\w` -/
def isWordChar (c : Char) : Bool := isAlphaAZ c || isDigit09 c || c = '_'

/-- JavaScript `\s` (also the set trimmed by `String.prototype.trim`). -/
def jsWs (c : Char) : Bool :=
  c = ' ' || c = '\t' || c = '\n' || c.val = 11 || c.val = 12 || c = '\r' ||
  c.val = 0xa0 || c.val = 0x1680 || (0x2000 ≤ c.val && c.val ≤ 0x200a) ||
  c.val = 0x2028 || c.val = 0x2029 || c.val = 0x202f || c.val = 0x205f ||
  c.val = 0x3000 || c.val = 0xfeff

/-- Strip a literal off the front of a character list (`none` if it is not
there). -/
def dropLit : List Char → List Char → Option (List Char)
  | [], l => some l
  | _ :: _, [] => none
  | p :: ps, c :: cs => if c = p then dropLit ps cs else none

theorem dropLit_length {p l r : List Char} (h : dropLit p l = some r) :
    l.length = p.length + r.length := by
  induction p generalizing l with
  | nil => simp [dropLit] at h; simp [h]
  | cons a ps ih =>
    match l with
    | [] => simp [dropLit] at h
    | c :: cs =>
      simp only [dropLit] at h
      split at h
      · have := ih h; simp [this]; omega
      · exact absurd h (by simp)

/-! ## The normalizer `normalizeForParsing`

Each regex-replace pass of the source becomes one function `List Char →
List Char`, applied in the source's order. -/

/-- Take up to `max` leading `[A-Z]` characters, returning them and the rest. -/
def takeUppers : List Char → Nat → List Char × List Char
  | l, 0 => ([], l)
  | [], _ + 1 => ([], [])
  | c :: rest, n + 1 =>
    if isUpperAZ c then
      let (u, r) := takeUppers rest n
      (c :: u, r)
    else ([], c :: rest)

theorem takeUppers_append (l : List Char) (n : Nat) :
    (takeUppers l n).1 ++ (takeUppers l n).2 = l := by
  induction l generalizing n with
  | nil => cases n <;> simp [takeUppers]
  | cons c rest ih =>
    cases n with
    | zero => simp [takeUppers]
    | succ m =>
      simp only [takeUppers]
      split
      · simpa using ih m
      · simp

theorem takeUppers_length (l : List Char) (n : Nat) :
    (takeUppers l n).1.length + (takeUppers l n).2.length = l.length := by
  have h := congrArg List.length (takeUppers_append l n)
  simpa using h

/-- Attempt to match `[A-Z]{2,3}@[A-Z]{2,3}` at the head of the list, returning
the matched characters and the rest.  Greedy with backtracking, as JavaScript:
three leading capitals followed by a fourth cannot back off to two (the third
capital is not `@`), so the left side matches iff the maximal capital run of
length ≤ 3 is ≥ 2 and is followed by `@`. -/
def matchMatchupAt (l : List Char) : Option (List Char × List Char) :=
  if (takeUppers l 3).1.length < 2 then none
  else
    match (takeUppers l 3).2 with
    | '@' :: r2 =>
      if (takeUppers r2 3).1.length < 2 then none
      else some ((takeUppers l 3).1 ++ '@' :: (takeUppers r2 3).1, (takeUppers r2 3).2)
    | _ => none

theorem matchMatchupAt_length {l m r : List Char} (h : matchMatchupAt l = some (m, r)) :
    r.length + 5 ≤ l.length := by
  unfold matchMatchupAt at h
  split at h
  · exact absurd h (by simp)
  · next hu =>
    split at h
    · next r2 heq =>
      split at h
      · exact absurd h (by simp)
      · next hv =>
        have h1 := takeUppers_length l 3
        have h2 := takeUppers_length r2 3
        have h3 := congrArg List.length heq
        simp only [Option.some.injEq, Prod.mk.injEq] at h
        simp only [List.length_cons] at h3
        rw [← h.2]
        omega
    · exact absurd h (by simp)

/-- The scan of pass 1, structural on a fuel bound (`fuel ≥ length` always
holds at the call sites, and each step consumes at least one character, so the
fuel-exhausted branch is unreachable; the fuel form keeps the function
kernel-reducible). -/
def r1go : Nat → List Char → List Char
  | _, [] => []
  | 0, l => l
  | fuel + 1, c :: rest =>
    match matchMatchupAt (c :: rest) with
    | some (m, r) => ' ' :: (m ++ ' ' :: r1go fuel r)
    | none => c :: r1go fuel rest

/-- Pass 1: `x.replace(/([A-Z]{2,3}@[A-Z]{2,3})/g, " $1 ")`. -/
def r1core (l : List Char) : List Char := r1go l.length l

/-- The four status words of `/(Out|Doubtful|Questionable|Probable)/`. -/
def statusWordChars : List (List Char) :=
  ["Out".data, "Doubtful".data, "Questionable".data, "Probable".data]

/-- Attempt to match one of the four status words at the head of the list
(their first letters are distinct, so alternation order is immaterial). -/
def matchStatusAt (l : List Char) : Option (List Char × List Char) :=
  match dropLit "Out".data l with
  | some r => some ("Out".data, r)
  | none =>
    match dropLit "Doubtful".data l with
    | some r => some ("Doubtful".data, r)
    | none =>
      match dropLit "Questionable".data l with
      | some r => some ("Questionable".data, r)
      | none =>
        match dropLit "Probable".data l with
        | some r => some ("Probable".data, r)
        | none => none

theorem matchStatusAt_length {l m r : List Char} (h : matchStatusAt l = some (m, r)) :
    r.length + 3 ≤ l.length := by
  unfold matchStatusAt at h
  split at h
  · next heq =>
    have := dropLit_length heq
    simp only [Option.some.injEq, Prod.mk.injEq] at h
    rw [← h.2]; simp at this; omega
  · split at h
    · next heq =>
      have := dropLit_length heq
      simp only [Option.some.injEq, Prod.mk.injEq] at h
      rw [← h.2]; simp at this; omega
    · split at h
      · next heq =>
        have := dropLit_length heq
        simp only [Option.some.injEq, Prod.mk.injEq] at h
        rw [← h.2]; simp at this; omega
      · split at h
        · next heq =>
          have := dropLit_length heq
          simp only [Option.some.injEq, Prod.mk.injEq] at h
          rw [← h.2]; simp at this; omega
        · exact absurd h (by simp)

/-- The scan of pass 2 (fuel-structural, like `r1go`). -/
def r2go : Nat → List Char → List Char
  | _, [] => []
  | 0, l => l
  | fuel + 1, c :: rest =>
    match matchStatusAt (c :: rest) with
    | some (m, r) => ' ' :: (m ++ ' ' :: r2go fuel r)
    | none => c :: r2go fuel rest

/-- Pass 2: `x.replace(/(Out|Doubtful|Questionable|Probable)/g, " $1 ")`. -/
def r2core (l : List Char) : List Char := r2go l.length l

/-- Pass 3: `x.replace(/,/g, ", ")`. -/
def r3core : List Char → List Char
  | [] => []
  | ',' :: rest => ',' :: ' ' :: r3core rest
  | c :: rest => c :: r3core rest

/-- The scan of pass 4 (fuel-structural). -/
def r4go : Nat → List Char → List Char
  | _, [] => []
  | 0, l => l
  | fuel + 1, c :: rest =>
    match dropLit "GLeague".data (c :: rest) with
    | some r => "G League".data ++ r4go fuel r
    | none => c :: r4go fuel rest

/-- Pass 4: `x.replace(/GLeague/g, "G League")`. -/
def r4core (l : List Char) : List Char := r4go l.length l

/-- Pass 5: `x.replace(/\)(?=\w)/g, ") ")`. -/
def r5core : List Char → List Char
  | [] => []
  | ')' :: c :: rest =>
    if isWordChar c then ')' :: ' ' :: r5core (c :: rest)
    else ')' :: r5core (c :: rest)
  | c :: rest => c :: r5core rest

/-- Pass 6: `x.replace(/(?<=[a-z])(?=[A-Z])/g, " ")`. -/
def r6core : List Char → List Char
  | a :: b :: rest =>
    if isLowerAZ a && isUpperAZ b then a :: ' ' :: r6core (b :: rest)
    else a :: r6core (b :: rest)
  | l => l

/-- Pass 7: `x.replace(/(?<=[A-Z])(?=[A-Z][a-z])/g, " ")`. -/
def r7core : List Char → List Char
  | a :: b :: c :: rest =>
    if isUpperAZ a && isUpperAZ b && isLowerAZ c then a :: ' ' :: r7core (b :: c :: rest)
    else a :: r7core (b :: c :: rest)
  | l => l

/-- Pass 8: `x.replace(/(?<=[0-9])(?=[A-Za-z])/g, " ")`. -/
def r8core : List Char → List Char
  | a :: b :: rest =>
    if isDigit09 a && isAlphaAZ b then a :: ' ' :: r8core (b :: rest)
    else a :: r8core (b :: rest)
  | l => l

theorem length_dropWhile_le (p : Char → Bool) (l : List Char) :
    (l.dropWhile p).length ≤ l.length := by
  induction l with
  | nil => simp
  | cons c rest ih =>
    by_cases h : p c
    · simp only [List.dropWhile, h]; simp; omega
    · simp only [List.dropWhile, h]; simp

/-- The scan of `x.replace(/\s+/g, " ")` (fuel-structural). -/
def collapseGo : Nat → List Char → List Char
  | _, [] => []
  | 0, l => l
  | fuel + 1, c :: rest =>
    if jsWs c then ' ' :: collapseGo fuel (rest.dropWhile jsWs)
    else c :: collapseGo fuel rest

/-- `x.replace(/\s+/g, " ")`: collapse every whitespace run to one space. -/
def collapseWs (l : List Char) : List Char := collapseGo l.length l

/-- JavaScript `String.prototype.trim`. -/
def jsTrim (l : List Char) : List Char :=
  ((l.dropWhile jsWs).reverse.dropWhile jsWs).reverse

/-- Pass 9: `x.replace(/\s+/g, " ").trim()`. -/
def r9core (l : List Char) : List Char := jsTrim (collapseWs l)

/-- `normalizeForParsing`: the nine passes in source order. -/
def normalizeForParsing (s : String) : String :=
  ⟨r9core (r8core (r7core (r6core (r5core (r4core (r3core (r2core (r1core s.data))))))))⟩

/-! ## Boilerplate stripping and token splitting

`summarizeInjuriesFromPdfText` first applies four replaces to the raw pdf text
before normalizing (`\r?\n`, `InjuryReport:[^\s]+`, `Page\d+of\d+`, the column
header banner), then splits the normalized text on `\s+` and drops empties. -/

/-- `.replace(/\r?\n/g, " ")` (a lone `\r` is not replaced). -/
def pre1 : List Char → List Char
  | [] => []
  | '\r' :: '\n' :: rest => ' ' :: pre1 rest
  | '\n' :: rest => ' ' :: pre1 rest
  | c :: rest => c :: pre1 rest

/-- Match `InjuryReport:[^\s]+` at head: the literal, then a maximal nonempty
run of non-whitespace; returns the rest. -/
def matchReportIdAt (l : List Char) : Option (List Char) :=
  match dropLit "InjuryReport:".data l with
  | none => none
  | some [] => none
  | some (c :: cs) =>
    if jsWs c then none else some ((c :: cs).dropWhile (fun x => !jsWs x))

theorem matchReportIdAt_length {l r : List Char} (h : matchReportIdAt l = some r) :
    r.length < l.length := by
  unfold matchReportIdAt at h
  split at h
  · exact absurd h (by simp)
  · exact absurd h (by simp)
  · next c cs heq =>
    have hlen := dropLit_length heq
    split at h
    · exact absurd h (by simp)
    · have hd := length_dropWhile_le (fun x => !jsWs x) (c :: cs)
      simp only [Option.some.injEq] at h
      rw [← h]
      simp only [List.length_cons] at *
      simp at hlen
      omega

/-- The scan of the report-id replace (fuel-structural). -/
def pre2go : Nat → List Char → List Char
  | _, [] => []
  | 0, l => l
  | fuel + 1, c :: rest =>
    match matchReportIdAt (c :: rest) with
    | some r => ' ' :: pre2go fuel r
    | none => c :: pre2go fuel rest

/-- `.replace(/InjuryReport:[^\s]+/g, " ")`. -/
def pre2 (l : List Char) : List Char := pre2go l.length l

/-- Match `Page\d+of\d+` at head (each `\d+` a maximal nonempty digit run);
returns the rest. -/
def matchPageAt (l : List Char) : Option (List Char) :=
  match dropLit "Page".data l with
  | none => none
  | some r =>
    if (r.takeWhile isDigit09).isEmpty then none
    else
      match dropLit "of".data (r.dropWhile isDigit09) with
      | none => none
      | some r2 =>
        if (r2.takeWhile isDigit09).isEmpty then none
        else some (r2.dropWhile isDigit09)

theorem matchPageAt_length {l r : List Char} (h : matchPageAt l = some r) :
    r.length < l.length := by
  unfold matchPageAt at h
  split at h
  · exact absurd h (by simp)
  · next r0 heq =>
    have h0 := dropLit_length heq
    split at h
    · exact absurd h (by simp)
    · split at h
      · exact absurd h (by simp)
      · next r2 heq2 =>
        have h2 := dropLit_length heq2
        split at h
        · exact absurd h (by simp)
        · have hd0 := length_dropWhile_le isDigit09 r0
          have hd2 := length_dropWhile_le isDigit09 r2
          simp only [Option.some.injEq] at h
          rw [← h]
          simp at h0 h2
          omega

/-- The scan of the page-footer replace (fuel-structural). -/
def pre3go : Nat → List Char → List Char
  | _, [] => []
  | 0, l => l
  | fuel + 1, c :: rest =>
    match matchPageAt (c :: rest) with
    | some r => ' ' :: pre3go fuel r
    | none => c :: pre3go fuel rest

/-- `.replace(/Page\d+of\d+/g, " ")`. -/
def pre3 (l : List Char) : List Char := pre3go l.length l

/-- The column-header banner literal. -/
def bannerChars : List Char :=
  "GameDateGameTimeMatchupTeamPlayerNameCurrentStatusReason".data

/-- The scan of the banner replace (fuel-structural). -/
def pre4go : Nat → List Char → List Char
  | _, [] => []
  | 0, l => l
  | fuel + 1, c :: rest =>
    match dropLit bannerChars (c :: rest) with
    | some r => ' ' :: pre4go fuel r
    | none => c :: pre4go fuel rest

/-- `.replace(/GameDateGameTimeMatchupTeamPlayerNameCurrentStatusReason/g, " ")`. -/
def pre4 (l : List Char) : List Char := pre4go l.length l

/-- The scan of the whitespace split (fuel-structural), at character level. -/
def wordsGo : Nat → List Char → List (List Char)
  | _, [] => []
  | 0, _ => []
  | fuel + 1, c :: rest =>
    if jsWs c then wordsGo fuel rest
    else
      ((c :: rest).takeWhile fun x => !jsWs x) ::
        wordsGo fuel ((c :: rest).dropWhile fun x => !jsWs x)

/-- The maximal non-whitespace runs, at character level. -/
def wordsCL (l : List Char) : List (List Char) := wordsGo l.length l

/-- `.split(/\s+/).filter(Boolean)`: the maximal non-whitespace runs. -/
def wordsOf (l : List Char) : List String := (wordsCL l).map fun w => ⟨w⟩

/-! ## Team-name resolution (`buildTeamName`) -/

/-- `TEAM_TAILS` from `injuryParse.ts`. -/
def teamTails : List String :=
  ["Hawks", "Celtics", "Nets", "Hornets", "Bulls", "Cavaliers", "Mavericks",
   "Nuggets", "Pistons", "Warriors", "Rockets", "Pacers", "Clippers", "Lakers",
   "Grizzlies", "Heat", "Bucks", "Timberwolves", "Pelicans", "Knicks",
   "Thunder", "Magic", "Suns", "Spurs", "Raptors", "Jazz", "Wizards", "Kings",
   "Blazers", "76ers", "Sixers"]

/-- Does `\d{2}\/\d{2}\/\d{4}` match at the head of the list? -/
def dateAt : List Char → Bool
  | a :: b :: '/' :: c :: d :: '/' :: e :: f :: g :: h :: _ =>
    isDigit09 a && isDigit09 b && isDigit09 c && isDigit09 d &&
    isDigit09 e && isDigit09 f && isDigit09 g && isDigit09 h
  | _ => false

/-- Does `/\d{2}\/\d{2}\/\d{4}/.test(tok)` hold (unanchored containment)? -/
def containsDateLike (l : List Char) : Bool := l.tails.any dateAt

/-- `\d\d:\d\d\(ET\)` at head. -/
def time2At : List Char → Bool
  | a :: b :: ':' :: c :: d :: '(' :: 'E' :: 'T' :: ')' :: _ =>
    isDigit09 a && isDigit09 b && isDigit09 c && isDigit09 d
  | _ => false

/-- `\d:\d\d\(ET\)` at head. -/
def time1At : List Char → Bool
  | a :: ':' :: c :: d :: '(' :: 'E' :: 'T' :: ')' :: _ =>
    isDigit09 a && isDigit09 c && isDigit09 d
  | _ => false

/-- Does `/\d{1,2}:\d{2}\(ET\)/.test(tok)` hold? -/
def containsTimeLike (l : List Char) : Bool :=
  l.tails.any fun t => time2At t || time1At t

/-- Does `/[A-Z]{2,3}@[A-Z]{2,3}/.test(tok)` hold? -/
def containsMatchup (l : List Char) : Bool :=
  l.tails.any fun t => (matchMatchupAt t).isSome

/-- `tok.toLowerCase()` (ASCII model of the JavaScript case mapping). -/
def lowerStr (t : String) : String := ⟨t.data.map Char.toLower⟩

/-- `tok === tok.toUpperCase()` (ASCII model). -/
def isSelfUpper (t : String) : Bool := t.data.all fun c => Char.toUpper c = c

/-- The lowercase injury/medical noise words that stop the backward scan. -/
def medicalNoise : List String :=
  ["injury", "illness", "contusion", "fracture", "management",
   "injurymanagement", "recovery", "rest", "notyetsubmitted"]

/-- The per-token stop conditions of the backward scan in `buildTeamName`
(all of them `break` the loop, so their disjunction decides stopping). -/
def stopToken (tok : String) : Bool :=
  containsDateLike tok.data ||
  containsTimeLike tok.data ||
  containsMatchup tok.data ||
  tok.data.contains '/' ||
  tok = "GLeague" || tok = "Two-Way" || tok = "On" || tok = "Assignment" ||
  medicalNoise.contains (lowerStr tok) ||
  (isSelfUpper tok && tok.length ≥ 4) ||
  !(tok.data.all isAlphaAZ && !tok.data.isEmpty)

/-- The backward scan: walk the tokens preceding the tail (most recent first),
prepending each to `parts` until a stop condition, the start of the token
array, or four parts. -/
def scanBack (back : List String) (parts : List String) : List String :=
  match back with
  | [] => parts
  | tok :: rest =>
    if parts.length ≥ 4 then parts
    else if stopToken tok then parts
    else scanBack rest (tok :: parts)

/-- `arr.join(" ")`. -/
def joinSp : List String → String
  | [] => ""
  | [x] => x
  | x :: y :: rest => x ++ " " ++ joinSp (y :: rest)

/-- `buildTeamName` with the preceding tokens given in reverse order
(`back.head?` is the token just before the tail).  The source's final
`Trail Blazers` conditional returns `name` on both branches, so it is a
single `some name` here. -/
def buildTeamNameRev (back : List String) (tailTok : String) : Option String :=
  if !teamTails.contains (((scanBack back [tailTok]).getLast?).getD "") then none
  else if joinSp (scanBack back [tailTok]) = "76ers" then some "Philadelphia 76ers"
  else if (scanBack back [tailTok]).length < 2 then none
  else some (joinSp (scanBack back [tailTok]))

/-- `buildTeamName(tokens, tailIndex)`. -/
def buildTeamName (tokens : List String) (tailIndex : Nat) : Option String :=
  buildTeamNameRev ((tokens.take tailIndex).reverse) ((tokens.getD tailIndex ""))

/-! ## The summary aggregator and tokenizer state machine -/

/-- `InjuryStatus`: the closed enumeration of recognized statuses. -/
inductive InjuryStatus where
  | out
  | doubtful
  | questionable
  | probable
deriving DecidableEq, Repr

/-- `Record<InjuryStatus, number>`: all four keys always present. -/
structure StatusCounts where
  outN : Nat
  doubtfulN : Nat
  questionableN : Nat
  probableN : Nat
deriving DecidableEq, Repr

/-- Read one key. -/
def StatusCounts.get (c : StatusCounts) : InjuryStatus → Nat
  | .out => c.outN
  | .doubtful => c.doubtfulN
  | .questionable => c.questionableN
  | .probable => c.probableN

/-- `counts[status]++`. -/
def StatusCounts.inc (c : StatusCounts) : InjuryStatus → StatusCounts
  | .out => { c with outN := c.outN + 1 }
  | .doubtful => { c with doubtfulN := c.doubtfulN + 1 }
  | .questionable => { c with questionableN := c.questionableN + 1 }
  | .probable => { c with probableN := c.probableN + 1 }

/-- `TeamInjuryPlayer`. -/
structure TeamInjuryPlayer where
  name : String
  status : InjuryStatus
  reason : String
deriving DecidableEq, Repr

/-- `TeamInjurySummary`. -/
structure TeamInjurySummary where
  teamName : String
  counts : StatusCounts
  players : List TeamInjuryPlayer
deriving DecidableEq, Repr

/-- `byTeamName`: a string-keyed record preserving insertion order, modelled
as an association list with unique keys. -/
abbrev TeamMap := List (String × TeamInjurySummary)

/-- `InjurySummary`. -/
structure InjurySummary where
  byTeamName : TeamMap
deriving DecidableEq, Repr

/-- The zero-initialized `TeamInjurySummary` created on first reference. -/
def zeroSummary (teamName : String) : TeamInjurySummary :=
  ⟨teamName, ⟨0, 0, 0, 0⟩, []⟩

/-- Update the value at an existing key in place. -/
def updateEntry (m : TeamMap) (key : String)
    (f : TeamInjurySummary → TeamInjurySummary) : TeamMap :=
  match m with
  | [] => []
  | (k, v) :: rest =>
    if k = key then (k, f v) :: rest else (k, v) :: updateEntry rest key f

/-- `bump`: create the team's zero summary on first reference, increment
`counts[status]`, and push the player entry when one is given. -/
def bump (m : TeamMap) (teamName : String) (status : InjuryStatus)
    (player : Option TeamInjuryPlayer) : TeamMap :=
  let m' := if (m.lookup teamName).isSome then m
            else m ++ [(teamName, zeroSummary teamName)]
  updateEntry m' teamName fun ts =>
    { ts with counts := ts.counts.inc status,
              players := ts.players ++ player.toList }

/-- `isStatusToken` combined with the cast `t as InjuryStatus`. -/
def statusFromToken (t : String) : Option InjuryStatus :=
  if t = "Out" then some .out
  else if t = "Doubtful" then some .doubtful
  else if t = "Questionable" then some .questionable
  else if t = "Probable" then some .probable
  else none

/-- `t.replace(/,$/, "")`: strip one trailing comma. -/
def stripTrailingComma (t : String) : String :=
  if t.data.getLast? = some ',' then ⟨t.data.dropLast⟩ else t

/-- The pending player under construction. -/
structure PendingPlayer where
  name : String
  status : InjuryStatus
  reasonTokens : List String
deriving DecidableEq, Repr

/-- The tokenizer's mutable context. -/
structure ScanState where
  byTeamName : TeamMap
  currentTeamName : Option String
  pendingPlayer : Option PendingPlayer
deriving DecidableEq, Repr

/-- `String.trim` over our whitespace model. -/
def jsTrimStr (s : String) : String := ⟨jsTrim s.data⟩

/-- `flushPending`: commit the pending player to the current team; a no-op
(that keeps the pending player) when either is absent. -/
def flushPending (s : ScanState) : ScanState :=
  match s.pendingPlayer, s.currentTeamName with
  | some p, some team =>
    { s with
      byTeamName := bump s.byTeamName team p.status
        (some ⟨p.name, p.status, jsTrimStr (joinSp p.reasonTokens)⟩),
      pendingPlayer := none }
  | _, _ => s

/-- The token loop of `summarizeInjuriesFromPdfText`, structural on a fuel
bound (`fuel ≥ toks.length` at every call site).  `back` holds the
already-scanned tokens in reverse (for the backward team-name scan); the
player branch may consume the following token as a first name (`i++`). -/
def scanGo : Nat → List String → List String → ScanState → ScanState
  | _, _, [], s => s
  | 0, _, _, s => s
  | fuel + 1, back, t :: rest, s =>
    if teamTails.contains t then
      let s1 := flushPending s
      let s2 :=
        match buildTeamNameRev back t with
        | some n => { s1 with currentTeamName := some n }
        | none => s1
      scanGo fuel (t :: back) rest s2
    else if t.data.contains ',' then
      let s1 := flushPending s
      let lastNm := stripTrailingComma t
      match rest with
      | next :: rest2 =>
        if next ≠ "" && !next.data.contains ',' then
          scanGo fuel (next :: t :: back) rest2
            { s1 with pendingPlayer := some ⟨lastNm ++ ", " ++ next, .out, []⟩ }
        else
          scanGo fuel (t :: back) rest
            { s1 with pendingPlayer := some ⟨lastNm, .out, []⟩ }
      | [] =>
        scanGo fuel (t :: back) []
          { s1 with pendingPlayer := some ⟨lastNm, .out, []⟩ }
    else
      match statusFromToken t with
      | some st =>
        match s.pendingPlayer with
        | some p =>
          scanGo fuel (t :: back) rest
            { s with pendingPlayer := some { p with status := st, reasonTokens := [] } }
        | none =>
          match s.currentTeamName with
          | some team =>
            scanGo fuel (t :: back) rest { s with byTeamName := bump s.byTeamName team st none }
          | none => scanGo fuel (t :: back) rest s
      | none =>
        match s.pendingPlayer with
        | some p =>
          if t = "-" || t = "Â·" then scanGo fuel (t :: back) rest s
          else
            scanGo fuel (t :: back) rest
              { s with pendingPlayer := some { p with reasonTokens := p.reasonTokens ++ [t] } }
        | none => scanGo fuel (t :: back) rest s

/-- The token loop, at its standard fuel. -/
def scanTokens (back toks : List String) (s : ScanState) : ScanState :=
  scanGo toks.length back toks s

/-- `summarizeInjuriesFromPdfText`: strip boilerplate, normalize, tokenize,
run the state machine, flush, return the per-team map. -/
def summarizeInjuriesFromPdfText (pdfText : String) : InjurySummary :=
  let normalized := normalizeForParsing ⟨pre4 (pre3 (pre2 (pre1 pdfText.data)))⟩
  let tokens := wordsOf normalized.data
  ⟨(flushPending (scanTokens [] tokens ⟨[], none, none⟩)).byTeamName⟩

end InjuryParse

namespace InjuryParse

/-! ## Claims about the team-name resolver -/

theorem scanBack_shape (back parts : List String) :
    ∃ ps, scanBack back parts = ps ++ parts := by
  induction back generalizing parts with
  | nil => exact ⟨[], rfl⟩
  | cons tok rest ih =>
    simp only [scanBack]
    by_cases h4 : parts.length ≥ 4
    · rw [if_pos h4]; exact ⟨[], rfl⟩
    · rw [if_neg h4]
      by_cases hstop : stopToken tok = true
      · rw [if_pos hstop]; exact ⟨[], rfl⟩
      · rw [if_neg hstop]
        obtain ⟨ps', hps⟩ := ih (tok :: parts)
        exact ⟨ps' ++ [tok], by rw [hps, List.append_assoc, List.singleton_append]⟩

theorem joinSp_concat (ps : List String) (x : String) (h : ps ≠ []) :
    joinSp (ps ++ [x]) = joinSp ps ++ " " ++ x := by
  induction ps with
  | nil => exact absurd rfl h
  | cons y rest ih =>
    cases rest with
    | nil => rfl
    | cons z tl =>
      have : joinSp ((z :: tl) ++ [x]) = joinSp (z :: tl) ++ " " ++ x := ih (by simp)
      show y ++ " " ++ joinSp ((z :: tl) ++ [x]) = (y ++ " " ++ joinSp (z :: tl)) ++ " " ++ x
      rw [this]
      simp [String.append_assoc]

theorem append_space_ne_76ers (front tailTok : String) :
    front ++ " " ++ tailTok ≠ "76ers" := by
  intro h
  have hd := congrArg String.data h
  simp only [String.data_append] at hd
  have hmem : ' ' ∈ front.data ++ " ".data ++ tailTok.data := by
    simp
  rw [hd] at hmem
  exact absurd hmem (by decide)

/-- **C6 (amended).**  For every valid team tail with at least one resolvable
(non-stopping) immediately preceding token, `buildTeamName` returns a name
ending in that tail — including "76ers", which then keeps its scanned prefix.
Only when the backward scan yields the single token "76ers" (no preceding
token, or an immediately stopping one) is the name normalized to
"Philadelphia 76ers"; any other single-token candidate is rejected. -/
theorem resolveTeamNameContract :
    (∀ (p : String) (rest : List String) (tailTok : String),
      teamTails.contains tailTok = true → stopToken p = false →
      ∃ front, buildTeamNameRev (p :: rest) tailTok = some (front ++ " " ++ tailTok)) ∧
    (∀ back : List String,
      (back = [] ∨ ∃ p rest, back = p :: rest ∧ stopToken p = true) →
      buildTeamNameRev back "76ers" = some "Philadelphia 76ers") ∧
    (∀ (back : List String) (tailTok : String),
      (back = [] ∨ ∃ p rest, back = p :: rest ∧ stopToken p = true) →
      tailTok ≠ "76ers" → buildTeamNameRev back tailTok = none) := by
  have hsingle : ∀ (back : List String) (tailTok : String),
      (back = [] ∨ ∃ p rest, back = p :: rest ∧ stopToken p = true) →
      scanBack back [tailTok] = [tailTok] := by
    intro back tailTok hb
    rcases hb with rfl | ⟨p, rest, rfl, hstop⟩
    · rfl
    · simp only [scanBack]
      rw [if_neg (by simp), if_pos hstop]
  refine ⟨?_, ?_, ?_⟩
  · intro p rest tailTok htail hstop
    obtain ⟨ps', hps⟩ := scanBack_shape rest (p :: [tailTok])
    have hparts : scanBack (p :: rest) [tailTok] = (ps' ++ [p]) ++ [tailTok] := by
      simp only [scanBack]
      rw [if_neg (by simp), if_neg (by simp [hstop]), hps]
      simp
    refine ⟨joinSp (ps' ++ [p]), ?_⟩
    unfold buildTeamNameRev
    rw [hparts, List.getLast?_concat, joinSp_concat _ _ (by simp)]
    simp only [Option.getD_some, htail, Bool.not_true, Bool.false_eq_true, if_false]
    rw [if_neg (append_space_ne_76ers _ _), if_neg (by simp)]
  · intro back hb
    unfold buildTeamNameRev
    rw [hsingle back "76ers" hb]
    decide
  · intro back tailTok hb hne
    unfold buildTeamNameRev
    rw [hsingle back tailTok hb]
    by_cases hc : teamTails.contains tailTok = true
    · simp only [List.getLast?_singleton, Option.getD_some, hc, Bool.not_true,
        Bool.false_eq_true, if_false]
      have hj : joinSp [tailTok] = tailTok := rfl
      rw [hj, if_neg hne, if_pos (by simp)]
    · have hc' : teamTails.contains tailTok = false := Bool.eq_false_iff.mpr hc
      simp [hc']
      intro hmem
      simp [hmem] at hc'

/-- Witness for C6 at a concrete token sequence. -/
theorem resolveTeamNameContract_witness :
    (∃ front, buildTeamNameRev ["Angeles", "Los"] "Lakers" =
      some (front ++ " " ++ "Lakers")) ∧
    buildTeamNameRev [] "76ers" = some "Philadelphia 76ers" ∧
    buildTeamNameRev [] "Lakers" = none :=
  ⟨resolveTeamNameContract.1 "Angeles" ["Los"] "Lakers" (by decide) (by decide),
   resolveTeamNameContract.2.1 [] (Or.inl rfl),
   resolveTeamNameContract.2.2 [] "Lakers" (Or.inl rfl) (by decide)⟩

/-- **C6, counterexample to the claim as frozen.**  The "76ers special case"
does not apply "regardless of preceding tokens": a resolvable preceding token
is kept, so the resolver returns "Boston 76ers", not "Philadelphia 76ers". -/
theorem resolveTeamName_76ers_counterexample :
    buildTeamName ["Boston", "76ers"] 1 = some "Boston 76ers" ∧
    buildTeamName ["Boston", "76ers"] 1 ≠ some "Philadelphia 76ers" := by
  constructor
  · decide
  · decide

/-! ## Claims about the aggregator invariant -/

/-- The per-team invariant: for every status, the count is at least the
number of recorded players with that status. -/
def countsOk (ts : TeamInjurySummary) : Prop :=
  ∀ s, (ts.players.filter fun p => p.status == s).length ≤ ts.counts.get s

/-- The invariant over the whole `byTeamName` map. -/
def InvMap (m : TeamMap) : Prop := ∀ e ∈ m, countsOk e.2

theorem get_inc (c : StatusCounts) (st s : InjuryStatus) :
    (c.inc st).get s = if st = s then c.get s + 1 else c.get s := by
  cases st <;> cases s <;> simp [StatusCounts.inc, StatusCounts.get]

theorem zeroSummary_countsOk (team : String) : countsOk (zeroSummary team) := by
  intro s
  cases s <;> simp [zeroSummary, StatusCounts.get]

theorem bump_countsOk {ts : TeamInjurySummary} (h : countsOk ts) (st : InjuryStatus)
    (player : Option TeamInjuryPlayer) (hp : ∀ pl, player = some pl → pl.status = st) :
    countsOk { ts with counts := ts.counts.inc st,
                       players := ts.players ++ player.toList } := by
  intro s
  simp only [List.filter_append, List.length_append, get_inc]
  by_cases hst : st = s
  · subst hst
    have h2 : (player.toList.filter fun p => p.status == st).length ≤ 1 := by
      cases player with
      | none => simp
      | some pl =>
        simp only [Option.toList, List.filter]
        split <;> simp
    have h1 := h st
    rw [if_pos rfl]
    omega
  · have h2 : (player.toList.filter fun p => p.status == s).length = 0 := by
      cases hp2 : player with
      | none => simp
      | some pl =>
        have hs := hp pl hp2
        simp [Option.toList, hs, hst]
    rw [if_neg hst, h2]
    have h1 := h s
    omega

theorem updateEntry_inv {m : TeamMap} {key : String}
    {f : TeamInjurySummary → TeamInjurySummary} (hm : InvMap m)
    (hf : ∀ ts, countsOk ts → countsOk (f ts)) : InvMap (updateEntry m key f) := by
  induction m with
  | nil => intro e he; simp [updateEntry] at he
  | cons kv rest ih =>
    intro e he
    obtain ⟨k, v⟩ := kv
    simp only [updateEntry] at he
    split at he
    · rcases List.mem_cons.mp he with rfl | hmem
      · exact hf v (hm (k, v) (List.mem_cons_self _ _))
      · exact hm e (List.mem_cons_of_mem _ hmem)
    · rcases List.mem_cons.mp he with rfl | hmem
      · exact hm (k, v) (List.mem_cons_self _ _)
      · exact ih (fun e' he' => hm e' (List.mem_cons_of_mem _ he')) e hmem

theorem bump_inv {m : TeamMap} {team : String} {st : InjuryStatus}
    {player : Option TeamInjuryPlayer} (hm : InvMap m)
    (hp : ∀ pl, player = some pl → pl.status = st) : InvMap (bump m team st player) := by
  unfold bump
  apply updateEntry_inv
  · split
    · exact hm
    · intro e he
      rcases List.mem_append.mp he with h | h
      · exact hm e h
      · simp only [List.mem_singleton] at h
        rw [h]
        exact zeroSummary_countsOk team
  · intro ts hts
    exact bump_countsOk hts st player hp

theorem flushPending_inv {s : ScanState} (h : InvMap s.byTeamName) :
    InvMap (flushPending s).byTeamName := by
  unfold flushPending
  split
  · exact bump_inv h (by intro pl hpl; cases hpl; rfl)
  · exact h

theorem scanGo_inv (fuel : Nat) :
    ∀ (back toks : List String) (s : ScanState),
      InvMap s.byTeamName → InvMap (scanGo fuel back toks s).byTeamName := by
  induction fuel with
  | zero =>
    intro back toks s h
    cases toks <;> exact h
  | succ n ih =>
    intro back toks s h
    cases toks with
    | nil => exact h
    | cons t rest =>
      simp only [scanGo]
      repeat' split
      all_goals
        first
          | exact ih _ _ _ (flushPending_inv h)
          | exact flushPending_inv h
          | exact ih _ _ _ (bump_inv h (by intro pl hpl; cases hpl))
          | exact ih _ _ _ h

/-- **C7.**  In every summary produced by `summarizeInjuriesFromPdfText`,
every team's `counts` (a total map over the four statuses by construction)
bounds from above the number of recorded players per status — in particular
`counts[entry.status] ≥ 1` for every player entry — and counts can strictly
exceed the player count (a status token with no attributable player bumps the
count alone, as the concrete `"Boston Celtics Out"` run shows). -/
theorem countsInvariant (x : String) :
    (∀ e ∈ (summarizeInjuriesFromPdfText x).byTeamName,
      (∀ s, ((e.2.players.filter fun p => p.status == s).length ≤ e.2.counts.get s)) ∧
      (∀ pl ∈ e.2.players, 1 ≤ e.2.counts.get pl.status)) ∧
    (summarizeInjuriesFromPdfText "Boston Celtics Out").byTeamName =
      [("Boston Celtics", ⟨"Boston Celtics", ⟨1, 0, 0, 0⟩, []⟩)] := by
  constructor
  · have hinv : InvMap (summarizeInjuriesFromPdfText x).byTeamName := by
      simp only [summarizeInjuriesFromPdfText]
      apply flushPending_inv
      unfold scanTokens
      apply scanGo_inv
      intro e he
      exact absurd he (List.not_mem_nil e)
    intro e he
    refine ⟨hinv e he, ?_⟩
    intro pl hpl
    have h2 := hinv e he pl.status
    have h3 : 0 < (e.2.players.filter fun p => p.status == pl.status).length := by
      have hm : pl ∈ e.2.players.filter fun p => p.status == pl.status :=
        List.mem_filter.mpr ⟨hpl, by simp⟩
      exact List.length_pos.mpr (List.ne_nil_of_mem hm)
    omega
  · decide

/-- Witness for C7: the Tatum scenario's team entry. -/
theorem countsInvariant_witness :
    (1 : Nat) ≤ (⟨"Boston Celtics", ⟨0, 0, 1, 0⟩,
      [⟨"Tatum, Jayson", InjuryStatus.questionable, "Ankle"⟩]⟩ :
        TeamInjurySummary).counts.get InjuryStatus.questionable :=
  ((countsInvariant "Boston Celtics Tatum, Jayson Questionable Ankle").1
    ("Boston Celtics", ⟨"Boston Celtics", ⟨0, 0, 1, 0⟩,
      [⟨"Tatum, Jayson", InjuryStatus.questionable, "Ankle"⟩]⟩)
    (by decide)).2
    ⟨"Tatum, Jayson", InjuryStatus.questionable, "Ankle"⟩ (by decide)

/-- **C9.**  The Tatum scenario: the input normalizes to the token sequence
`Boston Celtics Tatum, Jayson Questionable Ankle`, and the summary records
`counts.Questionable = 1` and the player entry
`{name: "Tatum, Jayson", status: Questionable, reason: "Ankle"}` under
"Boston Celtics" (the token after the comma token is consumed as first name). -/
theorem tatumScenario :
    wordsOf (normalizeForParsing
      ⟨pre4 (pre3 (pre2 (pre1 "Boston Celtics Tatum, Jayson Questionable Ankle".data)))⟩).data =
      ["Boston", "Celtics", "Tatum,", "Jayson", "Questionable", "Ankle"] ∧
    (summarizeInjuriesFromPdfText
        "Boston Celtics Tatum, Jayson Questionable Ankle").byTeamName.lookup "Boston Celtics" =
      some ⟨"Boston Celtics", ⟨0, 0, 1, 0⟩,
        [⟨"Tatum, Jayson", InjuryStatus.questionable, "Ankle"⟩]⟩ := by
  constructor
  · decide
  · decide

/-- **C10.**  Flushing with no active team keeps the pending player (it is not
discarded), and a player opened before any team resolves is committed — with
its accumulated status and reason — to the team resolved later, at the next
flush trigger (here the next comma token): "Smith, John" ends up under
"Boston Celtics", which is only resolved after his tokens were scanned. -/
theorem pendingSurvivesFlush :
    (∀ s : ScanState, s.currentTeamName = none → flushPending s = s) ∧
    (summarizeInjuriesFromPdfText
        "Smith, John Questionable Rest Boston Celtics Doe, Jane Out Knee").byTeamName =
      [("Boston Celtics", ⟨"Boston Celtics", ⟨1, 0, 1, 0⟩,
        [⟨"Smith, John", InjuryStatus.questionable, "Rest Boston"⟩,
         ⟨"Doe, Jane", InjuryStatus.out, "Knee"⟩]⟩)] := by
  constructor
  · intro s h
    unfold flushPending
    cases hp : s.pendingPlayer <;> simp [hp, h]
  · decide

/-- Witness for C10: a concrete pending player survives a team-less flush. -/
theorem pendingSurvivesFlush_witness :
    flushPending ⟨[], none, some ⟨"Smith, John", InjuryStatus.out, ["Knee"]⟩⟩ =
      ⟨[], none, some ⟨"Smith, John", InjuryStatus.out, ["Knee"]⟩⟩ :=
  pendingSurvivesFlush.1 ⟨[], none, some ⟨"Smith, John", InjuryStatus.out, ["Knee"]⟩⟩ rfl

end InjuryParse

namespace Polymarket

/-! ## Claims about the cache and fetcher -/

theorem processCalls_busy (calls : List (Int × Int)) (s : CacheState)
    (hBusy : s.inFlight = true)
    (hStale : ∀ p ∈ calls, getCachedInjuryReport p.1 p.2 s.cache = none) :
    processCalls calls s =
      (s, calls.map fun _ =>
        match s.cache with
        | some c => CallOutcome.value c true
        | none => CallOutcome.awaiting) := by
  induction calls with
  | nil => simp [processCalls]
  | cons hd tl ih =>
    have h1 : getCachedInjuryReport hd.1 hd.2 s.cache = none :=
      hStale hd (List.mem_cons_self hd tl)
    have hsync : getOrRefreshSync hd.1 hd.2 s =
        (s, match s.cache with
            | some c => CallOutcome.value c true
            | none => CallOutcome.awaiting) := by
      unfold getOrRefreshSync
      rw [h1, hBusy]
      cases s.cache <;> simp
    have ih' := ih fun p hp => hStale p (List.mem_cons_of_mem hd hp)
    simp only [processCalls, hsync, ih', List.map_cons]

/-- **C1.**  Single-flight discipline: from an idle state, any nonempty
sequence of `getInjuryReportWithCache` calls arriving while no cached value is
fresh (and before the refresh completes) starts exactly one underlying
`fetchLatestInjuryReport` pipeline execution; the first call initiates it, and
every other call either immediately receives the cached value marked stale
(when a cached value exists) or awaits the same in-flight refresh; completion
of the refresh — success or failure — clears the in-flight marker. -/
theorem singleFlight_oneRefresh (calls : List (Int × Int)) (s0 : CacheState)
    (hIdle : s0.inFlight = false) (hNE : calls ≠ [])
    (hStale : ∀ p ∈ calls, getCachedInjuryReport p.1 p.2 s0.cache = none) :
    (processCalls calls s0).1.started = s0.started + 1 ∧
    (processCalls calls s0).1.inFlight = true ∧
    (processCalls calls s0).1.cache = s0.cache ∧
    (processCalls calls s0).2.head? = some CallOutcome.initiated ∧
    (∀ o ∈ (processCalls calls s0).2.tail,
      o = match s0.cache with
          | some c => CallOutcome.value c true
          | none => CallOutcome.awaiting) ∧
    (∀ res, (refreshComplete res (processCalls calls s0).1).inFlight = false) := by
  match calls with
  | [] => exact absurd rfl hNE
  | hd :: tl =>
    have h1 : getCachedInjuryReport hd.1 hd.2 s0.cache = none :=
      hStale hd (List.mem_cons_self hd tl)
    have hsync : getOrRefreshSync hd.1 hd.2 s0 =
        ({ s0 with inFlight := true, started := s0.started + 1 }, .initiated) := by
      unfold getOrRefreshSync
      rw [h1, hIdle]
      simp
    set s1 : CacheState := { s0 with inFlight := true, started := s0.started + 1 } with hs1
    have htl := processCalls_busy tl s1 rfl
      (fun p hp => hStale p (List.mem_cons_of_mem hd hp))
    have hrun : processCalls (hd :: tl) s0 =
        (s1, CallOutcome.initiated :: (processCalls tl s1).2) := by
      simp only [processCalls, hsync]
      have : (processCalls tl s1).1 = s1 := by rw [htl]
      simp [this]
    rw [hrun, htl]
    refine ⟨rfl, rfl, rfl, rfl, ?_, ?_⟩
    · intro o ho
      simp only [List.tail_cons] at ho
      have := List.mem_map.mp ho
      obtain ⟨p, _, hp⟩ := this
      exact hp.symm
    · intro res
      cases res <;> rfl

/-- Witness for C1: two concurrent calls against an empty idle cache. -/
theorem singleFlight_oneRefresh_witness :
    (processCalls [((0 : Int), (10 : Int)), (1, 10)] ⟨none, false, 0⟩).1.started = 0 + 1 ∧
    (processCalls [((0 : Int), (10 : Int)), (1, 10)] ⟨none, false, 0⟩).1.inFlight = true ∧
    (processCalls [((0 : Int), (10 : Int)), (1, 10)] ⟨none, false, 0⟩).1.cache = none ∧
    (processCalls [((0 : Int), (10 : Int)), (1, 10)] ⟨none, false, 0⟩).2.head? =
      some CallOutcome.initiated ∧
    (∀ o ∈ (processCalls [((0 : Int), (10 : Int)), (1, 10)] ⟨none, false, 0⟩).2.tail,
      o = CallOutcome.awaiting) ∧
    (∀ res, (refreshComplete res
      (processCalls [((0 : Int), (10 : Int)), (1, 10)] ⟨none, false, 0⟩).1).inFlight = false) :=
  singleFlight_oneRefresh [(0, 10), (1, 10)] ⟨none, false, 0⟩ rfl (by simp) (by decide)

/-- **C2.**  The read/refresh contract of the cache: `getCachedInjuryReport`
returns the cached artifact exactly when one is present and within `maxAge`;
a fresh value is returned immediately non-stale; with a refresh outstanding an
existing cached value (however old) is returned stale; with a refresh
outstanding and no cached value the caller awaits that refresh and receives
its result non-stale. -/
theorem cacheReadContract :
    (∀ (now ma : Int) (c : Option InjuryCacheValue) (v : InjuryCacheValue),
      getCachedInjuryReport now ma c = some v ↔
        (c = some v ∧ now - v.fetchedAtMs ≤ ma)) ∧
    (∀ (now ma : Int) (s : CacheState) (v : InjuryCacheValue),
      getCachedInjuryReport now ma s.cache = some v →
        getOrRefreshSync now ma s = (s, .value v false)) ∧
    (∀ (now ma : Int) (s : CacheState) (c : InjuryCacheValue),
      getCachedInjuryReport now ma s.cache = none → s.inFlight = true →
        s.cache = some c → getOrRefreshSync now ma s = (s, .value c true)) ∧
    (∀ (now ma : Int) (s : CacheState),
      s.inFlight = true → s.cache = none →
        getOrRefreshSync now ma s = (s, .awaiting)) ∧
    (∀ v, finishCall .awaiting (.ok v) = .ok (v, false)) := by
  refine ⟨?_, ?_, ?_, ?_, ?_⟩
  · intro now ma c v
    cases c with
    | none => simp [getCachedInjuryReport]
    | some c0 =>
      simp only [getCachedInjuryReport]
      split
      · next hle =>
        constructor
        · intro h
          cases h
          exact ⟨rfl, hle⟩
        · intro ⟨h1, _⟩
          cases h1
          rfl
      · next hgt =>
        constructor
        · intro h; cases h
        · intro ⟨h1, h2⟩
          cases h1
          exact absurd h2 hgt
  · intro now ma s v h
    unfold getOrRefreshSync
    rw [h]
  · intro now ma s c h hf hc
    unfold getOrRefreshSync
    rw [h, hf, hc]
    simp
  · intro now ma s hf hc
    have h : getCachedInjuryReport now ma s.cache = none := by rw [hc]; rfl
    unfold getOrRefreshSync
    rw [h, hf, hc]
    simp
  · intro v
    rfl

/-- Witness for C2 at concrete values. -/
theorem cacheReadContract_witness :
    (getCachedInjuryReport 3 10 (some ⟨0, "u", "l", "t"⟩) = some ⟨0, "u", "l", "t"⟩ ↔
      (some (⟨0, "u", "l", "t"⟩ : InjuryCacheValue) = some ⟨0, "u", "l", "t"⟩ ∧
        (3 : Int) - (0 : Int) ≤ 10)) ∧
    getOrRefreshSync 3 10 ⟨some ⟨0, "u", "l", "t"⟩, false, 0⟩ =
      (⟨some ⟨0, "u", "l", "t"⟩, false, 0⟩, .value ⟨0, "u", "l", "t"⟩ false) ∧
    getOrRefreshSync 99 10 ⟨some ⟨0, "u", "l", "t"⟩, true, 1⟩ =
      (⟨some ⟨0, "u", "l", "t"⟩, true, 1⟩, .value ⟨0, "u", "l", "t"⟩ true) ∧
    getOrRefreshSync 99 10 ⟨none, true, 1⟩ = (⟨none, true, 1⟩, .awaiting) ∧
    finishCall .awaiting (.ok ⟨0, "u", "l", "t"⟩) = .ok (⟨0, "u", "l", "t"⟩, false) :=
  ⟨cacheReadContract.1 3 10 (some ⟨0, "u", "l", "t"⟩) ⟨0, "u", "l", "t"⟩,
   cacheReadContract.2.1 3 10 ⟨some ⟨0, "u", "l", "t"⟩, false, 0⟩ ⟨0, "u", "l", "t"⟩ (by decide),
   cacheReadContract.2.2.1 99 10 ⟨some ⟨0, "u", "l", "t"⟩, true, 1⟩ ⟨0, "u", "l", "t"⟩
     (by decide) rfl rfl,
   cacheReadContract.2.2.2.1 99 10 ⟨none, true, 1⟩ rfl rfl,
   cacheReadContract.2.2.2.2 ⟨0, "u", "l", "t"⟩⟩

theorem getLast?_cons_or {α : Type} (a : α) (l : List α) :
    (a :: l).getLast? = l.getLast?.or (some a) := by
  induction l generalizing a with
  | nil => simp
  | cons b t ih =>
    rw [List.getLast?_cons_cons, ih b]
    cases t.getLast? <;> simp [Option.or]

theorem fetchLoop_exhausts (pairs : List (Candidate × CandidateEnv))
    (fetchNow : Int) (total : Nat) (le : Option String)
    (h : ∀ p ∈ pairs, ∀ t, tryCandidate p.2 ≠ .found t) :
    fetchLoop pairs fetchNow total le = .error ⟨total, (lastFailure pairs).or le⟩ := by
  induction pairs generalizing le with
  | nil => simp [fetchLoop, lastFailure, Option.or]
  | cons hd tl ih =>
    obtain ⟨c, env⟩ := hd
    have hhd := h (c, env) (List.mem_cons_self _ tl)
    have htl : ∀ p ∈ tl, ∀ t, tryCandidate p.2 ≠ .found t :=
      fun p hp => h p (List.mem_cons_of_mem _ hp)
    match hcr : tryCandidate env with
    | .found t => exact absurd hcr (hhd t)
    | .notFound =>
      simp only [fetchLoop, hcr]
      rw [ih le htl]
      simp [lastFailure, List.filterMap_cons, hcr]
    | .failed e =>
      simp only [fetchLoop, hcr]
      rw [ih (some e) htl]
      have : lastFailure ((c, env) :: tl) = (lastFailure tl).or (some e) := by
        simp only [lastFailure, List.filterMap_cons, hcr]
        exact getLast?_cons_or e _
      rw [this]
      cases htl' : lastFailure tl <;> simp [Option.or]

/-- **C3.**  When every candidate fails (negative probe, or a throwing
probe/fetch/parse), `fetchLatestInjuryReport` fails with the aggregate
`FetchExhausted` error carrying the number of candidates tried and the last
underlying per-candidate error, and a failed refresh leaves the cache slot
exactly as it was (the in-flight marker alone is released); only a successful
refresh replaces the cached value. -/
theorem fetchExhaustedContract (pairs : List (Candidate × CandidateEnv))
    (fetchNow : Int) (s : CacheState)
    (hAllFail : ∀ p ∈ pairs, ∀ t, tryCandidate p.2 ≠ .found t) :
    fetchLatestInjuryReport pairs fetchNow = .error ⟨pairs.length, lastFailure pairs⟩ ∧
    (refreshComplete none s).cache = s.cache ∧
    (refreshComplete none s).inFlight = false ∧
    (∀ v, (refreshComplete (some v) s).cache = some v) := by
  refine ⟨?_, rfl, rfl, fun v => rfl⟩
  have := fetchLoop_exhausts pairs fetchNow pairs.length none hAllFail
  rw [fetchLatestInjuryReport, this]
  cases h : lastFailure pairs <;> simp [Option.or]

/-- Witness for C3: two candidates, one negative probe and one throwing
fetch; the loop exhausts with `checked = 2` and the recorded last error. -/
theorem fetchExhaustedContract_witness :
    fetchLatestInjuryReport
      [(⟨"u1", "l1"⟩, ⟨.ok ⟨false, 404, "NF", ""⟩, .ok ⟨false, 404, "NF", ""⟩,
        .ok ⟨false, 404, "NF", ""⟩, fun _ => .ok "x"⟩),
       (⟨"u2", "l2"⟩, ⟨.ok ⟨true, 200, "OK", ""⟩, .ok ⟨true, 200, "OK", ""⟩,
        .error "boom", fun _ => .ok "x"⟩)] 7 =
      .error ⟨2, some "boom"⟩ ∧
    (refreshComplete none ⟨some ⟨0, "u", "l", "t"⟩, true, 1⟩).cache = some ⟨0, "u", "l", "t"⟩ ∧
    (refreshComplete none ⟨some ⟨0, "u", "l", "t"⟩, true, 1⟩).inFlight = false ∧
    (∀ v, (refreshComplete (some v) ⟨some ⟨0, "u", "l", "t"⟩, true, 1⟩).cache = some v) := by
  have h := fetchExhaustedContract
    [(⟨"u1", "l1"⟩, ⟨.ok ⟨false, 404, "NF", ""⟩, .ok ⟨false, 404, "NF", ""⟩,
      .ok ⟨false, 404, "NF", ""⟩, fun _ => .ok "x"⟩),
     (⟨"u2", "l2"⟩, ⟨.ok ⟨true, 200, "OK", ""⟩, .ok ⟨true, 200, "OK", ""⟩,
      .error "boom", fun _ => .ok "x"⟩)] 7 ⟨some ⟨0, "u", "l", "t"⟩, true, 1⟩
    (by
      intro p hp t
      simp only [List.mem_cons, List.mem_singleton] at hp
      rcases hp with h1 | h1 | h1
      · rw [h1]; intro hc; simp [tryCandidate, urlExists, urlExistsTraced] at hc
      · rw [h1]; intro hc
        simp [tryCandidate, urlExists, urlExistsTraced, fetchPdf] at hc
      · cases h1)
  obtain ⟨h1, _, _, h4⟩ := h
  refine ⟨by rw [h1]; rfl, rfl, rfl, h4⟩

/-- **C5.**  The existence check: the fallback GET probe runs exactly when
the HEAD probe itself throws; a HEAD probe that executes and reports a
non-success status short-circuits to `false` without the fallback probe, and
the candidate loop then skips the full retrieval entirely. -/
theorem urlExistsFallbackContract :
    (∀ head get : Except String HttpResponse,
      (urlExistsTraced head get).2 = true ↔ ∃ e, head = .error e) ∧
    (∀ (r : HttpResponse) (get : Except String HttpResponse),
      r.ok = false → urlExistsTraced (.ok r) get = (.ok false, false)) ∧
    (∀ (r : HttpResponse) (env : CandidateEnv),
      env.head = .ok r → r.ok = false → tryCandidate env = .notFound) := by
  refine ⟨?_, ?_, ?_⟩
  · intro head get
    cases head with
    | ok r => simp [urlExistsTraced]
    | error e => cases get <;> simp [urlExistsTraced]
  · intro r get hr
    simp [urlExistsTraced, hr]
  · intro r env hh hr
    unfold tryCandidate urlExists urlExistsTraced
    rw [hh]
    simp [hr]

/-- Witness for C5: a HEAD 404 response short-circuits. -/
theorem urlExistsFallbackContract_witness :
    ((urlExistsTraced (.error "down") (.ok ⟨true, 200, "OK", ""⟩)).2 = true ↔
      ∃ e, (Except.error e : Except String HttpResponse) = .error "down") ∧
    urlExistsTraced (.ok ⟨false, 404, "NF", ""⟩) (.error "down") = (.ok false, false) ∧
    tryCandidate ⟨.ok ⟨false, 404, "NF", ""⟩, .error "down", .error "never",
      fun _ => .error "never"⟩ = .notFound := by
  refine ⟨?_, ?_, ?_⟩
  · have h := urlExistsFallbackContract.1 (.error "down") (.ok ⟨true, 200, "OK", ""⟩)
    constructor
    · intro _; exact ⟨"down", rfl⟩
    · intro _; exact h.mpr ⟨"down", rfl⟩
  · exact urlExistsFallbackContract.2.1 ⟨false, 404, "NF", ""⟩ (.error "down") rfl
  · exact urlExistsFallbackContract.2.2 ⟨false, 404, "NF", ""⟩ _ rfl rfl

theorem dedupByUrl_sublist (l : List TimedCandidate) (seen : List String) :
    List.Sublist (dedupByUrl l seen) l := by
  induction l generalizing seen with
  | nil => simp [dedupByUrl]
  | cons c rest ih =>
    simp only [dedupByUrl]
    split
    · exact (ih seen).cons c
    · exact (ih (c.url :: seen)).cons₂ c

theorem dedupByUrl_nodup (l : List TimedCandidate) (seen : List String) :
    ((dedupByUrl l seen).map TimedCandidate.url).Nodup ∧
    ∀ u ∈ (dedupByUrl l seen).map TimedCandidate.url, u ∉ seen := by
  induction l generalizing seen with
  | nil => simp [dedupByUrl]
  | cons c rest ih =>
    simp only [dedupByUrl]
    split
    · next hmem =>
      exact ih seen
    · next hmem =>
      obtain ⟨hnd, hout⟩ := ih (c.url :: seen)
      refine ⟨?_, ?_⟩
      · simp only [List.map_cons, List.nodup_cons]
        refine ⟨fun hc => ?_, hnd⟩
        exact (hout _ hc) (List.mem_cons_self _ _)
      · intro u hu
        simp only [List.map_cons, List.mem_cons] at hu
        rcases hu with h | h
        · rw [h]; exact hmem
        · intro hs
          exact (hout u h) (List.mem_cons_of_mem _ hs)

theorem dedupByUrl_length (l : List TimedCandidate) (seen : List String) :
    (dedupByUrl l seen).length + dupCount l seen = l.length := by
  induction l generalizing seen with
  | nil => simp [dedupByUrl, dupCount]
  | cons c rest ih =>
    simp only [dedupByUrl, dupCount]
    split
    · have := ih seen; simp only [List.length_cons]; omega
    · have := ih (c.url :: seen); simp only [List.length_cons]; omega

theorem dedupByUrl_find? (l : List TimedCandidate) (seen : List String) (u : String)
    (hu : u ∉ seen) :
    (dedupByUrl l seen).find? (fun c => c.url == u) = l.find? (fun c => c.url == u) := by
  induction l generalizing seen with
  | nil => simp [dedupByUrl]
  | cons c rest ih =>
    simp only [dedupByUrl]
    split
    · next hmem =>
      have hne : (c.url == u) = false := by
        simp only [beq_eq_false_iff_ne, ne_eq]
        intro h; rw [h] at hmem; exact hu hmem
      rw [List.find?_cons_of_neg _ (by simp [hne]), ih seen hu]
    · next hmem =>
      by_cases hc : c.url = u
      · rw [List.find?_cons_of_pos _ (by simp [hc]), List.find?_cons_of_pos _ (by simp [hc])]
      · rw [List.find?_cons_of_neg _ (by simp [hc]), List.find?_cons_of_neg _ (by simp [hc])]
        exact ih (c.url :: seen) (by simp [hu, Ne.symm hc, hc])

theorem pairwise_timesDescending (l : List TimedCandidate)
    (h : l.Pairwise fun a b => b.t < a.t) : timesDescending l = true := by
  induction l with
  | nil => rfl
  | cons a rest ih =>
    cases rest with
    | nil => rfl
    | cons b tl =>
      simp only [timesDescending, Bool.and_eq_true, decide_eq_true_eq]
      rw [List.pairwise_cons] at h
      exact ⟨h.1 b (List.mem_cons_self b tl), ih h.2⟩

theorem candidateSeries_pairwise (fmt : Int → EtParts) (now : Int)
    (n : Nat) (step : Int) (hstep : 1 ≤ step) :
    (candidateSeries fmt now n step).Pairwise fun a b => b.t < a.t := by
  unfold candidateSeries
  rw [List.pairwise_map]
  have hr : (List.range (n + 1)).Pairwise (· < ·) := List.pairwise_lt_range (n + 1)
  refine hr.imp ?_
  intro i j hij
  simp only
  have hij' : (i : Int) < (j : Int) := by exact_mod_cast hij
  have hpos : (0 : Int) < step * 60000 := by
    have : (0 : Int) < step := by omega
    positivity
  have hmul : (i : Int) * (step * 60000) < (j : Int) * (step * 60000) :=
    mul_lt_mul_of_pos_right hij' hpos
  have hi : (i : Int) * step * 60000 = (i : Int) * (step * 60000) := by ring
  have hj : (j : Int) * step * 60000 = (j : Int) * (step * 60000) := by ring
  omega

/-- **C4 (amended: the step length is positive, as in every caller).**
`buildCandidateUrls` generates the candidate for instant
`now - i*stepMinutes` (in minutes; `i = 0..lookbackSteps`), so
`lookbackSteps + 1` candidates before de-duplication, strictly ordered
most-recent-first by nominal timestamp; de-duplication removes exactly the
URL collisions, keeps the first (most recent) occurrence of each URL, and
leaves no duplicate URL, so the final length is `lookbackSteps + 1` minus the
number of collisions. -/
theorem candidateListContract (fmt : Int → EtParts) (now : Int)
    (n : Nat) (step : Int) (hstep : 1 ≤ step) :
    (candidateSeries fmt now n step).length = n + 1 ∧
    (∀ i : Nat, i < n + 1 →
      (candidateSeries fmt now n step)[i]? =
        some ⟨now - (i : Int) * step * 60000,
          candidateUrl (fmt (now - (i : Int) * step * 60000)),
          candidateLabel (fmt (now - (i : Int) * step * 60000))⟩) ∧
    timesDescending (buildCandidateUrlsTimed fmt now n step) = true ∧
    ((buildCandidateUrlsTimed fmt now n step).map TimedCandidate.url).Nodup ∧
    (buildCandidateUrlsTimed fmt now n step).length +
      dupCount (candidateSeries fmt now n step) [] = n + 1 ∧
    (∀ u, (buildCandidateUrlsTimed fmt now n step).find? (fun c => c.url == u) =
      (candidateSeries fmt now n step).find? (fun c => c.url == u)) := by
  refine ⟨by rw [candidateSeries, List.length_map, List.length_range], ?_, ?_, ?_, ?_, ?_⟩
  · intro i hi
    rw [candidateSeries, List.getElem?_map, List.getElem?_range hi, Option.map_some']
  · exact pairwise_timesDescending _
      (List.Pairwise.sublist (dedupByUrl_sublist _ [])
        (candidateSeries_pairwise fmt now n step hstep))
  · exact (dedupByUrl_nodup _ []).1
  · rw [buildCandidateUrlsTimed, dedupByUrl_length, candidateSeries,
      List.length_map, List.length_range]
  · intro u
    exact dedupByUrl_find? _ [] u (by simp)

/-- Witness for C4 at concrete values (`now = 0`, one lookback step of 15
minutes, an injective formatter). -/
theorem candidateListContract_witness :
    (candidateSeries (fun t => ⟨toString t, "01", "00", "AM"⟩) 0 1 15).length = 1 + 1 ∧
    timesDescending (buildCandidateUrlsTimed
      (fun t => ⟨toString t, "01", "00", "AM"⟩) 0 1 15) = true ∧
    (buildCandidateUrlsTimed (fun t => ⟨toString t, "01", "00", "AM"⟩) 0 1 15).length +
      dupCount (candidateSeries (fun t => ⟨toString t, "01", "00", "AM"⟩) 0 1 15) [] =
        1 + 1 := by
  have h := candidateListContract (fun t => ⟨toString t, "01", "00", "AM"⟩) 0 1 15
    (by norm_num)
  exact ⟨h.1, h.2.2.1, h.2.2.2.2.1⟩

/-- **C4, counterexample to the claim as frozen.**  The claim quantifies over
every `stepMinutes`; with a negative step (allowed by the source's `number`
type) the nominal instants move forward, so the output is not ordered
most-recent-first. -/
theorem candidateOrder_counterexample :
    timesDescending (buildCandidateUrlsTimed
      (fun t => ⟨if t = 0 then "a" else "b", "01", "00", "AM"⟩) 0 1 (-1)) = false := by
  decide

end Polymarket

namespace InjuryParse

/-! ## Idempotence of the normalizer

The development below proves `normalizeForParsing ∘ normalizeForParsing =
normalizeForParsing`.  Strategy: the normalized output decomposes into
space-separated words; every pass distributes over the space separators; and
on each word of an already-normalized string every pass either is the identity
or wraps the whole word in redundant spaces, which the final collapse/trim
pass removes again. -/

/-! ### Fuel congruence and clean unfolding equations for the fueled scanners -/

theorem r1go_congr : ∀ (f f' : Nat) (l : List Char), l.length ≤ f → l.length ≤ f' →
    r1go f l = r1go f' l := by
  intro f
  induction f with
  | zero =>
    intro f' l hf _
    have h0 : l = [] := List.length_eq_zero.mp (Nat.le_zero.mp hf)
    subst h0
    cases f' <;> rfl
  | succ n ih =>
    intro f' l hf hf'
    cases l with
    | nil => cases f' <;> rfl
    | cons c rest =>
      cases f' with
      | zero => simp at hf'
      | succ m =>
        cases hm : matchMatchupAt (c :: rest) with
        | some pr =>
          obtain ⟨mm, r⟩ := pr
          have hr := matchMatchupAt_length hm
          simp only [List.length_cons] at hf hf' hr
          simp only [r1go, hm]
          rw [ih m r (by omega) (by omega)]
        | none =>
          simp only [List.length_cons] at hf hf'
          simp only [r1go, hm]
          rw [ih m rest (by omega) (by omega)]

theorem r2go_congr : ∀ (f f' : Nat) (l : List Char), l.length ≤ f → l.length ≤ f' →
    r2go f l = r2go f' l := by
  intro f
  induction f with
  | zero =>
    intro f' l hf _
    have h0 : l = [] := List.length_eq_zero.mp (Nat.le_zero.mp hf)
    subst h0
    cases f' <;> rfl
  | succ n ih =>
    intro f' l hf hf'
    cases l with
    | nil => cases f' <;> rfl
    | cons c rest =>
      cases f' with
      | zero => simp at hf'
      | succ m =>
        cases hm : matchStatusAt (c :: rest) with
        | some pr =>
          obtain ⟨mm, r⟩ := pr
          have hr := matchStatusAt_length hm
          simp only [List.length_cons] at hf hf' hr
          simp only [r2go, hm]
          rw [ih m r (by omega) (by omega)]
        | none =>
          simp only [List.length_cons] at hf hf'
          simp only [r2go, hm]
          rw [ih m rest (by omega) (by omega)]

theorem r4go_congr : ∀ (f f' : Nat) (l : List Char), l.length ≤ f → l.length ≤ f' →
    r4go f l = r4go f' l := by
  intro f
  induction f with
  | zero =>
    intro f' l hf _
    have h0 : l = [] := List.length_eq_zero.mp (Nat.le_zero.mp hf)
    subst h0
    cases f' <;> rfl
  | succ n ih =>
    intro f' l hf hf'
    cases l with
    | nil => cases f' <;> rfl
    | cons c rest =>
      cases f' with
      | zero => simp at hf'
      | succ m =>
        cases hm : dropLit "GLeague".data (c :: rest) with
        | some r =>
          have hr := dropLit_length hm
          simp only [List.length_cons] at hf hf'
          simp at hr
          simp only [r4go, hm]
          rw [ih m r (by omega) (by omega)]
        | none =>
          simp only [List.length_cons] at hf hf'
          simp only [r4go, hm]
          rw [ih m rest (by omega) (by omega)]

theorem collapseGo_congr : ∀ (f f' : Nat) (l : List Char), l.length ≤ f → l.length ≤ f' →
    collapseGo f l = collapseGo f' l := by
  intro f
  induction f with
  | zero =>
    intro f' l hf _
    have h0 : l = [] := List.length_eq_zero.mp (Nat.le_zero.mp hf)
    subst h0
    cases f' <;> rfl
  | succ n ih =>
    intro f' l hf hf'
    cases l with
    | nil => cases f' <;> rfl
    | cons c rest =>
      cases f' with
      | zero => simp at hf'
      | succ m =>
        by_cases hc : jsWs c = true
        · have hd := length_dropWhile_le jsWs rest
          simp only [List.length_cons] at hf hf'
          simp only [collapseGo, hc, if_true]
          rw [ih m (rest.dropWhile jsWs) (by omega) (by omega)]
        · have hc' : jsWs c = false := Bool.eq_false_iff.mpr hc
          simp only [List.length_cons] at hf hf'
          simp only [collapseGo, hc', Bool.false_eq_true, if_false]
          rw [ih m rest (by omega) (by omega)]

theorem wordsGo_congr : ∀ (f f' : Nat) (l : List Char), l.length ≤ f → l.length ≤ f' →
    wordsGo f l = wordsGo f' l := by
  intro f
  induction f with
  | zero =>
    intro f' l hf _
    have h0 : l = [] := List.length_eq_zero.mp (Nat.le_zero.mp hf)
    subst h0
    cases f' <;> rfl
  | succ n ih =>
    intro f' l hf hf'
    cases l with
    | nil => cases f' <;> rfl
    | cons c rest =>
      cases f' with
      | zero => simp at hf'
      | succ m =>
        by_cases hc : jsWs c = true
        · simp only [List.length_cons] at hf hf'
          simp only [wordsGo, hc, if_true]
          exact ih m rest (by omega) (by omega)
        · have hc' : jsWs c = false := Bool.eq_false_iff.mpr hc
          have hd : ((c :: rest).dropWhile fun x => !jsWs x).length ≤ rest.length := by
            have h1 : List.dropWhile (fun x => !jsWs x) (c :: rest) =
                List.dropWhile (fun x => !jsWs x) rest := by
              simp [List.dropWhile, hc']
            rw [h1]
            exact length_dropWhile_le _ rest
          simp only [List.length_cons] at hf hf'
          simp only [wordsGo, hc', Bool.false_eq_true, if_false]
          rw [ih m _ (by omega) (by omega)]

end InjuryParse

namespace InjuryParse

theorem r1core_nil : r1core [] = [] := rfl

theorem r1core_match {c : Char} {rest m r : List Char}
    (h : matchMatchupAt (c :: rest) = some (m, r)) :
    r1core (c :: rest) = ' ' :: (m ++ ' ' :: r1core r) := by
  have hr := matchMatchupAt_length h
  simp only [List.length_cons] at hr
  unfold r1core
  simp only [List.length_cons, r1go, h]
  rw [r1go_congr rest.length r.length r (by omega) le_rfl]

theorem r1core_nomatch {c : Char} {rest : List Char}
    (h : matchMatchupAt (c :: rest) = none) :
    r1core (c :: rest) = c :: r1core rest := by
  unfold r1core
  simp only [List.length_cons, r1go, h]

theorem r2core_nil : r2core [] = [] := rfl

theorem r2core_match {c : Char} {rest m r : List Char}
    (h : matchStatusAt (c :: rest) = some (m, r)) :
    r2core (c :: rest) = ' ' :: (m ++ ' ' :: r2core r) := by
  have hr := matchStatusAt_length h
  simp only [List.length_cons] at hr
  unfold r2core
  simp only [List.length_cons, r2go, h]
  rw [r2go_congr rest.length r.length r (by omega) le_rfl]

theorem r2core_nomatch {c : Char} {rest : List Char}
    (h : matchStatusAt (c :: rest) = none) :
    r2core (c :: rest) = c :: r2core rest := by
  unfold r2core
  simp only [List.length_cons, r2go, h]

theorem r4core_nil : r4core [] = [] := rfl

theorem r4core_match {c : Char} {rest r : List Char}
    (h : dropLit "GLeague".data (c :: rest) = some r) :
    r4core (c :: rest) = "G League".data ++ r4core r := by
  have hr := dropLit_length h
  simp only [List.length_cons] at hr
  simp at hr
  unfold r4core
  simp only [List.length_cons, r4go, h]
  rw [r4go_congr rest.length r.length r (by omega) le_rfl]

theorem r4core_nomatch {c : Char} {rest : List Char}
    (h : dropLit "GLeague".data (c :: rest) = none) :
    r4core (c :: rest) = c :: r4core rest := by
  unfold r4core
  simp only [List.length_cons, r4go, h]

theorem collapseWs_nil : collapseWs [] = [] := rfl

theorem collapseWs_ws {c : Char} {rest : List Char} (h : jsWs c = true) :
    collapseWs (c :: rest) = ' ' :: collapseWs (rest.dropWhile jsWs) := by
  have hd := length_dropWhile_le jsWs rest
  unfold collapseWs
  simp only [List.length_cons, collapseGo, h, if_true]
  rw [collapseGo_congr rest.length (rest.dropWhile jsWs).length _ (by omega) le_rfl]

theorem collapseWs_nonws {c : Char} {rest : List Char} (h : jsWs c = false) :
    collapseWs (c :: rest) = c :: collapseWs rest := by
  unfold collapseWs
  simp only [List.length_cons, collapseGo, h, Bool.false_eq_true, if_false]

theorem wordsCL_nil : wordsCL [] = [] := rfl

theorem wordsCL_ws {c : Char} {rest : List Char} (h : jsWs c = true) :
    wordsCL (c :: rest) = wordsCL rest := by
  unfold wordsCL
  simp only [List.length_cons, wordsGo, h, if_true]

theorem wordsCL_nonws {c : Char} {rest : List Char} (h : jsWs c = false) :
    wordsCL (c :: rest) =
      ((c :: rest).takeWhile fun x => !jsWs x) ::
        wordsCL ((c :: rest).dropWhile fun x => !jsWs x) := by
  have hd : ((c :: rest).dropWhile fun x => !jsWs x).length ≤ rest.length := by
    have h1 : List.dropWhile (fun x => !jsWs x) (c :: rest) =
        List.dropWhile (fun x => !jsWs x) rest := by
      simp [List.dropWhile, h]
    rw [h1]
    exact length_dropWhile_le _ rest
  unfold wordsCL
  simp only [List.length_cons, wordsGo, h, Bool.false_eq_true, if_false]
  rw [wordsGo_congr rest.length _ _ (by omega) le_rfl]

end InjuryParse

namespace InjuryParse

/-! ### Words and joins -/

/-- Join words with single-space separators. -/
def joinWords : List (List Char) → List Char
  | [] => []
  | [w] => w
  | w :: v :: rest => w ++ ' ' :: joinWords (v :: rest)

/-- No whitespace characters at all. -/
def WsFree (l : List Char) : Prop := ∀ c ∈ l, jsWs c = false

theorem takeWhile_append_stop {p : Char → Bool} {d : Char} (hd : p d = false)
    (A B : List Char) : (A ++ d :: B).takeWhile p = A.takeWhile p := by
  induction A with
  | nil => simp [List.takeWhile, hd]
  | cons a A' ih =>
    by_cases ha : p a = true
    · simp [List.takeWhile, ha, ih]
    · have ha' : p a = false := Bool.eq_false_iff.mpr ha
      simp [List.takeWhile, ha']

theorem dropWhile_append_stop {p : Char → Bool} {d : Char} (hd : p d = false)
    (A B : List Char) : (A ++ d :: B).dropWhile p = A.dropWhile p ++ d :: B := by
  induction A with
  | nil => simp [List.dropWhile, hd]
  | cons a A' ih =>
    by_cases ha : p a = true
    · simp [List.dropWhile, ha, ih]
    · have ha' : p a = false := Bool.eq_false_iff.mpr ha
      simp [List.dropWhile, ha']

theorem wordsCL_dropWhile_ws (l : List Char) :
    wordsCL (l.dropWhile jsWs) = wordsCL l := by
  induction l with
  | nil => rfl
  | cons c rest ih =>
    by_cases hc : jsWs c = true
    · rw [List.dropWhile_cons_of_pos (by simp [hc]), ih, wordsCL_ws hc]
    · have hc' : jsWs c = false := Bool.eq_false_iff.mpr hc
      rw [List.dropWhile_cons_of_neg (by simp [hc'])]

theorem wordsCL_append_ws {d : Char} (hd : jsWs d = true) :
    ∀ (n : Nat) (A B : List Char), A.length ≤ n →
      wordsCL (A ++ d :: B) = wordsCL A ++ wordsCL B := by
  intro n
  induction n with
  | zero =>
    intro A B hA
    have h0 : A = [] := List.length_eq_zero.mp (Nat.le_zero.mp hA)
    subst h0
    simp [wordsCL_ws hd, wordsCL_nil]
  | succ m ih =>
    intro A B hA
    cases A with
    | nil => simp [wordsCL_ws hd, wordsCL_nil]
    | cons c A' =>
      simp only [List.length_cons] at hA
      by_cases hc : jsWs c = true
      · rw [List.cons_append, wordsCL_ws hc, wordsCL_ws hc]
        exact ih A' B (by omega)
      · have hc' : jsWs c = false := Bool.eq_false_iff.mpr hc
        have hdp : (!jsWs d) = false := by simp [hd]
        rw [List.cons_append, wordsCL_nonws hc', wordsCL_nonws hc']
        rw [show c :: (A' ++ d :: B) = (c :: A') ++ d :: B from rfl]
        rw [takeWhile_append_stop hdp, dropWhile_append_stop hdp]
        have hlen : ((c :: A').dropWhile fun x => !jsWs x).length ≤ m := by
          have h1 : List.dropWhile (fun x => !jsWs x) (c :: A') =
              List.dropWhile (fun x => !jsWs x) A' := by
            simp [List.dropWhile, hc']
          rw [h1]
          have := length_dropWhile_le (fun x => !jsWs x) A'
          omega
        rw [ih _ B hlen]
        simp

theorem wordsCL_wordish :
    ∀ (n : Nat) (l : List Char), l.length ≤ n →
      ∀ w ∈ wordsCL l, w ≠ [] ∧ WsFree w := by
  intro n
  induction n with
  | zero =>
    intro l hl w hw
    have h0 : l = [] := List.length_eq_zero.mp (Nat.le_zero.mp hl)
    subst h0
    simp [wordsCL_nil] at hw
  | succ m ih =>
    intro l hl w hw
    cases l with
    | nil => simp [wordsCL_nil] at hw
    | cons c rest =>
      simp only [List.length_cons] at hl
      by_cases hc : jsWs c = true
      · rw [wordsCL_ws hc] at hw
        exact ih rest (by omega) w hw
      · have hc' : jsWs c = false := Bool.eq_false_iff.mpr hc
        rw [wordsCL_nonws hc'] at hw
        rcases List.mem_cons.mp hw with rfl | hmem
        · constructor
          · rw [List.takeWhile_cons_of_pos (by simp [hc'])]
            simp
          · intro x hx
            have := List.takeWhile_subset (l := c :: rest) (p := fun x => !jsWs x)
            have hsat : (fun x => !jsWs x) x = true := by
              have h2 := List.mem_takeWhile_imp hx
              exact h2
            simp at hsat
            exact hsat
        · have hlen : ((c :: rest).dropWhile fun x => !jsWs x).length ≤ m := by
            have h1 : List.dropWhile (fun x => !jsWs x) (c :: rest) =
                List.dropWhile (fun x => !jsWs x) rest := by
              simp [List.dropWhile, hc']
            rw [h1]
            have := length_dropWhile_le (fun x => !jsWs x) rest
            omega
          exact ih _ hlen w hmem

theorem wordsCL_single {w : List Char} (hne : w ≠ []) (hws : WsFree w) :
    wordsCL w = [w] := by
  cases w with
  | nil => exact absurd rfl hne
  | cons c rest =>
    have hc : jsWs c = false := hws c (List.mem_cons_self _ _)
    rw [wordsCL_nonws hc]
    have htw : (c :: rest).takeWhile (fun x => !jsWs x) = c :: rest := by
      apply List.takeWhile_eq_self_iff.mpr
      intro x hx
      simp [hws x hx]
    have hdw : (c :: rest).dropWhile (fun x => !jsWs x) = [] := by
      apply List.dropWhile_eq_nil_iff.mpr
      intro x hx
      simp [hws x hx]
    rw [htw, hdw, wordsCL_nil]

theorem wordsCL_joinWords :
    ∀ ws : List (List Char), (∀ w ∈ ws, w ≠ [] ∧ WsFree w) →
      wordsCL (joinWords ws) = ws := by
  intro ws
  induction ws with
  | nil => intro _; rfl
  | cons w rest ih =>
    intro h
    obtain ⟨hne, hws⟩ := h w (List.mem_cons_self _ _)
    cases rest with
    | nil =>
      show wordsCL w = [w]
      exact wordsCL_single hne hws
    | cons v rest' =>
      show wordsCL (w ++ ' ' :: joinWords (v :: rest')) = w :: v :: rest'
      rw [wordsCL_append_ws (by decide) w.length w _ le_rfl, wordsCL_single hne hws,
        ih fun u hu => h u (List.mem_cons_of_mem _ hu)]
      rfl

end InjuryParse

namespace InjuryParse

/-! ### Collapse and trim produce the joined word decomposition -/

theorem dropWhile_head_neg {p : Char → Bool} :
    ∀ {l : List Char} {d : Char} {t : List Char}, l.dropWhile p = d :: t → p d = false := by
  intro l
  induction l with
  | nil => intro d t h; simp [List.dropWhile] at h
  | cons c rest ih =>
    intro d t h
    by_cases hc : p c = true
    · rw [List.dropWhile_cons_of_pos hc] at h
      exact ih h
    · have hc' : p c = false := Bool.eq_false_iff.mpr hc
      rw [List.dropWhile_cons_of_neg (by simp [hc'])] at h
      cases h
      exact hc'

/-- The leading mark of the collapsed string: a single space iff the input
begins with whitespace. -/
def leadMark (z : List Char) : List Char :=
  match z with
  | [] => []
  | c :: _ => if jsWs c then [' '] else []

theorem joinWords_cons_cons (c : Char) (w : List Char) (ws : List (List Char)) :
    joinWords ((c :: w) :: ws) = c :: joinWords (w :: ws) := by
  cases ws <;> rfl

theorem collapse_decomp :
    ∀ (n : Nat) (z : List Char), z.length ≤ n →
      ∃ t, (t = [] ∨ t = [' ']) ∧ (joinWords (wordsCL z) = [] → t = []) ∧
        collapseWs z = leadMark z ++ joinWords (wordsCL z) ++ t := by
  intro n
  induction n with
  | zero =>
    intro z hz
    have h0 : z = [] := List.length_eq_zero.mp (Nat.le_zero.mp hz)
    subst h0
    exact ⟨[], Or.inl rfl, fun _ => rfl, rfl⟩
  | succ m ih =>
    intro z hz
    cases z with
    | nil => exact ⟨[], Or.inl rfl, fun _ => rfl, rfl⟩
    | cons c rest =>
      simp only [List.length_cons] at hz
      by_cases hc : jsWs c = true
      · -- whitespace head: one space, then the collapse of the stripped rest
        have hsublen : (rest.dropWhile jsWs).length ≤ m := by
          have := length_dropWhile_le jsWs rest
          omega
        obtain ⟨t, ht, htj, heq⟩ := ih (rest.dropWhile jsWs) hsublen
        have hwz : wordsCL (c :: rest) = wordsCL (rest.dropWhile jsWs) := by
          rw [wordsCL_ws hc, wordsCL_dropWhile_ws]
        have hlead : leadMark (rest.dropWhile jsWs) = [] := by
          cases hd : rest.dropWhile jsWs with
          | nil => rfl
          | cons d sd =>
            have := dropWhile_head_neg hd
            simp [leadMark, this]
        refine ⟨t, ht, ?_, ?_⟩
        · rw [hwz]; exact htj
        · rw [collapseWs_ws hc, heq, hlead, hwz]
          simp [leadMark, hc]
      · have hc' : jsWs c = false := Bool.eq_false_iff.mpr hc
        cases rest with
        | nil =>
          refine ⟨[], Or.inl rfl, fun _ => rfl, ?_⟩
          rw [collapseWs_nonws hc', collapseWs_nil, wordsCL_nonws hc']
          simp [leadMark, hc', List.takeWhile, List.dropWhile, wordsCL_nil, joinWords]
        | cons d rest' =>
          obtain ⟨t, ht, htj, heq⟩ := ih (d :: rest') (by omega)
          by_cases hd : jsWs d = true
          · -- word break right after c: the word is [c]
            have hwz : wordsCL (c :: d :: rest') = [c] :: wordsCL (d :: rest') := by
              rw [wordsCL_nonws hc']
              have h1 : (c :: d :: rest').takeWhile (fun x => !jsWs x) = [c] := by
                rw [List.takeWhile_cons_of_pos (by simp [hc']),
                  List.takeWhile_cons_of_neg (by simp [hd])]
              have h2 : (c :: d :: rest').dropWhile (fun x => !jsWs x) = d :: rest' := by
                rw [List.dropWhile_cons_of_pos (by simp [hc']),
                  List.dropWhile_cons_of_neg (by simp [hd])]
              rw [h1, h2]
            have hleadr : leadMark (d :: rest') = [' '] := by simp [leadMark, hd]
            cases hwr : wordsCL (d :: rest') with
            | nil =>
              have hjr : joinWords (wordsCL (d :: rest')) = [] := by rw [hwr]; rfl
              have ht0 : t = [] := htj hjr
              refine ⟨[' '], Or.inr rfl, ?_, ?_⟩
              · intro hj
                rw [hwz, hwr] at hj
                simp [joinWords] at hj
              · rw [collapseWs_nonws hc', heq, hleadr, hjr, ht0, hwz, hwr]
                simp [leadMark, hc', joinWords]
            | cons v ws' =>
              refine ⟨t, ht, fun hj => ?_, ?_⟩
              · rw [hwz, hwr] at hj
                simp [joinWords] at hj
              · rw [collapseWs_nonws hc', heq, hleadr, hwz, hwr]
                simp only [leadMark, hc', Bool.false_eq_true, if_false, joinWords]
                simp
          · -- the word continues: c merges into the first word of the rest
            have hd' : jsWs d = false := Bool.eq_false_iff.mpr hd
            have hwz : wordsCL (c :: d :: rest') =
                ((c :: d :: rest').takeWhile fun x => !jsWs x) ::
                  wordsCL ((c :: d :: rest').dropWhile fun x => !jsWs x) :=
              wordsCL_nonws hc'
            have hwr : wordsCL (d :: rest') =
                ((d :: rest').takeWhile fun x => !jsWs x) ::
                  wordsCL ((d :: rest').dropWhile fun x => !jsWs x) :=
              wordsCL_nonws hd'
            have htw : (c :: d :: rest').takeWhile (fun x => !jsWs x) =
                c :: ((d :: rest').takeWhile fun x => !jsWs x) := by
              rw [List.takeWhile_cons_of_pos (by simp [hc'])]
            have hdw : (c :: d :: rest').dropWhile (fun x => !jsWs x) =
                (d :: rest').dropWhile fun x => !jsWs x := by
              rw [List.dropWhile_cons_of_pos (by simp [hc'])]
            have hleadr : leadMark (d :: rest') = [] := by simp [leadMark, hd']
            refine ⟨t, ht, fun hj => ?_, ?_⟩
            · rw [hwz, htw] at hj
              rw [joinWords_cons_cons] at hj
              simp at hj
            · rw [collapseWs_nonws hc', heq, hleadr, hwz, htw, hdw, joinWords_cons_cons,
                ← hwr]
              simp [leadMark, hc']

end InjuryParse

namespace InjuryParse

theorem joinWords_ne_nil {w : List Char} (hw : w ≠ []) (ws : List (List Char)) :
    joinWords (w :: ws) ≠ [] := by
  cases ws with
  | nil => exact hw
  | cons v rest =>
    show w ++ ' ' :: joinWords (v :: rest) ≠ []
    simp

theorem joinWords_head_nonws :
    ∀ (ws : List (List Char)), (∀ w ∈ ws, w ≠ [] ∧ WsFree w) →
      ∀ c, (joinWords ws).head? = some c → jsWs c = false := by
  intro ws h c hc
  cases ws with
  | nil => simp [joinWords] at hc
  | cons w rest =>
    obtain ⟨hne, hws⟩ := h w (List.mem_cons_self _ _)
    have hhd : (joinWords (w :: rest)).head? = w.head? := by
      cases rest with
      | nil => rfl
      | cons v rest' =>
        show (w ++ ' ' :: joinWords (v :: rest')).head? = w.head?
        cases w with
        | nil => exact absurd rfl hne
        | cons a w' => rfl
    rw [hhd] at hc
    exact hws c (List.mem_of_mem_head? hc)

theorem joinWords_getLast_nonws :
    ∀ (ws : List (List Char)), (∀ w ∈ ws, w ≠ [] ∧ WsFree w) →
      ∀ c, (joinWords ws).getLast? = some c → jsWs c = false := by
  intro ws
  induction ws with
  | nil => intro _ c hc; simp [joinWords] at hc
  | cons w rest ih =>
    intro h c hc
    obtain ⟨hne, hws⟩ := h w (List.mem_cons_self _ _)
    cases rest with
    | nil =>
      exact hws c (List.mem_of_mem_getLast? hc)
    | cons v rest' =>
      have hjoin : joinWords (w :: v :: rest') = w ++ ' ' :: joinWords (v :: rest') := rfl
      rw [hjoin] at hc
      have hvne : joinWords (v :: rest') ≠ [] :=
        joinWords_ne_nil (h v (by simp)).1 rest'
      rw [List.getLast?_append_cons] at hc
      have hc2 : (joinWords (v :: rest')).getLast? = some c := by
        cases hj : joinWords (v :: rest') with
        | nil => exact absurd hj hvne
        | cons a t =>
          rw [hj] at hc
          rw [show (' ' :: a :: t) = [' '] ++ a :: t from rfl,
            List.getLast?_append_cons] at hc
          exact hc
      exact ih (fun u hu => h u (List.mem_cons_of_mem _ hu)) c hc2

theorem dropWhile_ws_pad {lead v : List Char} (hl : lead = [] ∨ lead = [' '])
    (hv : ∀ c, v.head? = some c → jsWs c = false) :
    (lead ++ v).dropWhile jsWs = v := by
  have hbase : v.dropWhile jsWs = v := by
    cases v with
    | nil => rfl
    | cons a t =>
      rw [List.dropWhile_cons_of_neg]
      simp [hv a rfl]
  rcases hl with rfl | rfl
  · simpa using hbase
  · show (' ' :: v).dropWhile jsWs = v
    rw [List.dropWhile_cons_of_pos (by decide)]
    exact hbase

theorem jsTrim_pad {lead v t : List Char} (hl : lead = [] ∨ lead = [' '])
    (ht : t = [] ∨ t = [' ']) (hv : ∀ c, v.head? = some c → jsWs c = false)
    (hv2 : ∀ c, v.getLast? = some c → jsWs c = false) :
    jsTrim (lead ++ v ++ t) = v := by
  cases v with
  | nil =>
    rcases hl with rfl | rfl <;> rcases ht with rfl | rfl <;> rfl
  | cons a w =>
    have ha : jsWs a = false := hv a rfl
    unfold jsTrim
    have h1 : (lead ++ (a :: w) ++ t).dropWhile jsWs = (a :: w) ++ t := by
      rw [List.append_assoc]
      apply dropWhile_ws_pad hl
      intro c hc
      rw [List.cons_append] at hc
      cases hc
      exact ha
    rw [h1, List.reverse_append]
    have htr : t.reverse = [] ∨ t.reverse = [' '] := by
      rcases ht with rfl | rfl
      · exact Or.inl rfl
      · exact Or.inr rfl
    have hrv : ∀ c, (a :: w).reverse.head? = some c → jsWs c = false := by
      intro c hc
      rw [List.head?_reverse] at hc
      exact hv2 c hc
    rw [dropWhile_ws_pad htr hrv, List.reverse_reverse]

/-- `replace(/\s+/g, " ").trim()` is exactly "join the words with single
spaces". -/
theorem r9core_eq_joinWords (z : List Char) : r9core z = joinWords (wordsCL z) := by
  obtain ⟨t, ht, htj, heq⟩ := collapse_decomp z.length z le_rfl
  have hwordish := wordsCL_wordish z.length z le_rfl
  have hlead : leadMark z = [] ∨ leadMark z = [' '] := by
    cases z with
    | nil => exact Or.inl rfl
    | cons c rest =>
      by_cases hc : jsWs c = true
      · exact Or.inr (by simp [leadMark, hc])
      · have hc' : jsWs c = false := Bool.eq_false_iff.mpr hc
        exact Or.inl (by simp [leadMark, hc'])
  unfold r9core
  rw [heq]
  exact jsTrim_pad hlead ht (joinWords_head_nonws _ hwordish)
    (joinWords_getLast_nonws _ hwordish)

end InjuryParse


namespace InjuryParse

/-! ### Matcher structure: soundness, boundary behaviour, monotonicity -/

theorem takeUppers_append_nonupper {d : Char} (hd : isUpperAZ d = false) :
    ∀ (u v : List Char) (n : Nat),
      takeUppers (u ++ d :: v) n = ((takeUppers u n).1, (takeUppers u n).2 ++ d :: v) := by
  intro u
  induction u with
  | nil =>
    intro v n
    cases n with
    | zero => rfl
    | succ m => simp [takeUppers, hd]
  | cons c u' ih =>
    intro v n
    cases n with
    | zero => rfl
    | succ m =>
      by_cases hc : isUpperAZ c = true
      · rw [List.cons_append]
        simp only [takeUppers, hc, if_true]
        rw [ih v m]
      · have hc' : isUpperAZ c = false := Bool.eq_false_iff.mpr hc
        simp [takeUppers, hc']

theorem takeUppers_upper :
    ∀ (l : List Char) (n : Nat), ∀ c ∈ (takeUppers l n).1, isUpperAZ c = true := by
  intro l
  induction l with
  | nil => intro n c hc; cases n <;> simp [takeUppers] at hc
  | cons a rest ih =>
    intro n c hc
    cases n with
    | zero => simp [takeUppers] at hc
    | succ m =>
      by_cases ha : isUpperAZ a = true
      · simp only [takeUppers, ha, if_true] at hc
        rcases List.mem_cons.mp hc with rfl | hmem
        · exact ha
        · exact ih m c hmem
      · have ha' : isUpperAZ a = false := Bool.eq_false_iff.mpr ha
        simp [takeUppers, ha'] at hc

theorem takeUppers_len_le :
    ∀ (l : List Char) (n : Nat), (takeUppers l n).1.length ≤ n := by
  intro l
  induction l with
  | nil => intro n; cases n <;> simp [takeUppers]
  | cons a rest ih =>
    intro n
    cases n with
    | zero => simp [takeUppers]
    | succ m =>
      by_cases ha : isUpperAZ a = true
      · simp only [takeUppers, ha, if_true]
        have := ih m
        simp
        omega
      · have ha' : isUpperAZ a = false := Bool.eq_false_iff.mpr ha
        simp [takeUppers, ha']

theorem takeUppers_all_upper {u : List Char} {n : Nat}
    (hu : ∀ c ∈ u, isUpperAZ c = true) (hn : u.length ≤ n) :
    takeUppers u n = (u, []) := by
  induction u generalizing n with
  | nil => cases n <;> rfl
  | cons a rest ih =>
    cases n with
    | zero => simp at hn
    | succ m =>
      have ha := hu a (List.mem_cons_self _ _)
      simp only [List.length_cons] at hn
      simp only [takeUppers, ha, if_true]
      rw [ih (fun c hc => hu c (List.mem_cons_of_mem _ hc)) (by omega)]

theorem takeUppers_len_ge {u : List Char}
    (hu : ∀ c ∈ u, isUpperAZ c = true) :
    ∀ (X : List Char) (n : Nat), min n u.length ≤ (takeUppers (u ++ X) n).1.length := by
  induction u with
  | nil => intro X n; simp
  | cons a rest ih =>
    intro X n
    cases n with
    | zero => simp
    | succ m =>
      have ha := hu a (List.mem_cons_self _ _)
      rw [List.cons_append]
      simp only [takeUppers, ha, if_true]
      have := ih (fun c hc => hu c (List.mem_cons_of_mem _ hc)) X m
      simp only [List.length_cons]
      omega

theorem matchMatchupAt_sound {l m r : List Char}
    (h : matchMatchupAt l = some (m, r)) :
    l = m ++ r ∧ (∀ c ∈ m, isUpperAZ c = true ∨ c = '@') ∧
    ∃ u v, m = u ++ '@' :: v ∧ (∀ c ∈ u, isUpperAZ c = true) ∧
      (∀ c ∈ v, isUpperAZ c = true) ∧ 2 ≤ u.length ∧ u.length ≤ 3 ∧
      2 ≤ v.length ∧ v.length ≤ 3 := by
  unfold matchMatchupAt at h
  split at h
  · exact absurd h (by simp)
  · next hu =>
    split at h
    · next r2 heq =>
      split at h
      · exact absurd h (by simp)
      · next hv =>
        simp only [Option.some.injEq, Prod.mk.injEq] at h
        obtain ⟨hm, hr⟩ := h
        have h1 := takeUppers_append l 3
        have h2 := takeUppers_append r2 3
        have hup1 := takeUppers_upper l 3
        have hup2 := takeUppers_upper r2 3
        have hle1 := takeUppers_len_le l 3
        have hle2 := takeUppers_len_le r2 3
        have hsplit : l = m ++ r := by
          calc l = (takeUppers l 3).1 ++ (takeUppers l 3).2 := h1.symm
            _ = (takeUppers l 3).1 ++ '@' :: r2 := by rw [heq]
            _ = (takeUppers l 3).1 ++
                '@' :: ((takeUppers r2 3).1 ++ (takeUppers r2 3).2) := by rw [h2]
            _ = ((takeUppers l 3).1 ++ '@' :: (takeUppers r2 3).1) ++
                (takeUppers r2 3).2 := by simp
            _ = m ++ r := by rw [hm, hr]
        refine ⟨hsplit, ?_, (takeUppers l 3).1, (takeUppers r2 3).1, hm.symm,
          hup1, hup2, by omega, hle1, by omega, hle2⟩
        intro c hc
        rw [← hm] at hc
        rcases List.mem_append.mp hc with h' | h'
        · exact Or.inl (hup1 c h')
        · rcases List.mem_cons.mp h' with rfl | h''
          · exact Or.inr rfl
          · exact Or.inl (hup2 c h'')
    · exact absurd h (by simp)

theorem matchMatchupAt_self {l m r : List Char}
    (h : matchMatchupAt l = some (m, r)) :
    matchMatchupAt m = some (m, []) := by
  obtain ⟨_, _, u, v, hm, hu, hv, hu2, hu3, hv2, hv3⟩ := matchMatchupAt_sound h
  subst hm
  unfold matchMatchupAt
  rw [takeUppers_append_nonupper (by decide), takeUppers_all_upper hu hu3]
  dsimp only
  rw [if_neg (by omega)]
  simp only [List.nil_append]
  rw [takeUppers_all_upper hv hv3]
  dsimp only
  rw [if_neg (by omega)]

theorem matchMatchupAt_extend {A : List Char}
    (h : (matchMatchupAt A).isSome = true) (B : List Char) :
    (matchMatchupAt (A ++ B)).isSome = true := by
  obtain ⟨⟨m, r⟩, hm⟩ := Option.isSome_iff_exists.mp h
  obtain ⟨hA, _, u, v, hmv, hu, hv, hu2, hu3, hv2, hv3⟩ := matchMatchupAt_sound hm
  subst hA hmv
  rw [List.append_assoc, List.append_assoc]
  unfold matchMatchupAt
  rw [show ('@' :: v ++ (r ++ B)) = '@' :: (v ++ (r ++ B)) from rfl]
  rw [takeUppers_append_nonupper (by decide), takeUppers_all_upper hu hu3]
  dsimp only
  rw [if_neg (by omega)]
  simp only [List.nil_append]
  have hge := takeUppers_len_ge hv (r ++ B) 3
  rw [if_neg (by omega)]
  simp

end InjuryParse

namespace InjuryParse

theorem dropLit_sound : ∀ {p l r : List Char}, dropLit p l = some r → l = p ++ r := by
  intro p
  induction p with
  | nil => intro l r h; simp [dropLit] at h; simp [h]
  | cons a ps ih =>
    intro l r h
    match l with
    | [] => simp [dropLit] at h
    | c :: cs =>
      simp only [dropLit] at h
      split at h
      · next hc => rw [List.cons_append, ← ih h, hc]
      · exact absurd h (by simp)

theorem dropLit_self_append : ∀ (p X : List Char), dropLit p (p ++ X) = some X := by
  intro p
  induction p with
  | nil => intro X; rfl
  | cons a ps ih =>
    intro X
    simp only [List.cons_append, dropLit, if_pos rfl]
    exact ih X

theorem dropLit_append_mapD {d : Char} :
    ∀ {p : List Char}, d ∉ p → ∀ (u v : List Char),
      dropLit p (u ++ d :: v) = (dropLit p u).map (fun r => r ++ d :: v) := by
  intro p
  induction p with
  | nil => intro _ u v; rfl
  | cons q ps ih =>
    intro hd u v
    have hdq : d ≠ q := fun h => hd (h ▸ List.mem_cons_self _ _)
    have hdps : d ∉ ps := fun h => hd (List.mem_cons_of_mem _ h)
    cases u with
    | nil =>
      simp only [List.nil_append, dropLit]
      rw [if_neg hdq]
      rfl
    | cons c u' =>
      simp only [List.cons_append, dropLit]
      split
      · exact ih hdps u' v
      · rfl

theorem matchMatchupAt_append_map {d : Char} (hd : isUpperAZ d = false)
    (hd2 : d ≠ '@') (u v : List Char) :
    matchMatchupAt (u ++ d :: v) =
      (matchMatchupAt u).map (fun p => (p.1, p.2 ++ d :: v)) := by
  unfold matchMatchupAt
  rw [takeUppers_append_nonupper hd]
  dsimp only
  by_cases h1 : (takeUppers u 3).1.length < 2
  · simp [h1]
  · rw [if_neg h1, if_neg h1]
    cases hr : (takeUppers u 3).2 with
    | nil =>
      simp only [List.nil_append]
      split
      · next r2 heq =>
        exact absurd (by injection heq) hd2
      · rfl
    | cons e r2tail =>
      simp only [List.cons_append]
      by_cases he : e = '@'
      · subst he
        have mred : ∀ (X : List Char),
            (match '@' :: X with
              | '@' :: r2 =>
                if (takeUppers r2 3).1.length < 2 then none
                else some ((takeUppers u 3).1 ++ '@' :: (takeUppers r2 3).1,
                  (takeUppers r2 3).2)
              | _ => none) =
            (if (takeUppers X 3).1.length < 2 then none
              else some ((takeUppers u 3).1 ++ '@' :: (takeUppers X 3).1,
                (takeUppers X 3).2)) := fun X => rfl
        rw [mred (r2tail ++ d :: v), mred r2tail, takeUppers_append_nonupper hd]
        dsimp only
        by_cases h2 : (takeUppers r2tail 3).1.length < 2
        · simp [h2]
        · simp [h2]
      · split
        · next r2 heq =>
          have : e = '@' := by injection heq
          exact absurd this he
        · split
          · next r2 heq =>
            have : e = '@' := by injection heq
            exact absurd this he
          · rfl

theorem matchStatusAt_append_map {d : Char} (h1 : d ∉ "Out".data)
    (h2 : d ∉ "Doubtful".data) (h3 : d ∉ "Questionable".data)
    (h4 : d ∉ "Probable".data) (u v : List Char) :
    matchStatusAt (u ++ d :: v) =
      (matchStatusAt u).map (fun p => (p.1, p.2 ++ d :: v)) := by
  unfold matchStatusAt
  rw [dropLit_append_mapD h1, dropLit_append_mapD h2, dropLit_append_mapD h3,
    dropLit_append_mapD h4]
  cases dropLit "Out".data u with
  | some r => rfl
  | none =>
    cases dropLit "Doubtful".data u with
    | some r => rfl
    | none =>
      cases dropLit "Questionable".data u with
      | some r => rfl
      | none =>
        cases dropLit "Probable".data u with
        | some r => rfl
        | none => rfl

end InjuryParse

namespace InjuryParse

theorem dropLit_extend {p A r : List Char} (h : dropLit p A = some r) (B : List Char) :
    dropLit p (A ++ B) = some (r ++ B) := by
  have hA := dropLit_sound h
  subst hA
  rw [List.append_assoc]
  exact dropLit_self_append p (r ++ B)

theorem matchStatusAt_sound {l m r : List Char} (h : matchStatusAt l = some (m, r)) :
    l = m ++ r ∧ m ∈ statusWordChars := by
  unfold matchStatusAt at h
  split at h
  · next heq =>
    simp only [Option.some.injEq, Prod.mk.injEq] at h
    obtain ⟨rfl, rfl⟩ := h
    exact ⟨dropLit_sound heq, by simp [statusWordChars]⟩
  · split at h
    · next heq =>
      simp only [Option.some.injEq, Prod.mk.injEq] at h
      obtain ⟨rfl, rfl⟩ := h
      exact ⟨dropLit_sound heq, by simp [statusWordChars]⟩
    · split at h
      · next heq =>
        simp only [Option.some.injEq, Prod.mk.injEq] at h
        obtain ⟨rfl, rfl⟩ := h
        exact ⟨dropLit_sound heq, by simp [statusWordChars]⟩
      · split at h
        · next heq =>
          simp only [Option.some.injEq, Prod.mk.injEq] at h
          obtain ⟨rfl, rfl⟩ := h
          exact ⟨dropLit_sound heq, by simp [statusWordChars]⟩
        · exact absurd h (by simp)

theorem statusWord_self : ∀ w ∈ statusWordChars, matchStatusAt w = some (w, []) := by
  decide

theorem matchStatusAt_isSome_iff (l : List Char) :
    (matchStatusAt l).isSome = true ↔
      (dropLit "Out".data l).isSome = true ∨ (dropLit "Doubtful".data l).isSome = true ∨
      (dropLit "Questionable".data l).isSome = true ∨
      (dropLit "Probable".data l).isSome = true := by
  unfold matchStatusAt
  cases dropLit "Out".data l <;> cases dropLit "Doubtful".data l <;>
    cases dropLit "Questionable".data l <;> cases dropLit "Probable".data l <;> simp

theorem matchStatusAt_extend {A : List Char}
    (h : (matchStatusAt A).isSome = true) (B : List Char) :
    (matchStatusAt (A ++ B)).isSome = true := by
  rw [matchStatusAt_isSome_iff] at h ⊢
  rcases h with h | h | h | h <;>
    [skip; skip; skip; skip] <;>
    · obtain ⟨r, hr⟩ := Option.isSome_iff_exists.mp h
      first
        | exact Or.inl (by rw [dropLit_extend hr B]; rfl)
        | exact Or.inr (Or.inl (by rw [dropLit_extend hr B]; rfl))
        | exact Or.inr (Or.inr (Or.inl (by rw [dropLit_extend hr B]; rfl)))
        | exact Or.inr (Or.inr (Or.inr (by rw [dropLit_extend hr B]; rfl)))

/-- Does `(Out|Doubtful|Questionable|Probable)` match anywhere in the list? -/
def containsStatus (l : List Char) : Bool :=
  l.tails.any fun t => (matchStatusAt t).isSome

theorem containsMatchup_of_suffix {t l : List Char} (h : ∃ a, a ++ t = l)
    (hm : (matchMatchupAt t).isSome = true) : containsMatchup l = true := by
  obtain ⟨a, rfl⟩ := h
  unfold containsMatchup
  rw [List.any_eq_true]
  refine ⟨t, ?_, hm⟩
  rw [List.mem_tails]
  exact ⟨a, rfl⟩

theorem containsStatus_of_suffix {t l : List Char} (h : ∃ a, a ++ t = l)
    (hm : (matchStatusAt t).isSome = true) : containsStatus l = true := by
  obtain ⟨a, rfl⟩ := h
  unfold containsStatus
  rw [List.any_eq_true]
  refine ⟨t, ?_, hm⟩
  rw [List.mem_tails]
  exact ⟨a, rfl⟩

theorem containsMatchup_spec {l : List Char} (h : containsMatchup l = true) :
    ∃ a t, a ++ t = l ∧ (matchMatchupAt t).isSome = true := by
  unfold containsMatchup at h
  rw [List.any_eq_true] at h
  obtain ⟨t, ht, hm⟩ := h
  rw [List.mem_tails] at ht
  obtain ⟨a, ha⟩ := ht
  exact ⟨a, t, ha, hm⟩

theorem containsStatus_spec {l : List Char} (h : containsStatus l = true) :
    ∃ a t, a ++ t = l ∧ (matchStatusAt t).isSome = true := by
  unfold containsStatus at h
  rw [List.any_eq_true] at h
  obtain ⟨t, ht, hm⟩ := h
  rw [List.mem_tails] at ht
  obtain ⟨a, ha⟩ := ht
  exact ⟨a, t, ha, hm⟩

theorem containsMatchup_within {w' w : List Char} (a b : List Char)
    (hw : w = a ++ w' ++ b) (h : containsMatchup w' = true) :
    containsMatchup w = true := by
  obtain ⟨a', t, hat, hm⟩ := containsMatchup_spec h
  refine containsMatchup_of_suffix ⟨a ++ a', ?_⟩ (matchMatchupAt_extend hm b)
  rw [hw, ← hat]
  simp

theorem containsStatus_within {w' w : List Char} (a b : List Char)
    (hw : w = a ++ w' ++ b) (h : containsStatus w' = true) :
    containsStatus w = true := by
  obtain ⟨a', t, hat, hm⟩ := containsStatus_spec h
  refine containsStatus_of_suffix ⟨a ++ a', ?_⟩ (matchStatusAt_extend hm b)
  rw [hw, ← hat]
  simp

end InjuryParse

namespace InjuryParse

/-! ### Space homomorphism: each pass distributes over an interior `' '` -/

theorem r1core_space (B : List Char) : r1core (' ' :: B) = ' ' :: r1core B := by
  have h := matchMatchupAt_append_map (d := ' ') (by decide) (by decide) [] B
  simp only [List.nil_append] at h
  exact r1core_nomatch (by rw [h]; rfl)

theorem r1core_homo (A B : List Char) :
    r1core (A ++ ' ' :: B) = r1core A ++ ' ' :: r1core B := by
  have key : ∀ n (A : List Char), A.length ≤ n → ∀ B,
      r1core (A ++ ' ' :: B) = r1core A ++ ' ' :: r1core B := by
    intro n
    induction n with
    | zero =>
      intro A hA B
      have hAnil : A = [] := List.length_eq_zero.mp (Nat.le_zero.mp hA)
      subst hAnil
      simpa [r1core_nil] using r1core_space B
    | succ n ih =>
      intro A hA B
      cases A with
      | nil => simpa [r1core_nil] using r1core_space B
      | cons c rest =>
        have hmap := matchMatchupAt_append_map (d := ' ') (by decide) (by decide)
          (c :: rest) B
        cases hm : matchMatchupAt (c :: rest) with
        | some p =>
          obtain ⟨m, r⟩ := p
          rw [hm] at hmap
          rw [Option.map_some'] at hmap
          have hlen := matchMatchupAt_length hm
          simp only [List.length_cons] at hlen hA
          rw [List.cons_append] at hmap ⊢
          rw [r1core_match hmap, r1core_match hm,
            ih r (by omega) B]
          simp
        | none =>
          rw [hm] at hmap
          rw [Option.map_none'] at hmap
          rw [List.cons_append] at hmap ⊢
          rw [r1core_nomatch hmap, r1core_nomatch hm]
          simp only [List.length_cons] at hA
          rw [ih rest (by omega) B]
          rfl
  exact key A.length A le_rfl B

theorem r2core_space (B : List Char) : r2core (' ' :: B) = ' ' :: r2core B := by
  have h := matchStatusAt_append_map (d := ' ') (by decide) (by decide) (by decide)
    (by decide) [] B
  simp only [List.nil_append] at h
  exact r2core_nomatch (by rw [h]; rfl)

theorem r2core_homo (A B : List Char) :
    r2core (A ++ ' ' :: B) = r2core A ++ ' ' :: r2core B := by
  have key : ∀ n (A : List Char), A.length ≤ n → ∀ B,
      r2core (A ++ ' ' :: B) = r2core A ++ ' ' :: r2core B := by
    intro n
    induction n with
    | zero =>
      intro A hA B
      have hAnil : A = [] := List.length_eq_zero.mp (Nat.le_zero.mp hA)
      subst hAnil
      simpa [r2core_nil] using r2core_space B
    | succ n ih =>
      intro A hA B
      cases A with
      | nil => simpa [r2core_nil] using r2core_space B
      | cons c rest =>
        have hmap := matchStatusAt_append_map (d := ' ') (by decide) (by decide)
          (by decide) (by decide) (c :: rest) B
        cases hm : matchStatusAt (c :: rest) with
        | some p =>
          obtain ⟨m, r⟩ := p
          rw [hm] at hmap
          rw [Option.map_some'] at hmap
          have hlen := matchStatusAt_length hm
          simp only [List.length_cons] at hlen hA
          rw [List.cons_append] at hmap ⊢
          rw [r2core_match hmap, r2core_match hm,
            ih r (by omega) B]
          simp
        | none =>
          rw [hm] at hmap
          rw [Option.map_none'] at hmap
          rw [List.cons_append] at hmap ⊢
          rw [r2core_nomatch hmap, r2core_nomatch hm]
          simp only [List.length_cons] at hA
          rw [ih rest (by omega) B]
          rfl
  exact key A.length A le_rfl B

theorem r4core_space (B : List Char) : r4core (' ' :: B) = ' ' :: r4core B := by
  have h := dropLit_append_mapD (d := ' ') (p := "GLeague".data) (by decide) [] B
  simp only [List.nil_append] at h
  exact r4core_nomatch (by rw [h]; rfl)

theorem r4core_homo (A B : List Char) :
    r4core (A ++ ' ' :: B) = r4core A ++ ' ' :: r4core B := by
  have key : ∀ n (A : List Char), A.length ≤ n → ∀ B,
      r4core (A ++ ' ' :: B) = r4core A ++ ' ' :: r4core B := by
    intro n
    induction n with
    | zero =>
      intro A hA B
      have hAnil : A = [] := List.length_eq_zero.mp (Nat.le_zero.mp hA)
      subst hAnil
      simpa [r4core_nil] using r4core_space B
    | succ n ih =>
      intro A hA B
      cases A with
      | nil => simpa [r4core_nil] using r4core_space B
      | cons c rest =>
        have hmap := dropLit_append_mapD (d := ' ') (p := "GLeague".data) (by decide)
          (c :: rest) B
        cases hm : dropLit "GLeague".data (c :: rest) with
        | some r =>
          rw [hm] at hmap
          rw [Option.map_some'] at hmap
          have hlen := dropLit_length hm
          simp only [List.length_cons] at hlen hA
          rw [List.cons_append] at hmap ⊢
          rw [r4core_match hmap, r4core_match hm,
            ih r (by simp at hlen; omega) B]
          simp
        | none =>
          rw [hm] at hmap
          rw [Option.map_none'] at hmap
          rw [List.cons_append] at hmap ⊢
          rw [r4core_nomatch hmap, r4core_nomatch hm]
          simp only [List.length_cons] at hA
          rw [ih rest (by omega) B]
          rfl
  exact key A.length A le_rfl B

end InjuryParse


namespace InjuryParse

theorem r3core_nil : r3core [] = [] := rfl

theorem r3core_comma (l : List Char) : r3core (',' :: l) = ',' :: ' ' :: r3core l := rfl

theorem r3core_other {c : Char} (hc : c ≠ ',') (l : List Char) :
    r3core (c :: l) = c :: r3core l := by
  rw [r3core.eq_def]
  split
  · rename_i heq
    exact absurd heq (by simp)
  · rename_i rest heq
    injection heq with h1 _
    exact absurd h1 hc
  · rename_i c2 rest heq
    injection heq with h1 h2
    rw [h1, h2]

theorem r5core_nil : r5core [] = [] := rfl

theorem r5core_single (a : Char) : r5core [a] = [a] := by
  rw [r5core.eq_def]
  split
  · rename_i heq
    exact absurd heq (by simp)
  · rename_i c rest heq
    injection heq with h1 h2
    exact absurd h2 (by simp)
  · rename_i c2 rest hnc heq
    injection heq with h1 h2
    rw [← h1, ← h2]
    rfl

theorem r5core_cons2 (a b : Char) (l : List Char) :
    r5core (a :: b :: l) =
      if a = ')' ∧ isWordChar b = true then a :: ' ' :: r5core (b :: l)
      else a :: r5core (b :: l) := by
  rw [r5core.eq_def]
  split
  · rename_i heq
    exact absurd heq (by simp)
  · rename_i c rest heq
    injection heq with h1 h2
    injection h2 with h2a h2b
    rw [← h2a, ← h2b, h1]
    by_cases hw : isWordChar b = true
    · rw [if_pos hw, if_pos ⟨rfl, hw⟩]
    · rw [if_neg hw, if_neg fun h => hw h.2]
  · rename_i c2 rest hnc heq
    injection heq with h1 h2
    rw [← h1, ← h2]
    rw [if_neg ?_]
    rintro ⟨ha, -⟩
    exact hnc b l (h1 ▸ ha) h2.symm

end InjuryParse

namespace InjuryParse

theorem r3core_space (B : List Char) : r3core (' ' :: B) = ' ' :: r3core B :=
  r3core_other (by decide) B

theorem r3core_homo (A B : List Char) :
    r3core (A ++ ' ' :: B) = r3core A ++ ' ' :: r3core B := by
  induction A with
  | nil => simpa [r3core_nil] using r3core_space B
  | cons a A' ih =>
    by_cases ha : a = ','
    · subst ha
      rw [List.cons_append, r3core_comma, r3core_comma, ih]
      rfl
    · rw [List.cons_append, r3core_other ha, r3core_other ha, ih]
      rfl

theorem r5core_space (B : List Char) : r5core (' ' :: B) = ' ' :: r5core B := by
  cases B with
  | nil => exact r5core_single ' '
  | cons b l =>
    rw [r5core_cons2]
    rw [if_neg (by rintro ⟨h, -⟩; exact absurd h (by decide))]

theorem r5core_homo (A B : List Char) :
    r5core (A ++ ' ' :: B) = r5core A ++ ' ' :: r5core B := by
  induction A with
  | nil => simpa [r5core_nil] using r5core_space B
  | cons a A' ih =>
    cases A' with
    | nil =>
      rw [List.singleton_append, r5core_cons2, r5core_single]
      rw [if_neg (by rintro ⟨-, h⟩; exact absurd h (by decide))]
      rw [r5core_space]
      rfl
    | cons b A'' =>
      rw [List.cons_append, List.cons_append, r5core_cons2, ← List.cons_append,
        r5core_cons2 a b A'']
      by_cases h : a = ')' ∧ isWordChar b = true
      · rw [if_pos h, if_pos h, ih]
        rfl
      · rw [if_neg h, if_neg h, ih]
        rfl

theorem r6core_nil : r6core [] = [] := rfl

theorem r6core_single (a : Char) : r6core [a] = [a] := rfl

theorem r6core_cons2 (a b : Char) (l : List Char) :
    r6core (a :: b :: l) =
      if isLowerAZ a && isUpperAZ b then a :: ' ' :: r6core (b :: l)
      else a :: r6core (b :: l) := rfl

theorem r6core_space (B : List Char) : r6core (' ' :: B) = ' ' :: r6core B := by
  cases B with
  | nil => rfl
  | cons b l =>
    rw [r6core_cons2, if_neg (by rw [show isLowerAZ ' ' = false from rfl]; simp)]

theorem r6core_homo (A B : List Char) :
    r6core (A ++ ' ' :: B) = r6core A ++ ' ' :: r6core B := by
  induction A with
  | nil => simpa [r6core_nil] using r6core_space B
  | cons a A' ih =>
    cases A' with
    | nil =>
      rw [List.singleton_append, r6core_cons2, r6core_single]
      rw [if_neg (by rw [show isUpperAZ ' ' = false from rfl]; simp)]
      rw [r6core_space]
      rfl
    | cons b A'' =>
      rw [List.cons_append, List.cons_append, r6core_cons2, ← List.cons_append,
        r6core_cons2 a b A'']
      by_cases h : (isLowerAZ a && isUpperAZ b) = true
      · rw [if_pos h, if_pos h, ih]
        rfl
      · rw [if_neg h, if_neg h, ih]
        rfl

theorem r8core_nil : r8core [] = [] := rfl

theorem r8core_single (a : Char) : r8core [a] = [a] := rfl

theorem r8core_cons2 (a b : Char) (l : List Char) :
    r8core (a :: b :: l) =
      if isDigit09 a && isAlphaAZ b then a :: ' ' :: r8core (b :: l)
      else a :: r8core (b :: l) := rfl

theorem r8core_space (B : List Char) : r8core (' ' :: B) = ' ' :: r8core B := by
  cases B with
  | nil => rfl
  | cons b l =>
    rw [r8core_cons2, if_neg (by rw [show isDigit09 ' ' = false from rfl]; simp)]

theorem r8core_homo (A B : List Char) :
    r8core (A ++ ' ' :: B) = r8core A ++ ' ' :: r8core B := by
  induction A with
  | nil => simpa [r8core_nil] using r8core_space B
  | cons a A' ih =>
    cases A' with
    | nil =>
      rw [List.singleton_append, r8core_cons2, r8core_single]
      rw [if_neg (by rw [show isAlphaAZ ' ' = false from rfl]; simp)]
      rw [r8core_space]
      rfl
    | cons b A'' =>
      rw [List.cons_append, List.cons_append, r8core_cons2, ← List.cons_append,
        r8core_cons2 a b A'']
      by_cases h : (isDigit09 a && isAlphaAZ b) = true
      · rw [if_pos h, if_pos h, ih]
        rfl
      · rw [if_neg h, if_neg h, ih]
        rfl

theorem r7core_nil : r7core [] = [] := rfl

theorem r7core_single (a : Char) : r7core [a] = [a] := rfl

theorem r7core_two (a b : Char) : r7core [a, b] = [a, b] := rfl

theorem r7core_cons3 (a b c : Char) (l : List Char) :
    r7core (a :: b :: c :: l) =
      if isUpperAZ a && isUpperAZ b && isLowerAZ c then a :: ' ' :: r7core (b :: c :: l)
      else a :: r7core (b :: c :: l) := rfl

theorem r7core_space (B : List Char) : r7core (' ' :: B) = ' ' :: r7core B := by
  cases B with
  | nil => rfl
  | cons b l =>
    cases l with
    | nil => rfl
    | cons c l' =>
      rw [r7core_cons3,
        if_neg (by rw [show isUpperAZ ' ' = false from rfl]; simp)]

theorem r7core_homo (A B : List Char) :
    r7core (A ++ ' ' :: B) = r7core A ++ ' ' :: r7core B := by
  induction A with
  | nil => simpa [r7core_nil] using r7core_space B
  | cons a A' ih =>
    cases A' with
    | nil =>
      rw [List.singleton_append, r7core_single]
      cases B with
      | nil => rfl
      | cons b B' =>
        rw [r7core_cons3,
          if_neg (by rw [show isUpperAZ ' ' = false from rfl]; simp),
          r7core_space]
        rfl
    | cons b A'' =>
      cases A'' with
      | nil =>
        rw [List.cons_append, List.singleton_append, r7core_cons3, r7core_two]
        rw [if_neg (by rw [show isLowerAZ ' ' = false from rfl]; simp)]
        have hb := ih
        rw [List.singleton_append] at hb
        rw [hb]
        rfl
      | cons c A''' =>
        rw [List.cons_append, List.cons_append, List.cons_append, r7core_cons3,
          ← List.cons_append, ← List.cons_append, r7core_cons3 a b c A''']
        by_cases h : (isUpperAZ a && isUpperAZ b && isLowerAZ c) = true
        · rw [if_pos h, if_pos h, ih]
          rfl
        · rw [if_neg h, if_neg h, ih]
          rfl

end InjuryParse

namespace InjuryParse

/-! ### Space insertion: each pass only ever inserts `' '` characters -/

/-- `SpIns z v`: `v` is `z` with some `' '` characters inserted. -/
inductive SpIns : List Char → List Char → Prop
  | nil : SpIns [] []
  | cons (c : Char) {z v : List Char} : SpIns z v → SpIns (c :: z) (c :: v)
  | ins {z v : List Char} : SpIns z v → SpIns z (' ' :: v)

theorem SpIns.rfl : ∀ (l : List Char), SpIns l l
  | [] => SpIns.nil
  | c :: rest => SpIns.cons c (SpIns.rfl rest)

theorem SpIns.app {z v z' v' : List Char} (h : SpIns z v) (h' : SpIns z' v') :
    SpIns (z ++ z') (v ++ v') := by
  induction h with
  | nil => exact h'
  | cons c _ ih => exact SpIns.cons c ih
  | ins _ ih => exact SpIns.ins ih

theorem SpIns_nil_right {z : List Char} (h : SpIns z []) : z = [] := by
  cases h
  rfl

theorem SpIns_cons_right {a : List Char} {d : Char} {b : List Char}
    (h : SpIns a (d :: b)) :
    (∃ a₁, a = d :: a₁ ∧ SpIns a₁ b) ∨ (d = ' ' ∧ SpIns a b) := by
  cases h with
  | cons c hz => exact Or.inl ⟨_, Eq.refl _, hz⟩
  | ins hz => exact Or.inr ⟨Eq.refl _, hz⟩

theorem SpIns.trans {b c : List Char} (hbc : SpIns b c) :
    ∀ {a : List Char}, SpIns a b → SpIns a c := by
  induction hbc with
  | nil =>
    intro a hab
    exact hab
  | cons d hz ih =>
    intro a hab
    rcases SpIns_cons_right hab with ⟨a₁, rfl, h₁⟩ | ⟨hd, h₁⟩
    · exact SpIns.cons d (ih h₁)
    · rw [hd]
      exact SpIns.ins (ih h₁)
  | ins hz ih =>
    intro a hab
    exact SpIns.ins (ih hab)

theorem SpIns_front {z v : List Char} (h : SpIns z v) :
    ∀ {m b : List Char}, v = m ++ b → ' ' ∉ m → ∃ b', z = m ++ b' := by
  induction h with
  | nil =>
    intro m b hv _
    rcases List.append_eq_nil.mp hv.symm with ⟨rfl, -⟩
    exact ⟨[], Eq.refl _⟩
  | cons c hz ih =>
    intro m b hv hm
    cases m with
    | nil => exact ⟨_, Eq.refl _⟩
    | cons m₁ m' =>
      rw [List.cons_append] at hv
      injection hv with h1 h2
      obtain ⟨b', hb'⟩ := ih h2 (fun hx => hm (List.mem_cons_of_mem _ hx))
      exact ⟨b', by rw [List.cons_append, ← h1, hb']⟩
  | ins hz ih =>
    intro m b hv hm
    cases m with
    | nil => exact ⟨_, Eq.refl _⟩
    | cons m₁ m' =>
      rw [List.cons_append] at hv
      injection hv with h1 _
      exact absurd (h1 ▸ List.mem_cons_self m₁ m') hm

theorem SpIns_seg {z v : List Char} (h : SpIns z v) :
    ∀ {a m b : List Char}, v = a ++ m ++ b → ' ' ∉ m → ∃ a' b', z = a' ++ m ++ b' := by
  induction h with
  | nil =>
    intro a m b hv _
    rw [List.append_assoc] at hv
    rcases List.append_eq_nil.mp hv.symm with ⟨rfl, h2⟩
    rcases List.append_eq_nil.mp h2 with ⟨rfl, -⟩
    exact ⟨[], [], Eq.refl _⟩
  | cons c hz ih =>
    intro a m b hv hm
    cases a with
    | nil =>
      simp only [List.nil_append] at hv
      obtain ⟨b', hb'⟩ := SpIns_front (SpIns.cons c hz) hv hm
      exact ⟨[], b', by rw [List.nil_append, hb']⟩
    | cons a₁ a' =>
      simp only [List.cons_append] at hv
      injection hv with h1 h2
      obtain ⟨a'', b'', hab⟩ := ih h2 hm
      exact ⟨a₁ :: a'', b'', by rw [← h1, hab]; rfl⟩
  | ins hz ih =>
    rename_i zz vv
    intro a m b hv hm
    cases a with
    | nil =>
      simp only [List.nil_append] at hv
      cases m with
      | nil => exact ⟨[], zz, by simp⟩
      | cons m₁ m' =>
        rw [List.cons_append] at hv
        injection hv with h1 _
        exact absurd (h1 ▸ List.mem_cons_self m₁ m') hm
    | cons a₁ a' =>
      simp only [List.cons_append] at hv
      injection hv with _ h2
      exact ih h2 hm

end InjuryParse

namespace InjuryParse

theorem SpIns_r1 (z : List Char) : SpIns z (r1core z) := by
  have key : ∀ n (z : List Char), z.length ≤ n → SpIns z (r1core z) := by
    intro n
    induction n with
    | zero =>
      intro z hz
      rw [List.length_eq_zero.mp (Nat.le_zero.mp hz)]
      exact SpIns.nil
    | succ n ih =>
      intro z hz
      cases z with
      | nil => exact SpIns.nil
      | cons c rest =>
        cases hm : matchMatchupAt (c :: rest) with
        | some p =>
          obtain ⟨m, r⟩ := p
          obtain ⟨hdec, -, -, -, -⟩ := matchMatchupAt_sound hm
          have hlen := matchMatchupAt_length hm
          simp only [List.length_cons] at hlen hz
          rw [r1core_match hm, hdec]
          exact SpIns.ins (SpIns.app (SpIns.rfl m) (SpIns.ins (ih r (by omega))))
        | none =>
          simp only [List.length_cons] at hz
          rw [r1core_nomatch hm]
          exact SpIns.cons c (ih rest (by omega))
  exact key z.length z le_rfl

theorem SpIns_r2 (z : List Char) : SpIns z (r2core z) := by
  have key : ∀ n (z : List Char), z.length ≤ n → SpIns z (r2core z) := by
    intro n
    induction n with
    | zero =>
      intro z hz
      rw [List.length_eq_zero.mp (Nat.le_zero.mp hz)]
      exact SpIns.nil
    | succ n ih =>
      intro z hz
      cases z with
      | nil => exact SpIns.nil
      | cons c rest =>
        cases hm : matchStatusAt (c :: rest) with
        | some p =>
          obtain ⟨m, r⟩ := p
          obtain ⟨hdec, -⟩ := matchStatusAt_sound hm
          have hlen := matchStatusAt_length hm
          simp only [List.length_cons] at hlen hz
          rw [r2core_match hm, hdec]
          exact SpIns.ins (SpIns.app (SpIns.rfl m) (SpIns.ins (ih r (by omega))))
        | none =>
          simp only [List.length_cons] at hz
          rw [r2core_nomatch hm]
          exact SpIns.cons c (ih rest (by omega))
  exact key z.length z le_rfl

theorem SpIns_r3 (z : List Char) : SpIns z (r3core z) := by
  induction z with
  | nil => exact SpIns.nil
  | cons c rest ih =>
    by_cases hc : c = ','
    · subst hc
      rw [r3core_comma]
      exact SpIns.cons ',' (SpIns.ins ih)
    · rw [r3core_other hc]
      exact SpIns.cons c ih

theorem SpIns_r4 (z : List Char) : SpIns z (r4core z) := by
  have key : ∀ n (z : List Char), z.length ≤ n → SpIns z (r4core z) := by
    intro n
    induction n with
    | zero =>
      intro z hz
      rw [List.length_eq_zero.mp (Nat.le_zero.mp hz)]
      exact SpIns.nil
    | succ n ih =>
      intro z hz
      cases z with
      | nil => exact SpIns.nil
      | cons c rest =>
        cases hm : dropLit "GLeague".data (c :: rest) with
        | some r =>
          have hdec := dropLit_sound hm
          have hlen := dropLit_length hm
          simp only [List.length_cons] at hlen hz
          rw [r4core_match hm, hdec]
          show SpIns ('G' :: ("League".data ++ r)) ('G' :: ' ' :: ("League".data ++ r4core r))
          exact SpIns.cons 'G' (SpIns.ins (SpIns.app (SpIns.rfl "League".data)
            (ih r (by simp at hlen; omega))))
        | none =>
          simp only [List.length_cons] at hz
          rw [r4core_nomatch hm]
          exact SpIns.cons c (ih rest (by omega))
  exact key z.length z le_rfl

theorem SpIns_r5 (z : List Char) : SpIns z (r5core z) := by
  induction z with
  | nil => exact SpIns.nil
  | cons a A' ih =>
    cases A' with
    | nil =>
      rw [r5core_single]
      exact SpIns.cons a SpIns.nil
    | cons b A'' =>
      rw [r5core_cons2]
      split
      · exact SpIns.cons a (SpIns.ins ih)
      · exact SpIns.cons a ih

theorem SpIns_r6 (z : List Char) : SpIns z (r6core z) := by
  induction z with
  | nil => exact SpIns.nil
  | cons a A' ih =>
    cases A' with
    | nil => exact SpIns.cons a SpIns.nil
    | cons b A'' =>
      rw [r6core_cons2]
      split
      · exact SpIns.cons a (SpIns.ins ih)
      · exact SpIns.cons a ih

theorem SpIns_r7 (z : List Char) : SpIns z (r7core z) := by
  induction z with
  | nil => exact SpIns.nil
  | cons a A' ih =>
    cases A' with
    | nil => exact SpIns.cons a SpIns.nil
    | cons b A'' =>
      cases A'' with
      | nil => exact SpIns.cons a (SpIns.cons b SpIns.nil)
      | cons c A''' =>
        rw [r7core_cons3]
        split
        · exact SpIns.cons a (SpIns.ins ih)
        · exact SpIns.cons a ih

theorem SpIns_r8 (z : List Char) : SpIns z (r8core z) := by
  induction z with
  | nil => exact SpIns.nil
  | cons a A' ih =>
    cases A' with
    | nil => exact SpIns.cons a SpIns.nil
    | cons b A'' =>
      rw [r8core_cons2]
      split
      · exact SpIns.cons a (SpIns.ins ih)
      · exact SpIns.cons a ih

end InjuryParse

namespace InjuryParse

/-! ### Character class arithmetic -/

theorem upper_val {c : Char} (h : isUpperAZ c = true) :
    65 ≤ c.val.toNat ∧ c.val.toNat ≤ 90 := by
  simp only [isUpperAZ, Bool.and_eq_true, decide_eq_true_eq] at h
  exact ⟨h.1, h.2⟩

theorem lower_val {c : Char} (h : isLowerAZ c = true) :
    97 ≤ c.val.toNat ∧ c.val.toNat ≤ 122 := by
  simp only [isLowerAZ, Bool.and_eq_true, decide_eq_true_eq] at h
  exact ⟨h.1, h.2⟩

theorem digit_val {c : Char} (h : isDigit09 c = true) :
    48 ≤ c.val.toNat ∧ c.val.toNat ≤ 57 := by
  simp only [isDigit09, Bool.and_eq_true, decide_eq_true_eq] at h
  exact ⟨h.1, h.2⟩

theorem ws_vals {c : Char} (h : jsWs c = true) :
    c.val.toNat = 32 ∨ c.val.toNat = 9 ∨ c.val.toNat = 10 ∨ c.val.toNat = 11 ∨
    c.val.toNat = 12 ∨ c.val.toNat = 13 ∨ c.val.toNat = 160 ∨ c.val.toNat = 5760 ∨
    (8192 ≤ c.val.toNat ∧ c.val.toNat ≤ 8202) ∨ c.val.toNat = 8232 ∨
    c.val.toNat = 8233 ∨ c.val.toNat = 8239 ∨ c.val.toNat = 8287 ∨
    c.val.toNat = 12288 ∨ c.val.toNat = 65279 := by
  simp only [jsWs, Bool.or_eq_true, Bool.and_eq_true, decide_eq_true_eq] at h
  rcases h with ((((((((((((((h | h) | h) | h) | h) | h) | h) | h) | ⟨h1, h2⟩) | h) | h)
    | h) | h) | h) | h)
  all_goals try (rw [h]; decide)
  · have h1' : (8192 : Nat) ≤ c.val.toNat := h1
    have h2' : c.val.toNat ≤ 8202 := h2
    omega

theorem ws_not_upper {c : Char} (h : jsWs c = true) : isUpperAZ c = false := by
  cases hu : isUpperAZ c
  · rfl
  · have h1 := upper_val hu
    have h2 := ws_vals h
    omega

theorem ws_not_lower {c : Char} (h : jsWs c = true) : isLowerAZ c = false := by
  cases hu : isLowerAZ c
  · rfl
  · have h1 := lower_val hu
    have h2 := ws_vals h
    omega

theorem ws_not_digit {c : Char} (h : jsWs c = true) : isDigit09 c = false := by
  cases hu : isDigit09 c
  · rfl
  · have h1 := digit_val hu
    have h2 := ws_vals h
    omega

theorem ws_not_alpha {c : Char} (h : jsWs c = true) : isAlphaAZ c = false := by
  simp [isAlphaAZ, ws_not_upper h, ws_not_lower h]

theorem ws_not_wordChar {c : Char} (h : jsWs c = true) : isWordChar c = false := by
  simp only [isWordChar, ws_not_alpha h, ws_not_digit h, Bool.or_self, Bool.false_or,
    Bool.or_eq_false_iff, decide_eq_false_iff_not]
  intro hc
  rw [hc] at h
  exact absurd h (by decide)

theorem ws_ne {c d : Char} (h : jsWs c = true) (hd : jsWs d = false) : c ≠ d := by
  intro he
  rw [he, hd] at h
  cases h

theorem ws_notin {c : Char} (h : jsWs c = true) {L : List Char}
    (hL : L.all (fun d => !jsWs d) = true) : c ∉ L := by
  intro hm
  have := List.all_eq_true.mp hL c hm
  rw [h] at this
  cases this

theorem upper_ne {c d : Char} (h : isUpperAZ c = true) (hd : isUpperAZ d = false) :
    c ≠ d := by
  intro he
  rw [he, hd] at h
  cases h

theorem upper_not_lower {c : Char} (h : isUpperAZ c = true) : isLowerAZ c = false := by
  cases hu : isLowerAZ c
  · rfl
  · have h1 := upper_val h
    have h2 := lower_val hu
    omega

theorem upper_not_digit {c : Char} (h : isUpperAZ c = true) : isDigit09 c = false := by
  cases hu : isDigit09 c
  · rfl
  · have h1 := upper_val h
    have h2 := digit_val hu
    omega

theorem upper_not_ws {c : Char} (h : isUpperAZ c = true) : jsWs c = false := by
  cases hw : jsWs c
  · rfl
  · exact absurd h (by rw [ws_not_upper hw]; exact Bool.false_ne_true)

theorem upper_notin {c : Char} (h : isUpperAZ c = true) {L : List Char}
    (hL : L.all (fun d => !isUpperAZ d) = true) : c ∉ L := by
  intro hm
  have := List.all_eq_true.mp hL c hm
  rw [h] at this
  cases this

end InjuryParse

namespace InjuryParse

/-! ### Separator homomorphism, generalized to any non-pattern character -/

theorem r1core_headW {d : Char} (hd : isUpperAZ d = false) (hd2 : d ≠ '@')
    (B : List Char) : r1core (d :: B) = d :: r1core B := by
  have h := matchMatchupAt_append_map (d := d) hd hd2 [] B
  simp only [List.nil_append] at h
  exact r1core_nomatch (by rw [h]; rfl)

theorem r1core_homoW {d : Char} (hd : isUpperAZ d = false) (hd2 : d ≠ '@')
    (A B : List Char) : r1core (A ++ d :: B) = r1core A ++ d :: r1core B := by
  have key : ∀ n (A : List Char), A.length ≤ n → ∀ B,
      r1core (A ++ d :: B) = r1core A ++ d :: r1core B := by
    intro n
    induction n with
    | zero =>
      intro A hA B
      have hAnil : A = [] := List.length_eq_zero.mp (Nat.le_zero.mp hA)
      subst hAnil
      simpa [r1core_nil] using r1core_headW hd hd2 B
    | succ n ih =>
      intro A hA B
      cases A with
      | nil => simpa [r1core_nil] using r1core_headW hd hd2 B
      | cons c rest =>
        have hmap := matchMatchupAt_append_map (d := d) hd hd2 (c :: rest) B
        cases hm : matchMatchupAt (c :: rest) with
        | some p =>
          obtain ⟨m, r⟩ := p
          rw [hm] at hmap
          rw [Option.map_some'] at hmap
          have hlen := matchMatchupAt_length hm
          simp only [List.length_cons] at hlen hA
          rw [List.cons_append] at hmap ⊢
          rw [r1core_match hmap, r1core_match hm,
            ih r (by omega) B]
          simp
        | none =>
          rw [hm] at hmap
          rw [Option.map_none'] at hmap
          rw [List.cons_append] at hmap ⊢
          rw [r1core_nomatch hmap, r1core_nomatch hm]
          simp only [List.length_cons] at hA
          rw [ih rest (by omega) B]
          rfl
  exact key A.length A le_rfl B

theorem r2core_headW {d : Char} (h1 : d ∉ "Out".data) (h2 : d ∉ "Doubtful".data)
    (h3 : d ∉ "Questionable".data) (h4 : d ∉ "Probable".data) (B : List Char) :
    r2core (d :: B) = d :: r2core B := by
  have h := matchStatusAt_append_map (d := d) h1 h2 h3 h4 [] B
  simp only [List.nil_append] at h
  exact r2core_nomatch (by rw [h]; rfl)

theorem r2core_homoW {d : Char} (h1 : d ∉ "Out".data) (h2 : d ∉ "Doubtful".data)
    (h3 : d ∉ "Questionable".data) (h4 : d ∉ "Probable".data) (A B : List Char) :
    r2core (A ++ d :: B) = r2core A ++ d :: r2core B := by
  have key : ∀ n (A : List Char), A.length ≤ n → ∀ B,
      r2core (A ++ d :: B) = r2core A ++ d :: r2core B := by
    intro n
    induction n with
    | zero =>
      intro A hA B
      have hAnil : A = [] := List.length_eq_zero.mp (Nat.le_zero.mp hA)
      subst hAnil
      simpa [r2core_nil] using r2core_headW h1 h2 h3 h4 B
    | succ n ih =>
      intro A hA B
      cases A with
      | nil => simpa [r2core_nil] using r2core_headW h1 h2 h3 h4 B
      | cons c rest =>
        have hmap := matchStatusAt_append_map (d := d) h1 h2 h3 h4 (c :: rest) B
        cases hm : matchStatusAt (c :: rest) with
        | some p =>
          obtain ⟨m, r⟩ := p
          rw [hm] at hmap
          rw [Option.map_some'] at hmap
          have hlen := matchStatusAt_length hm
          simp only [List.length_cons] at hlen hA
          rw [List.cons_append] at hmap ⊢
          rw [r2core_match hmap, r2core_match hm,
            ih r (by omega) B]
          simp
        | none =>
          rw [hm] at hmap
          rw [Option.map_none'] at hmap
          rw [List.cons_append] at hmap ⊢
          rw [r2core_nomatch hmap, r2core_nomatch hm]
          simp only [List.length_cons] at hA
          rw [ih rest (by omega) B]
          rfl
  exact key A.length A le_rfl B

theorem r3core_homoW {d : Char} (hd : d ≠ ',') (A B : List Char) :
    r3core (A ++ d :: B) = r3core A ++ d :: r3core B := by
  induction A with
  | nil => simpa [r3core_nil] using r3core_other hd B
  | cons a A' ih =>
    by_cases ha : a = ','
    · subst ha
      rw [List.cons_append, r3core_comma, r3core_comma, ih]
      rfl
    · rw [List.cons_append, r3core_other ha, r3core_other ha, ih]
      rfl

theorem r4core_headW {d : Char} (hd : d ∉ "GLeague".data) (B : List Char) :
    r4core (d :: B) = d :: r4core B := by
  have h := dropLit_append_mapD (d := d) (p := "GLeague".data) hd [] B
  simp only [List.nil_append] at h
  exact r4core_nomatch (by rw [h]; rfl)

theorem r4core_homoW {d : Char} (hd : d ∉ "GLeague".data) (A B : List Char) :
    r4core (A ++ d :: B) = r4core A ++ d :: r4core B := by
  have key : ∀ n (A : List Char), A.length ≤ n → ∀ B,
      r4core (A ++ d :: B) = r4core A ++ d :: r4core B := by
    intro n
    induction n with
    | zero =>
      intro A hA B
      have hAnil : A = [] := List.length_eq_zero.mp (Nat.le_zero.mp hA)
      subst hAnil
      simpa [r4core_nil] using r4core_headW hd B
    | succ n ih =>
      intro A hA B
      cases A with
      | nil => simpa [r4core_nil] using r4core_headW hd B
      | cons c rest =>
        have hmap := dropLit_append_mapD (d := d) (p := "GLeague".data) hd
          (c :: rest) B
        cases hm : dropLit "GLeague".data (c :: rest) with
        | some r =>
          rw [hm] at hmap
          rw [Option.map_some'] at hmap
          have hlen := dropLit_length hm
          simp only [List.length_cons] at hlen hA
          rw [List.cons_append] at hmap ⊢
          rw [r4core_match hmap, r4core_match hm,
            ih r (by simp at hlen; omega) B]
          simp
        | none =>
          rw [hm] at hmap
          rw [Option.map_none'] at hmap
          rw [List.cons_append] at hmap ⊢
          rw [r4core_nomatch hmap, r4core_nomatch hm]
          simp only [List.length_cons] at hA
          rw [ih rest (by omega) B]
          rfl
  exact key A.length A le_rfl B

theorem r5core_headW {d : Char} (hd1 : d ≠ ')') (B : List Char) :
    r5core (d :: B) = d :: r5core B := by
  cases B with
  | nil => exact r5core_single d
  | cons b l =>
    rw [r5core_cons2]
    rw [if_neg (by rintro ⟨h, -⟩; exact absurd h hd1)]

theorem r5core_homoW {d : Char} (hd1 : d ≠ ')') (hd2 : isWordChar d = false)
    (A B : List Char) : r5core (A ++ d :: B) = r5core A ++ d :: r5core B := by
  induction A with
  | nil => simpa [r5core_nil] using r5core_headW hd1 B
  | cons a A' ih =>
    cases A' with
    | nil =>
      rw [List.singleton_append, r5core_cons2, r5core_single]
      rw [if_neg (by rintro ⟨-, h⟩; rw [hd2] at h; cases h)]
      rw [r5core_headW hd1]
      rfl
    | cons b A'' =>
      rw [List.cons_append, List.cons_append, r5core_cons2, ← List.cons_append,
        r5core_cons2 a b A'']
      by_cases h : a = ')' ∧ isWordChar b = true
      · rw [if_pos h, if_pos h, ih]
        rfl
      · rw [if_neg h, if_neg h, ih]
        rfl

theorem r6core_headW {d : Char} (hd1 : isLowerAZ d = false) (B : List Char) :
    r6core (d :: B) = d :: r6core B := by
  cases B with
  | nil => rfl
  | cons b l =>
    rw [r6core_cons2, if_neg (by rw [hd1]; simp)]

theorem r6core_homoW {d : Char} (hd1 : isLowerAZ d = false)
    (hd2 : isUpperAZ d = false) (A B : List Char) :
    r6core (A ++ d :: B) = r6core A ++ d :: r6core B := by
  induction A with
  | nil => simpa [r6core_nil] using r6core_headW hd1 B
  | cons a A' ih =>
    cases A' with
    | nil =>
      rw [List.singleton_append, r6core_cons2, r6core_single]
      rw [if_neg (by rw [hd2]; simp)]
      rw [r6core_headW hd1]
      rfl
    | cons b A'' =>
      rw [List.cons_append, List.cons_append, r6core_cons2, ← List.cons_append,
        r6core_cons2 a b A'']
      by_cases h : (isLowerAZ a && isUpperAZ b) = true
      · rw [if_pos h, if_pos h, ih]
        rfl
      · rw [if_neg h, if_neg h, ih]
        rfl

theorem r8core_headW {d : Char} (hd1 : isDigit09 d = false) (B : List Char) :
    r8core (d :: B) = d :: r8core B := by
  cases B with
  | nil => rfl
  | cons b l =>
    rw [r8core_cons2, if_neg (by rw [hd1]; simp)]

theorem r8core_homoW {d : Char} (hd1 : isDigit09 d = false)
    (hd2 : isAlphaAZ d = false) (A B : List Char) :
    r8core (A ++ d :: B) = r8core A ++ d :: r8core B := by
  induction A with
  | nil => simpa [r8core_nil] using r8core_headW hd1 B
  | cons a A' ih =>
    cases A' with
    | nil =>
      rw [List.singleton_append, r8core_cons2, r8core_single]
      rw [if_neg (by rw [hd2]; simp)]
      rw [r8core_headW hd1]
      rfl
    | cons b A'' =>
      rw [List.cons_append, List.cons_append, r8core_cons2, ← List.cons_append,
        r8core_cons2 a b A'']
      by_cases h : (isDigit09 a && isAlphaAZ b) = true
      · rw [if_pos h, if_pos h, ih]
        rfl
      · rw [if_neg h, if_neg h, ih]
        rfl

theorem r7core_headW {d : Char} (hd1 : isUpperAZ d = false) (B : List Char) :
    r7core (d :: B) = d :: r7core B := by
  cases B with
  | nil => rfl
  | cons b l =>
    cases l with
    | nil => rfl
    | cons c l' =>
      rw [r7core_cons3, if_neg (by rw [hd1]; simp)]

theorem r7core_homoW {d : Char} (hd1 : isUpperAZ d = false)
    (hd2 : isLowerAZ d = false) (A B : List Char) :
    r7core (A ++ d :: B) = r7core A ++ d :: r7core B := by
  induction A with
  | nil => simpa [r7core_nil] using r7core_headW hd1 B
  | cons a A' ih =>
    cases A' with
    | nil =>
      rw [List.singleton_append, r7core_single]
      cases B with
      | nil => rfl
      | cons b B' =>
        rw [r7core_cons3, if_neg (by rw [hd1]; simp), r7core_headW hd1]
        rfl
    | cons b A'' =>
      cases A'' with
      | nil =>
        rw [List.cons_append, List.singleton_append, r7core_cons3, r7core_two]
        rw [if_neg (by rw [hd2]; simp)]
        have hb := ih
        rw [List.singleton_append] at hb
        rw [hb]
        rfl
      | cons c A''' =>
        rw [List.cons_append, List.cons_append, List.cons_append, r7core_cons3,
          ← List.cons_append, ← List.cons_append, r7core_cons3 a b c A''']
        by_cases h : (isUpperAZ a && isUpperAZ b && isLowerAZ c) = true
        · rw [if_pos h, if_pos h, ih]
          rfl
        · rw [if_neg h, if_neg h, ih]
          rfl

end InjuryParse

namespace InjuryParse

/-! ### Word-level structure of the pass outputs -/

theorem wordsCL_append_ws2 {d : Char} (hd : jsWs d = true) (A B : List Char) :
    wordsCL (A ++ d :: B) = wordsCL A ++ wordsCL B :=
  wordsCL_append_ws hd A.length A B le_rfl

theorem word_infix_of_mem :
    ∀ (n : Nat) (l : List Char), l.length ≤ n →
      ∀ w ∈ wordsCL l, ∃ a b, l = a ++ w ++ b := by
  intro n
  induction n with
  | zero =>
    intro l hl w hw
    rw [List.length_eq_zero.mp (Nat.le_zero.mp hl)] at hw ⊢
    simp [wordsCL_nil] at hw
  | succ m ih =>
    intro l hl w hw
    cases l with
    | nil => simp [wordsCL_nil] at hw
    | cons c rest =>
      simp only [List.length_cons] at hl
      by_cases hc : jsWs c = true
      · rw [wordsCL_ws hc] at hw
        obtain ⟨a, b, hab⟩ := ih rest (by omega) w hw
        exact ⟨c :: a, b, by rw [hab]; rfl⟩
      · have hc' : jsWs c = false := Bool.eq_false_iff.mpr hc
        rw [wordsCL_nonws hc'] at hw
        rcases List.mem_cons.mp hw with rfl | hmem
        · exact ⟨[], (c :: rest).dropWhile fun x => !jsWs x,
            by rw [List.nil_append, List.takeWhile_append_dropWhile]⟩
        · have hlen : ((c :: rest).dropWhile fun x => !jsWs x).length ≤ m := by
            have h1 : List.dropWhile (fun x => !jsWs x) (c :: rest) =
                List.dropWhile (fun x => !jsWs x) rest := by
              simp [List.dropWhile, hc']
            rw [h1]
            have := length_dropWhile_le (fun x => !jsWs x) rest
            omega
          obtain ⟨a, b, hab⟩ := ih _ hlen w hmem
          refine ⟨((c :: rest).takeWhile fun x => !jsWs x) ++ a, b, ?_⟩
          conv_lhs => rw [← List.takeWhile_append_dropWhile
            (p := fun x => !jsWs x) (l := c :: rest)]
          rw [hab]
          simp

theorem wordsCL_dropWhile_nonws_sub {l : List Char} :
    ∀ w ∈ wordsCL (l.dropWhile fun c => !jsWs c), w ∈ wordsCL l := by
  intro w hw
  cases l with
  | nil => simpa using hw
  | cons c rest =>
    by_cases hc : jsWs c = true
    · rw [List.dropWhile_cons_of_neg (by simp [hc])] at hw
      exact hw
    · have hc' : jsWs c = false := Bool.eq_false_iff.mpr hc
      rw [wordsCL_nonws hc']
      rw [List.dropWhile_cons_of_pos (by simp [hc'])] at hw
      right
      rw [show List.dropWhile (fun x => !jsWs x) rest =
        List.dropWhile (fun x => !jsWs x) (c :: rest) from
          (by simp [List.dropWhile, hc'])] at hw
      exact hw

theorem wordsCL_replicate_space (a : Nat) : wordsCL (List.replicate a ' ') = [] := by
  induction a with
  | zero => rfl
  | succ k ih => rw [List.replicate_succ, wordsCL_ws (by decide), ih]

theorem wordsCL_pad {w : List Char} (hne : w ≠ []) (hws : WsFree w) (a b : Nat) :
    wordsCL (List.replicate a ' ' ++ w ++ List.replicate b ' ') = [w] := by
  induction a with
  | zero =>
    rw [List.replicate_zero, List.nil_append]
    cases b with
    | zero =>
      rw [List.replicate_zero, List.append_nil]
      exact wordsCL_single hne hws
    | succ k =>
      rw [List.replicate_succ, wordsCL_append_ws2 (by decide) w (List.replicate k ' '),
        wordsCL_single hne hws, wordsCL_replicate_space]
      rfl
  | succ k ih =>
    rw [List.replicate_succ]
    show wordsCL ((' ' :: List.replicate k ' ') ++ w ++ List.replicate b ' ') = [w]
    rw [List.cons_append, List.cons_append, wordsCL_ws (by decide)]
    exact ih

theorem word_of_SpIns {w v : List Char} (h : SpIns w v) :
    ∀ w' ∈ wordsCL v, ∃ a b, w = a ++ w' ++ b := by
  intro w' hw'
  obtain ⟨hne, hwsf⟩ := wordsCL_wordish v.length v le_rfl w' hw'
  obtain ⟨a, b, hab⟩ := word_infix_of_mem v.length v le_rfl w' hw'
  have hnsp : ' ' ∉ w' := by
    intro hm
    have hx := hwsf ' ' hm
    rw [show jsWs ' ' = true from rfl] at hx
    cases hx
  exact SpIns_seg h hab hnsp

theorem wordsCL_mapPass (f : List Char → List Char) (hf0 : f [] = [])
    (hfh : ∀ (d : Char), jsWs d = true → ∀ A B, f (A ++ d :: B) = f A ++ d :: f B) :
    ∀ (n : Nat) (z : List Char), z.length ≤ n →
      wordsCL (f z) = ((wordsCL z).map fun w => wordsCL (f w)).flatten := by
  intro n
  induction n with
  | zero =>
    intro z hz
    rw [List.length_eq_zero.mp (Nat.le_zero.mp hz), hf0]
    simp [wordsCL_nil]
  | succ m ih =>
    intro z hz
    cases z with
    | nil =>
      rw [hf0]
      simp [wordsCL_nil]
    | cons c rest =>
      simp only [List.length_cons] at hz
      by_cases hc : jsWs c = true
      · have hhead : f (c :: rest) = c :: f rest := by
          have hx := hfh c hc [] rest
          rw [hf0] at hx
          simpa using hx
        rw [hhead, wordsCL_ws hc, wordsCL_ws hc, ih rest (by omega)]
      · have hc' : jsWs c = false := Bool.eq_false_iff.mpr hc
        have hdec := List.takeWhile_append_dropWhile
          (p := fun x => !jsWs x) (l := c :: rest)
        cases hR : (c :: rest).dropWhile (fun x => !jsWs x) with
        | nil =>
          rw [hR, List.append_nil] at hdec
          rw [wordsCL_nonws hc', hR, wordsCL_nil, List.map_cons, List.map_nil,
            List.flatten_cons, List.flatten_nil, List.append_nil, hdec]
        | cons d R' =>
          have hd : jsWs d = true := by
            have hx := dropWhile_head_neg hR
            simpa using hx
          rw [hR] at hdec
          have htake_ne : ((c :: rest).takeWhile fun x => !jsWs x) ≠ [] := by
            rw [List.takeWhile_cons_of_pos (by simp [hc'])]
            simp
          have hlenR : R'.length ≤ m := by
            have hlen := congrArg List.length hdec
            simp only [List.length_append, List.length_cons] at hlen
            have h1 : 1 ≤ ((c :: rest).takeWhile fun x => !jsWs x).length :=
              List.length_pos.mpr htake_ne
            omega
          rw [wordsCL_nonws hc', hR, wordsCL_ws hd, List.map_cons, List.flatten_cons,
            ← ih R' hlenR]
          conv_lhs => rw [← hdec]
          rw [hfh d hd, wordsCL_append_ws2 hd]

end InjuryParse

namespace InjuryParse

/-! ### Site scanners: the local patterns the passes rewrite -/

/-- A comma with some character after it. -/
def hasCommaInt : List Char → Bool
  | [] => false
  | [_] => false
  | c :: d :: rest => c = ',' || hasCommaInt (d :: rest)

/-- An occurrence of `GLeague`. -/
def hasGL : List Char → Bool
  | [] => false
  | c :: rest => (dropLit "GLeague".data (c :: rest)).isSome || hasGL rest

/-- `)` immediately followed by a word character. -/
def hasPW : List Char → Bool
  | [] => false
  | [_] => false
  | c :: d :: rest => (c = ')' && isWordChar d) || hasPW (d :: rest)

/-- A lowercase letter immediately followed by an uppercase letter. -/
def hasLU : List Char → Bool
  | [] => false
  | [_] => false
  | a :: b :: rest => (isLowerAZ a && isUpperAZ b) || hasLU (b :: rest)

/-- Two uppercase letters followed by a lowercase letter. -/
def hasUUl : List Char → Bool
  | a :: b :: c :: rest => (isUpperAZ a && isUpperAZ b && isLowerAZ c) || hasUUl (b :: c :: rest)
  | _ => false

/-- A digit immediately followed by a letter. -/
def hasDA : List Char → Bool
  | [] => false
  | [_] => false
  | a :: b :: rest => (isDigit09 a && isAlphaAZ b) || hasDA (b :: rest)


theorem hasCommaInt_cons (c e : Char) (rest : List Char)
    (h : hasCommaInt (e :: rest) = true) : hasCommaInt (c :: e :: rest) = true := by
  simp only [hasCommaInt, h, Bool.or_true]

theorem hasGL_cons (c : Char) {rest : List Char}
    (h : hasGL rest = true) : hasGL (c :: rest) = true := by
  simp only [hasGL, h, Bool.or_true]

theorem hasPW_cons (c e : Char) (rest : List Char)
    (h : hasPW (e :: rest) = true) : hasPW (c :: e :: rest) = true := by
  simp only [hasPW, h, Bool.or_true]

theorem hasLU_cons (c e : Char) (rest : List Char)
    (h : hasLU (e :: rest) = true) : hasLU (c :: e :: rest) = true := by
  simp only [hasLU, h, Bool.or_true]

theorem hasUUl_cons (c e f : Char) (rest : List Char)
    (h : hasUUl (e :: f :: rest) = true) : hasUUl (c :: e :: f :: rest) = true := by
  simp only [hasUUl, h, Bool.or_true]

theorem hasDA_cons (c e : Char) (rest : List Char)
    (h : hasDA (e :: rest) = true) : hasDA (c :: e :: rest) = true := by
  simp only [hasDA, h, Bool.or_true]

theorem hasCommaInt_spec : ∀ {l : List Char}, hasCommaInt l = true →
    ∃ a d b, l = a ++ ',' :: d :: b := by
  intro l
  induction l with
  | nil => intro h; cases h
  | cons c rest ih =>
    intro h
    cases rest with
    | nil => cases h
    | cons d b =>
      simp only [hasCommaInt, Bool.or_eq_true, decide_eq_true_eq] at h
      rcases h with rfl | h
      · exact ⟨[], d, b, rfl⟩
      · obtain ⟨a, d', b', hd⟩ := ih h
        exact ⟨c :: a, d', b', by rw [List.cons_append, ← hd]⟩

theorem hasCommaInt_occur : ∀ (a : List Char) {l : List Char} (d : Char) (b : List Char),
    l = a ++ ',' :: d :: b → hasCommaInt l = true := by
  intro a
  induction a with
  | nil =>
    intro l d b h
    subst h
    simp [hasCommaInt]
  | cons c a' ih =>
    intro l d b h
    subst h
    rw [List.cons_append]
    have hx := ih (l := a' ++ ',' :: d :: b) d b rfl
    match a' ++ ',' :: d :: b, hx with
    | e :: r, hx => exact hasCommaInt_cons c e r hx

theorem hasGL_spec : ∀ {l : List Char}, hasGL l = true →
    ∃ a b, l = a ++ "GLeague".data ++ b := by
  intro l
  induction l with
  | nil => intro h; cases h
  | cons c rest ih =>
    intro h
    simp only [hasGL, Bool.or_eq_true] at h
    rcases h with h | h
    · obtain ⟨r, hr⟩ := Option.isSome_iff_exists.mp h
      exact ⟨[], r, by rw [List.nil_append, dropLit_sound hr]⟩
    · obtain ⟨a, b, hd⟩ := ih h
      exact ⟨c :: a, b, by rw [hd]; simp⟩

theorem hasGL_occur : ∀ (a : List Char) {l : List Char} (b : List Char),
    l = a ++ "GLeague".data ++ b → hasGL l = true := by
  intro a
  induction a with
  | nil =>
    intro l b h
    subst h
    rw [List.nil_append]
    show hasGL ("GLeague".data ++ b) = true
    rw [show "GLeague".data ++ b = 'G' :: ("League".data ++ b) from rfl]
    simp only [hasGL, Bool.or_eq_true]
    left
    rw [show ('G' :: ("League".data ++ b)) = "GLeague".data ++ b from rfl,
      dropLit_self_append]
    rfl
  | cons c a' ih =>
    intro l b h
    subst h
    rw [List.cons_append, List.cons_append]
    exact hasGL_cons c (ih (l := a' ++ "GLeague".data ++ b) b rfl)

theorem hasPW_spec : ∀ {l : List Char}, hasPW l = true →
    ∃ a d b, l = a ++ ')' :: d :: b ∧ isWordChar d = true := by
  intro l
  induction l with
  | nil => intro h; cases h
  | cons c rest ih =>
    intro h
    cases rest with
    | nil => cases h
    | cons d b =>
      simp only [hasPW, Bool.or_eq_true, Bool.and_eq_true, decide_eq_true_eq] at h
      rcases h with ⟨rfl, hw⟩ | h
      · exact ⟨[], d, b, rfl, hw⟩
      · obtain ⟨a, d', b', hd, hw⟩ := ih h
        exact ⟨c :: a, d', b', by rw [List.cons_append, ← hd], hw⟩

theorem hasPW_occur : ∀ (a : List Char) {l : List Char} (d : Char) (b : List Char),
    l = a ++ ')' :: d :: b → isWordChar d = true → hasPW l = true := by
  intro a
  induction a with
  | nil =>
    intro l d b h hw
    subst h
    simp [hasPW, hw]
  | cons c a' ih =>
    intro l d b h hw
    subst h
    rw [List.cons_append]
    have hx := ih (l := a' ++ ')' :: d :: b) d b rfl hw
    match a' ++ ')' :: d :: b, hx with
    | e :: r, hx => exact hasPW_cons c e r hx

theorem hasLU_spec : ∀ {l : List Char}, hasLU l = true →
    ∃ a x y b, l = a ++ x :: y :: b ∧ isLowerAZ x = true ∧ isUpperAZ y = true := by
  intro l
  induction l with
  | nil => intro h; cases h
  | cons c rest ih =>
    intro h
    cases rest with
    | nil => cases h
    | cons d b =>
      simp only [hasLU, Bool.or_eq_true, Bool.and_eq_true] at h
      rcases h with ⟨h1, h2⟩ | h
      · exact ⟨[], c, d, b, rfl, h1, h2⟩
      · obtain ⟨a, x, y, b', hd, h1, h2⟩ := ih h
        exact ⟨c :: a, x, y, b', by rw [List.cons_append, ← hd], h1, h2⟩

theorem hasLU_occur : ∀ (a : List Char) {l : List Char} (x y : Char) (b : List Char),
    l = a ++ x :: y :: b → isLowerAZ x = true → isUpperAZ y = true → hasLU l = true := by
  intro a
  induction a with
  | nil =>
    intro l x y b h h1 h2
    subst h
    simp [hasLU, h1, h2]
  | cons c a' ih =>
    intro l x y b h h1 h2
    subst h
    rw [List.cons_append]
    have hx := ih (l := a' ++ x :: y :: b) x y b rfl h1 h2
    match a' ++ x :: y :: b, hx with
    | e :: r, hx => exact hasLU_cons c e r hx

theorem hasUUl_spec : ∀ {l : List Char}, hasUUl l = true →
    ∃ a x y z b, l = a ++ x :: y :: z :: b ∧ isUpperAZ x = true ∧ isUpperAZ y = true ∧
      isLowerAZ z = true := by
  intro l
  induction l with
  | nil => intro h; cases h
  | cons c rest ih =>
    intro h
    match rest, h with
    | d :: e :: b, h =>
      simp only [hasUUl, Bool.or_eq_true, Bool.and_eq_true] at h
      rcases h with ⟨⟨h1, h2⟩, h3⟩ | h
      · exact ⟨[], c, d, e, b, rfl, h1, h2, h3⟩
      · obtain ⟨a, x, y, z, b', hd, h1, h2, h3⟩ := ih h
        exact ⟨c :: a, x, y, z, b', by rw [List.cons_append, ← hd], h1, h2, h3⟩

theorem hasUUl_occur : ∀ (a : List Char) {l : List Char} (x y z : Char) (b : List Char),
    l = a ++ x :: y :: z :: b → isUpperAZ x = true → isUpperAZ y = true →
    isLowerAZ z = true → hasUUl l = true := by
  intro a
  induction a with
  | nil =>
    intro l x y z b h h1 h2 h3
    subst h
    simp [hasUUl, h1, h2, h3]
  | cons c a' ih =>
    intro l x y z b h h1 h2 h3
    subst h
    rw [List.cons_append]
    have hx := ih (l := a' ++ x :: y :: z :: b) x y z b rfl h1 h2 h3
    match a' ++ x :: y :: z :: b, hx with
    | e :: f :: r, hx => exact hasUUl_cons c e f r hx

theorem hasDA_spec : ∀ {l : List Char}, hasDA l = true →
    ∃ a x y b, l = a ++ x :: y :: b ∧ isDigit09 x = true ∧ isAlphaAZ y = true := by
  intro l
  induction l with
  | nil => intro h; cases h
  | cons c rest ih =>
    intro h
    cases rest with
    | nil => cases h
    | cons d b =>
      simp only [hasDA, Bool.or_eq_true, Bool.and_eq_true] at h
      rcases h with ⟨h1, h2⟩ | h
      · exact ⟨[], c, d, b, rfl, h1, h2⟩
      · obtain ⟨a, x, y, b', hd, h1, h2⟩ := ih h
        exact ⟨c :: a, x, y, b', by rw [List.cons_append, ← hd], h1, h2⟩

theorem hasDA_occur : ∀ (a : List Char) {l : List Char} (x y : Char) (b : List Char),
    l = a ++ x :: y :: b → isDigit09 x = true → isAlphaAZ y = true → hasDA l = true := by
  intro a
  induction a with
  | nil =>
    intro l x y b h h1 h2
    subst h
    simp [hasDA, h1, h2]
  | cons c a' ih =>
    intro l x y b h h1 h2
    subst h
    rw [List.cons_append]
    have hx := ih (l := a' ++ x :: y :: b) x y b rfl h1 h2
    match a' ++ x :: y :: b, hx with
    | e :: r, hx => exact hasDA_cons c e r hx

end InjuryParse

namespace InjuryParse

/-! ### Per-pass identities on site-free input -/

theorem containsMatchup_tail {c : Char} {rest : List Char}
    (h : containsMatchup (c :: rest) = false) : containsMatchup rest = false := by
  cases hr : containsMatchup rest
  · rfl
  · obtain ⟨a, t, hat, hm⟩ := containsMatchup_spec hr
    have hx := containsMatchup_of_suffix (l := c :: rest) ⟨c :: a, by rw [← hat]; rfl⟩ hm
    rw [h] at hx
    cases hx

theorem containsStatus_tail {c : Char} {rest : List Char}
    (h : containsStatus (c :: rest) = false) : containsStatus rest = false := by
  cases hr : containsStatus rest
  · rfl
  · obtain ⟨a, t, hat, hm⟩ := containsStatus_spec hr
    have hx := containsStatus_of_suffix (l := c :: rest) ⟨c :: a, by rw [← hat]; rfl⟩ hm
    rw [h] at hx
    cases hx

theorem r1core_id {l : List Char} (h : containsMatchup l = false) : r1core l = l := by
  induction l with
  | nil => rfl
  | cons c rest ih =>
    cases hm : matchMatchupAt (c :: rest) with
    | some p =>
      have hx := containsMatchup_of_suffix (l := c :: rest) ⟨[], rfl⟩ (by rw [hm]; rfl)
      rw [h] at hx
      cases hx
    | none =>
      rw [r1core_nomatch hm, ih (containsMatchup_tail h)]

theorem r2core_id {l : List Char} (h : containsStatus l = false) : r2core l = l := by
  induction l with
  | nil => rfl
  | cons c rest ih =>
    cases hm : matchStatusAt (c :: rest) with
    | some p =>
      have hx := containsStatus_of_suffix (l := c :: rest) ⟨[], rfl⟩ (by rw [hm]; rfl)
      rw [h] at hx
      cases hx
    | none =>
      rw [r2core_nomatch hm, ih (containsStatus_tail h)]

theorem r3core_noInt {l : List Char} (h : hasCommaInt l = false) :
    r3core l = l ∨ r3core l = l ++ [' '] := by
  induction l with
  | nil => exact Or.inl rfl
  | cons c rest ih =>
    cases rest with
    | nil =>
      by_cases hc : c = ','
      · subst hc
        exact Or.inr rfl
      · exact Or.inl (by rw [r3core_other hc]; rfl)
    | cons d rest' =>
      simp only [hasCommaInt, Bool.or_eq_false_iff, decide_eq_false_iff_not] at h
      obtain ⟨hc, htail⟩ := h
      rw [r3core_other hc]
      rcases ih htail with hid | hpad
      · exact Or.inl (by rw [hid])
      · exact Or.inr (by rw [hpad]; rfl)

theorem r4core_id {l : List Char} (h : hasGL l = false) : r4core l = l := by
  induction l with
  | nil => rfl
  | cons c rest ih =>
    simp only [hasGL, Bool.or_eq_false_iff] at h
    obtain ⟨h1, h2⟩ := h
    rw [r4core_nomatch (Option.not_isSome_iff_eq_none.mp (by rw [h1]; exact
      Bool.false_ne_true)), ih h2]

theorem r5core_id {l : List Char} (h : hasPW l = false) : r5core l = l := by
  induction l with
  | nil => rfl
  | cons a rest ih =>
    cases rest with
    | nil => exact r5core_single a
    | cons b rest' =>
      simp only [hasPW, Bool.or_eq_false_iff, Bool.and_eq_false_iff,
        decide_eq_false_iff_not] at h
      obtain ⟨h1, h2⟩ := h
      rw [r5core_cons2, if_neg ?_, ih h2]
      rintro ⟨ha, hw⟩
      rcases h1 with h1 | h1
      · exact h1 ha
      · rw [hw] at h1
        exact Bool.noConfusion h1

theorem r6core_id {l : List Char} (h : hasLU l = false) : r6core l = l := by
  induction l with
  | nil => rfl
  | cons a rest ih =>
    cases rest with
    | nil => rfl
    | cons b rest' =>
      simp only [hasLU, Bool.or_eq_false_iff] at h
      obtain ⟨h1, h2⟩ := h
      rw [r6core_cons2, if_neg (by rw [h1]; exact Bool.false_ne_true), ih h2]

theorem r8core_id {l : List Char} (h : hasDA l = false) : r8core l = l := by
  induction l with
  | nil => rfl
  | cons a rest ih =>
    cases rest with
    | nil => rfl
    | cons b rest' =>
      simp only [hasDA, Bool.or_eq_false_iff] at h
      obtain ⟨h1, h2⟩ := h
      rw [r8core_cons2, if_neg (by rw [h1]; exact Bool.false_ne_true), ih h2]

theorem r7core_id {l : List Char} (h : hasUUl l = false) : r7core l = l := by
  induction l with
  | nil => rfl
  | cons a rest ih =>
    cases rest with
    | nil => rfl
    | cons b rest' =>
      cases rest' with
      | nil => rfl
      | cons c rest'' =>
        simp only [hasUUl, Bool.or_eq_false_iff] at h
        obtain ⟨h1, h2⟩ := h
        rw [r7core_cons3, if_neg (by rw [h1]; exact Bool.false_ne_true), ih h2]

/-! ### All-uppercase (or `@`) words are inert for every later pass -/

/-- Every character is `[A-Z]` or `@` (the characters of a matchup token). -/
def UpperAt (w : List Char) : Prop := ∀ c ∈ w, isUpperAZ c = true ∨ c = '@'

theorem UpperAt_char_facts {c : Char} (h : isUpperAZ c = true ∨ c = '@') :
    isLowerAZ c = false ∧ isDigit09 c = false ∧ c ≠ ',' ∧ c ≠ ')' ∧
    jsWs c = false := by
  rcases h with h | rfl
  · exact ⟨upper_not_lower h, upper_not_digit h,
      upper_ne h (by decide), upper_ne h (by decide), upper_not_ws h⟩
  · exact ⟨by decide, by decide, by decide, by decide, by decide⟩

theorem UpperAt_hasCommaInt {w : List Char} (h : UpperAt w) : hasCommaInt w = false := by
  cases hs : hasCommaInt w
  · rfl
  · obtain ⟨a, d, b, hd⟩ := hasCommaInt_spec hs
    have hm : ',' ∈ w := by rw [hd]; simp
    exact absurd rfl (UpperAt_char_facts (h ',' hm)).2.2.1

theorem UpperAt_hasGL {w : List Char} (h : UpperAt w) : hasGL w = false := by
  cases hs : hasGL w
  · rfl
  · obtain ⟨a, b, hd⟩ := hasGL_spec hs
    have hm : 'e' ∈ w := by
      rw [hd]
      have : 'e' ∈ "GLeague".data := by decide
      simp [this]
    rcases h 'e' hm with h1 | h1
    · exact absurd h1 (by decide)
    · exact absurd h1 (by decide)

theorem UpperAt_hasPW {w : List Char} (h : UpperAt w) : hasPW w = false := by
  cases hs : hasPW w
  · rfl
  · obtain ⟨a, d, b, hd, -⟩ := hasPW_spec hs
    have hm : ')' ∈ w := by rw [hd]; simp
    exact absurd rfl (UpperAt_char_facts (h ')' hm)).2.2.2.1

theorem UpperAt_hasLU {w : List Char} (h : UpperAt w) : hasLU w = false := by
  cases hs : hasLU w
  · rfl
  · obtain ⟨a, x, y, b, hd, h1, -⟩ := hasLU_spec hs
    have hm : x ∈ w := by rw [hd]; simp
    have := (UpperAt_char_facts (h x hm)).1
    rw [h1] at this
    cases this

theorem UpperAt_hasUUl {w : List Char} (h : UpperAt w) : hasUUl w = false := by
  cases hs : hasUUl w
  · rfl
  · obtain ⟨a, x, y, z, b, hd, -, -, h3⟩ := hasUUl_spec hs
    have hm : z ∈ w := by rw [hd]; simp
    have := (UpperAt_char_facts (h z hm)).1
    rw [h3] at this
    cases this

theorem UpperAt_hasDA {w : List Char} (h : UpperAt w) : hasDA w = false := by
  cases hs : hasDA w
  · rfl
  · obtain ⟨a, x, y, b, hd, h1, -⟩ := hasDA_spec hs
    have hm : x ∈ w := by rw [hd]; simp
    have := (UpperAt_char_facts (h x hm)).2.1
    rw [h1] at this
    cases this

theorem UpperAt_containsStatus {w : List Char} (h : UpperAt w) :
    containsStatus w = false := by
  cases hs : containsStatus w
  · rfl
  · exfalso
    obtain ⟨a, t, hat, hm⟩ := containsStatus_spec hs
    obtain ⟨⟨m, r⟩, hmr⟩ := Option.isSome_iff_exists.mp hm
    obtain ⟨htm, hmw⟩ := matchStatusAt_sound hmr
    have hsub : ∀ c ∈ m, c ∈ w := by
      intro c hc
      rw [← hat, htm]
      simp [hc]
    simp only [statusWordChars, List.mem_cons, List.mem_singleton] at hmw
    rcases hmw with rfl | rfl | rfl | rfl | h0
    · have := h 'u' (hsub 'u' (by decide))
      rcases this with h1 | h1 <;> exact absurd h1 (by decide)
    · have := h 'o' (hsub 'o' (by decide))
      rcases this with h1 | h1 <;> exact absurd h1 (by decide)
    · have := h 'u' (hsub 'u' (by decide))
      rcases this with h1 | h1 <;> exact absurd h1 (by decide)
    · have := h 'r' (hsub 'r' (by decide))
      rcases this with h1 | h1 <;> exact absurd h1 (by decide)
    · simp at h0

theorem UpperAt_wsfree {w : List Char} (h : UpperAt w) : WsFree w :=
  fun c hc => (UpperAt_char_facts (h c hc)).2.2.2.2

end InjuryParse

namespace InjuryParse

/-! ### First-run word facts: every word of the pass-1/2 outputs is pattern-tight -/

/-- The leading whitespace-free run. -/
def fwNW (l : List Char) : List Char := l.takeWhile fun c => !jsWs c

theorem fwNW_nil : fwNW [] = [] := rfl

theorem fwNW_ws {c : Char} {l : List Char} (hc : jsWs c = true) :
    fwNW (c :: l) = [] := by
  unfold fwNW
  rw [List.takeWhile_cons_of_neg (by simp [hc])]

theorem fwNW_nonws {c : Char} {l : List Char} (hc : jsWs c = false) :
    fwNW (c :: l) = c :: fwNW l := by
  unfold fwNW
  rw [List.takeWhile_cons_of_pos (by simp [hc])]

theorem fwNW_append_drop (l : List Char) :
    fwNW l ++ l.dropWhile (fun c => !jsWs c) = l := by
  unfold fwNW
  exact List.takeWhile_append_dropWhile _ _

theorem r2core_wordsGood :
    ∀ (n : Nat) (l : List Char), l.length ≤ n →
      (∀ w ∈ wordsCL (r2core l), containsStatus w = true → w ∈ statusWordChars) ∧
      (∃ t, fwNW (r2core l) ++ t = fwNW l) ∧
      containsStatus (fwNW (r2core l)) = false := by
  intro n
  induction n with
  | zero =>
    intro l hl
    rw [List.length_eq_zero.mp (Nat.le_zero.mp hl)]
    refine ⟨?_, ⟨[], rfl⟩, by decide⟩
    intro w hw
    simp [r2core_nil, wordsCL_nil] at hw
  | succ n ih =>
    intro l hl
    cases l with
    | nil =>
      refine ⟨?_, ⟨[], rfl⟩, by decide⟩
      intro w hw
      simp [r2core_nil, wordsCL_nil] at hw
    | cons c rest =>
      simp only [List.length_cons] at hl
      cases hm : matchStatusAt (c :: rest) with
      | some p =>
        obtain ⟨m, r⟩ := p
        have hout := r2core_match hm
        have hlen := matchStatusAt_length hm
        simp only [List.length_cons] at hlen
        obtain ⟨hsplit, hmw⟩ := matchStatusAt_sound hm
        obtain ⟨har, -, -⟩ := ih r (by omega)
        have hm1 : wordsCL m = [m] := by
          simp only [statusWordChars, List.mem_cons, List.mem_singleton] at hmw
          rcases hmw with rfl | rfl | rfl | rfl | h0
          · decide
          · decide
          · decide
          · decide
          · simp at h0
        refine ⟨?_, ?_, ?_⟩
        · intro w hw hcs
          rw [hout, wordsCL_ws (by decide), wordsCL_append_ws2 (by decide), hm1] at hw
          rcases List.mem_cons.mp hw with rfl | hw2
          · exact hmw
          · exact har w hw2 hcs
        · rw [hout, fwNW_ws (by decide)]
          exact ⟨fwNW (c :: rest), rfl⟩
        · rw [hout, fwNW_ws (by decide)]
          decide
      | none =>
        have hout := r2core_nomatch hm
        obtain ⟨ha, ⟨tb, hb⟩, hc⟩ := ih rest (by omega)
        by_cases hcws : jsWs c = true
        · refine ⟨?_, ?_, ?_⟩
          · intro w hw hcs
            rw [hout, wordsCL_ws hcws] at hw
            exact ha w hw hcs
          · exact ⟨[], by rw [hout, fwNW_ws hcws, fwNW_ws hcws]; rfl⟩
          · rw [hout, fwNW_ws hcws]
            decide
        · have hcws' : jsWs c = false := Bool.eq_false_iff.mpr hcws
          have hcout : containsStatus (c :: fwNW (r2core rest)) = false := by
            cases hcs : containsStatus (c :: fwNW (r2core rest))
            · rfl
            · exfalso
              obtain ⟨a, t, hat, hmt⟩ := containsStatus_spec hcs
              cases a with
              | nil =>
                rw [List.nil_append] at hat
                have hext := matchStatusAt_extend hmt
                  (tb ++ rest.dropWhile fun x => !jsWs x)
                have heq : t ++ (tb ++ rest.dropWhile fun x => !jsWs x) = c :: rest := by
                  rw [hat, List.cons_append]
                  congr 1
                  rw [← List.append_assoc, hb]
                  exact fwNW_append_drop rest
                rw [heq, hm] at hext
                cases hext
              | cons a₁ a' =>
                rw [List.cons_append] at hat
                injection hat with h1 h2
                have hx := containsStatus_of_suffix ⟨a', h2⟩ hmt
                rw [hc] at hx
                cases hx
          refine ⟨?_, ?_, ?_⟩
          · intro w hw hcs
            rw [hout, wordsCL_nonws hcws'] at hw
            rcases List.mem_cons.mp hw with rfl | hw2
            · exfalso
              rw [show (c :: r2core rest).takeWhile (fun x => !jsWs x) =
                  c :: fwNW (r2core rest) from fwNW_nonws hcws'] at hcs
              rw [hcout] at hcs
              cases hcs
            · rw [show (c :: r2core rest).dropWhile (fun x => !jsWs x) =
                  (r2core rest).dropWhile (fun x => !jsWs x) from by
                    rw [List.dropWhile_cons_of_pos (by simp [hcws'])]] at hw2
              exact ha w (wordsCL_dropWhile_nonws_sub w hw2) hcs
          · rw [hout, fwNW_nonws hcws', fwNW_nonws hcws']
            exact ⟨tb, by rw [List.cons_append, hb]⟩
          · rw [hout, fwNW_nonws hcws']
            exact hcout

theorem r1core_wordsGood :
    ∀ (n : Nat) (l : List Char), l.length ≤ n →
      (∀ w ∈ wordsCL (r1core l), containsMatchup w = true →
        matchMatchupAt w = some (w, []) ∧ UpperAt w) ∧
      (∃ t, fwNW (r1core l) ++ t = fwNW l) ∧
      containsMatchup (fwNW (r1core l)) = false := by
  intro n
  induction n with
  | zero =>
    intro l hl
    rw [List.length_eq_zero.mp (Nat.le_zero.mp hl)]
    refine ⟨?_, ⟨[], rfl⟩, by decide⟩
    intro w hw
    simp [r1core_nil, wordsCL_nil] at hw
  | succ n ih =>
    intro l hl
    cases l with
    | nil =>
      refine ⟨?_, ⟨[], rfl⟩, by decide⟩
      intro w hw
      simp [r1core_nil, wordsCL_nil] at hw
    | cons c rest =>
      simp only [List.length_cons] at hl
      cases hm : matchMatchupAt (c :: rest) with
      | some p =>
        obtain ⟨m, r⟩ := p
        have hout := r1core_match hm
        have hlen := matchMatchupAt_length hm
        simp only [List.length_cons] at hlen
        obtain ⟨hsplit, hup, hstruct⟩ := matchMatchupAt_sound hm
        obtain ⟨har, -, -⟩ := ih r (by omega)
        have hmne : m ≠ [] := by
          obtain ⟨u, v, hmv, -, -, -, -, -, -⟩ := hstruct
          rw [hmv]
          simp
        have hm1 : wordsCL m = [m] := wordsCL_single hmne (UpperAt_wsfree hup)
        refine ⟨?_, ?_, ?_⟩
        · intro w hw hcs
          rw [hout, wordsCL_ws (by decide), wordsCL_append_ws2 (by decide), hm1] at hw
          rcases List.mem_cons.mp hw with rfl | hw2
          · exact ⟨matchMatchupAt_self hm, hup⟩
          · exact har w hw2 hcs
        · rw [hout, fwNW_ws (by decide)]
          exact ⟨fwNW (c :: rest), rfl⟩
        · rw [hout, fwNW_ws (by decide)]
          decide
      | none =>
        have hout := r1core_nomatch hm
        obtain ⟨ha, ⟨tb, hb⟩, hc⟩ := ih rest (by omega)
        by_cases hcws : jsWs c = true
        · refine ⟨?_, ?_, ?_⟩
          · intro w hw hcs
            rw [hout, wordsCL_ws hcws] at hw
            exact ha w hw hcs
          · exact ⟨[], by rw [hout, fwNW_ws hcws, fwNW_ws hcws]; rfl⟩
          · rw [hout, fwNW_ws hcws]
            decide
        · have hcws' : jsWs c = false := Bool.eq_false_iff.mpr hcws
          have hcout : containsMatchup (c :: fwNW (r1core rest)) = false := by
            cases hcs : containsMatchup (c :: fwNW (r1core rest))
            · rfl
            · exfalso
              obtain ⟨a, t, hat, hmt⟩ := containsMatchup_spec hcs
              cases a with
              | nil =>
                rw [List.nil_append] at hat
                have hext := matchMatchupAt_extend hmt
                  (tb ++ rest.dropWhile fun x => !jsWs x)
                have heq : t ++ (tb ++ rest.dropWhile fun x => !jsWs x) = c :: rest := by
                  rw [hat, List.cons_append]
                  congr 1
                  rw [← List.append_assoc, hb]
                  exact fwNW_append_drop rest
                rw [heq, hm] at hext
                cases hext
              | cons a₁ a' =>
                rw [List.cons_append] at hat
                injection hat with h1 h2
                have hx := containsMatchup_of_suffix ⟨a', h2⟩ hmt
                rw [hc] at hx
                cases hx
          refine ⟨?_, ?_, ?_⟩
          · intro w hw hcs
            rw [hout, wordsCL_nonws hcws'] at hw
            rcases List.mem_cons.mp hw with rfl | hw2
            · exfalso
              rw [show (c :: r1core rest).takeWhile (fun x => !jsWs x) =
                  c :: fwNW (r1core rest) from fwNW_nonws hcws'] at hcs
              rw [hcout] at hcs
              cases hcs
            · rw [show (c :: r1core rest).dropWhile (fun x => !jsWs x) =
                  (r1core rest).dropWhile (fun x => !jsWs x) from by
                    rw [List.dropWhile_cons_of_pos (by simp [hcws'])]] at hw2
              exact ha w (wordsCL_dropWhile_nonws_sub w hw2) hcs
          · rw [hout, fwNW_nonws hcws', fwNW_nonws hcws']
            exact ⟨tb, by rw [List.cons_append, hb]⟩
          · rw [hout, fwNW_nonws hcws']
            exact hcout

end InjuryParse

namespace InjuryParse

/-! ### Global site-freeness of the pass-3..8 outputs -/

/-- A comma immediately followed by a non-whitespace character. -/
def hasBadComma : List Char → Bool
  | c :: d :: rest => (c = ',' && !jsWs d) || hasBadComma (d :: rest)
  | _ => false

theorem hasBadComma_cons (c e : Char) (rest : List Char)
    (h : hasBadComma (e :: rest) = true) : hasBadComma (c :: e :: rest) = true := by
  simp only [hasBadComma, h, Bool.or_true]

theorem hasBadComma_spec : ∀ {l : List Char}, hasBadComma l = true →
    ∃ a d b, l = a ++ ',' :: d :: b ∧ jsWs d = false := by
  intro l
  induction l with
  | nil => intro h; cases h
  | cons c rest ih =>
    intro h
    cases rest with
    | nil => cases h
    | cons d b =>
      simp only [hasBadComma, Bool.or_eq_true, Bool.and_eq_true,
        decide_eq_true_eq] at h
      rcases h with ⟨rfl, hd⟩ | h
      · exact ⟨[], d, b, rfl, by simpa using hd⟩
      · obtain ⟨a, d', b', hd, hw⟩ := ih h
        exact ⟨c :: a, d', b', by rw [List.cons_append, ← hd], hw⟩

theorem hasBadComma_occur : ∀ (a : List Char) {l : List Char} (d : Char) (b : List Char),
    l = a ++ ',' :: d :: b → jsWs d = false → hasBadComma l = true := by
  intro a
  induction a with
  | nil =>
    intro l d b h hd
    subst h
    simp [hasBadComma, hd]
  | cons c a' ih =>
    intro l d b h hd
    subst h
    rw [List.cons_append]
    have hx := ih (l := a' ++ ',' :: d :: b) d b rfl hd
    match a' ++ ',' :: d :: b, hx with
    | e :: r, hx => exact hasBadComma_cons c e r hx

theorem r5core_head (b : Char) (X : List Char) : ∃ t, r5core (b :: X) = b :: t := by
  cases X with
  | nil => exact ⟨[], r5core_single b⟩
  | cons c X' =>
    rw [r5core_cons2]
    split
    · next h => exact ⟨' ' :: r5core (c :: X'), by rw [h.1]⟩
    · exact ⟨r5core (c :: X'), rfl⟩

theorem r6core_head (b : Char) (X : List Char) : ∃ t, r6core (b :: X) = b :: t := by
  cases X with
  | nil => exact ⟨[], rfl⟩
  | cons c X' =>
    rw [r6core_cons2]
    split
    · exact ⟨' ' :: r6core (c :: X'), rfl⟩
    · exact ⟨r6core (c :: X'), rfl⟩

theorem r7core_head (b : Char) (X : List Char) : ∃ t, r7core (b :: X) = b :: t := by
  cases X with
  | nil => exact ⟨[], rfl⟩
  | cons c X' =>
    cases X' with
    | nil => exact ⟨[c], rfl⟩
    | cons e X'' =>
      rw [r7core_cons3]
      split
      · exact ⟨' ' :: r7core (c :: e :: X''), rfl⟩
      · exact ⟨r7core (c :: e :: X''), rfl⟩

theorem r8core_head (b : Char) (X : List Char) : ∃ t, r8core (b :: X) = b :: t := by
  cases X with
  | nil => exact ⟨[], rfl⟩
  | cons c X' =>
    rw [r8core_cons2]
    split
    · exact ⟨' ' :: r8core (c :: X'), rfl⟩
    · exact ⟨r8core (c :: X'), rfl⟩

/-- Pass 3 output: every comma is followed by whitespace or the end. -/
theorem r3core_noBad (l : List Char) : hasBadComma (r3core l) = false := by
  induction l with
  | nil => rfl
  | cons c rest ih =>
    by_cases hc : c = ','
    · subst hc
      rw [r3core_comma]
      show hasBadComma (',' :: ' ' :: r3core rest) = false
      have h1 : (',' = ',' && !jsWs ' ') = false := by decide
      cases hr : r3core rest with
      | nil => decide
      | cons e t =>
        rw [hr] at ih
        simp only [hasBadComma, ih, Bool.or_false]
        rw [show (!jsWs ' ') = false from by decide,
          show decide (' ' = ',') = false from by decide]
        simp
    · rw [r3core_other hc]
      cases hr : r3core rest with
      | nil => simp [hasBadComma]
      | cons e t =>
        rw [hr] at ih
        simp only [hasBadComma, ih, Bool.or_false, Bool.and_eq_false_iff,
          decide_eq_false_iff_not]
        left
        exact hc

end InjuryParse

namespace InjuryParse

theorem occur_split {g : Char} {q : List Char} :
    ∀ {A : List Char}, g ∉ A → ∀ {B a b : List Char},
      A ++ B = a ++ (g :: q) ++ b → ∃ a', B = a' ++ (g :: q) ++ b ∧ a = A ++ a' := by
  intro A
  induction A with
  | nil =>
    intro _ B a b h
    exact ⟨a, by simpa using h, rfl⟩
  | cons x A' ih =>
    intro hg B a b h
    cases a with
    | nil =>
      simp only [List.nil_append, List.cons_append] at h
      injection h with h1 _
      exact absurd (h1 ▸ List.mem_cons_self x A') hg
    | cons y a' =>
      simp only [List.cons_append] at h
      injection h with h1 h2
      obtain ⟨a'', hB, ha⟩ := ih (fun hm => hg (List.mem_cons_of_mem _ hm))
        (by simpa using h2)
      refine ⟨a'', hB, ?_⟩
      rw [ha, h1]
      rfl

/-- Pass 4 output contains no `GLeague` occurrence at all. -/
theorem r4core_noGL : ∀ (n : Nat) (l : List Char), l.length ≤ n →
    hasGL (r4core l) = false := by
  intro n
  induction n with
  | zero =>
    intro l hl
    rw [List.length_eq_zero.mp (Nat.le_zero.mp hl)]
    rfl
  | succ n ih =>
    intro l hl
    cases l with
    | nil => rfl
    | cons c rest =>
      simp only [List.length_cons] at hl
      cases hm : dropLit "GLeague".data (c :: rest) with
      | some r =>
        have hout := r4core_match hm
        have hlen := dropLit_length hm
        simp only [List.length_cons] at hlen
        have hihr := ih r (by simp at hlen; omega)
        cases hs : hasGL (r4core (c :: rest))
        · rfl
        · exfalso
          rw [hout] at hs
          obtain ⟨a, b, hd⟩ := hasGL_spec hs
          match a, hd with
          | [], hd =>
            rw [show "G League".data ++ r4core r =
              'G' :: ' ' :: ("League".data ++ r4core r) from rfl] at hd
            rw [show ([] : List Char) ++ "GLeague".data ++ b =
              'G' :: 'L' :: ("eague".data ++ b) from rfl] at hd
            injection hd with h1 h2
            injection h2 with h2 _
            exact absurd h2 (by decide)
          | [x], hd =>
            rw [show "G League".data ++ r4core r =
              'G' :: ' ' :: ("League".data ++ r4core r) from rfl] at hd
            rw [show [x] ++ "GLeague".data ++ b =
              x :: 'G' :: ("League".data ++ b) from rfl] at hd
            injection hd with h1 h2
            injection h2 with h2 _
            exact absurd h2 (by decide)
          | x :: y :: a'', hd =>
            rw [show "G League".data ++ r4core r =
              'G' :: ' ' :: ("League".data ++ r4core r) from rfl] at hd
            rw [show (x :: y :: a'') ++ "GLeague".data ++ b =
              x :: y :: (a'' ++ "GLeague".data ++ b) from by simp] at hd
            injection hd with h1 h2
            injection h2 with h2 h3
            have hxs2 : "League".data ++ r4core r =
                a'' ++ ('G' :: "League".data) ++ b := by
              rw [show 'G' :: "League".data = "GLeague".data from rfl]
              simpa using h3
            obtain ⟨a₃, hB, -⟩ := occur_split (g := 'G') (q := "League".data)
              (by decide) hxs2
            have hocc := hasGL_occur a₃ (l := r4core r) b
              (by rw [show "GLeague".data = 'G' :: "League".data from rfl]; exact hB)
            rw [hihr] at hocc
            cases hocc
      | none =>
        have hout := r4core_nomatch hm
        have hihr := ih rest (by omega)
        cases hs : hasGL (r4core (c :: rest))
        · rfl
        · exfalso
          rw [hout] at hs
          simp only [hasGL, Bool.or_eq_true] at hs
          rcases hs with hs | hs
          · obtain ⟨r', hr'⟩ := Option.isSome_iff_exists.mp hs
            have hfront := SpIns_front (SpIns.cons c (SpIns_r4 rest))
              (dropLit_sound hr') (by decide)
            obtain ⟨b', hb'⟩ := hfront
            rw [hb', dropLit_self_append] at hm
            cases hm
          · rw [hihr] at hs
            cases hs
/-- Pass 5 output contains no `)`-wordchar site at all. -/
theorem r5core_noPW (l : List Char) : hasPW (r5core l) = false := by
  induction l with
  | nil => rfl
  | cons a rest ih =>
    cases rest with
    | nil =>
      rw [r5core_single]
      rfl
    | cons b rest' =>
      rw [r5core_cons2]
      split
      · next h =>
        have hun : ∀ (x y : Char) (r : List Char),
            hasPW (x :: y :: r) = ((x = ')' && isWordChar y) || hasPW (y :: r)) :=
          fun x y r => rfl
        show hasPW (a :: ' ' :: r5core (b :: rest')) = false
        cases hX : r5core (b :: rest') with
        | nil =>
          rw [hun, show isWordChar ' ' = false from rfl, Bool.and_false, Bool.false_or]
          rfl
        | cons c₁ t =>
          rw [hX] at ih
          rw [hun, hun, show isWordChar ' ' = false from rfl, Bool.and_false,
            Bool.false_or, show decide (' ' = ')') = false from rfl, Bool.false_and,
            Bool.false_or, ih]
      · next h =>
        obtain ⟨t, ht⟩ := r5core_head b rest'
        rw [ht]
        rw [ht] at ih
        simp only [hasPW, ih, Bool.or_false, Bool.and_eq_false_iff,
          decide_eq_false_iff_not]
        cases hw : isWordChar b
        · right
          rfl
        · left
          exact fun ha => h ⟨ha, hw⟩

/-- Pass 6 output contains no lowercase-uppercase site at all. -/
theorem r6core_noLU (l : List Char) : hasLU (r6core l) = false := by
  induction l with
  | nil => rfl
  | cons a rest ih =>
    cases rest with
    | nil => rfl
    | cons b rest' =>
      rw [r6core_cons2]
      split
      · show hasLU (a :: ' ' :: r6core (b :: rest')) = false
        cases hX : r6core (b :: rest') with
        | nil =>
          simp [hasLU, show isUpperAZ ' ' = false from rfl]
        | cons c₁ t =>
          rw [hX] at ih
          simp only [hasLU, ih, Bool.or_false,
            show isUpperAZ ' ' = false from rfl, Bool.and_false, Bool.false_or,
            show isLowerAZ ' ' = false from rfl, Bool.false_and]
      · next h =>
        obtain ⟨t, ht⟩ := r6core_head b rest'
        rw [ht]
        rw [ht] at ih
        simp only [hasLU, ih, Bool.or_false]
        exact Bool.eq_false_iff.mpr h

/-- Pass 8 output contains no digit-letter site at all. -/
theorem r8core_noDA (l : List Char) : hasDA (r8core l) = false := by
  induction l with
  | nil => rfl
  | cons a rest ih =>
    cases rest with
    | nil => rfl
    | cons b rest' =>
      rw [r8core_cons2]
      split
      · show hasDA (a :: ' ' :: r8core (b :: rest')) = false
        cases hX : r8core (b :: rest') with
        | nil =>
          simp [hasDA, show isAlphaAZ ' ' = false from rfl]
        | cons c₁ t =>
          rw [hX] at ih
          simp only [hasDA, ih, Bool.or_false,
            show isAlphaAZ ' ' = false from rfl, Bool.and_false, Bool.false_or,
            show isDigit09 ' ' = false from rfl, Bool.false_and]
      · next h =>
        obtain ⟨t, ht⟩ := r8core_head b rest'
        rw [ht]
        rw [ht] at ih
        simp only [hasDA, ih, Bool.or_false]
        exact Bool.eq_false_iff.mpr h

theorem r7core_two_shape (b c : Char) (X : List Char) :
    r7core (b :: c :: X) = b :: ' ' :: r7core (c :: X) ∨
    r7core (b :: c :: X) = b :: r7core (c :: X) := by
  cases X with
  | nil => exact Or.inr rfl
  | cons e X' =>
    rw [r7core_cons3]
    split
    · exact Or.inl rfl
    · exact Or.inr rfl

/-- Pass 7 output contains no upper-upper-lower site at all. -/
theorem r7core_noUUl (l : List Char) : hasUUl (r7core l) = false := by
  induction l with
  | nil => rfl
  | cons a rest ih =>
    cases rest with
    | nil => rfl
    | cons b rest' =>
      cases rest' with
      | nil => rfl
      | cons c rest'' =>
        rw [r7core_cons3]
        split
        · show hasUUl (a :: ' ' :: r7core (b :: c :: rest'')) = false
          obtain ⟨t, ht⟩ := r7core_head b (c :: rest'')
          rw [ht]
          rw [ht] at ih
          cases ht2 : t with
          | nil =>
            simp [hasUUl, show isUpperAZ ' ' = false from rfl]
          | cons t₁ t₂ =>
            rw [ht2] at ih
            simp only [hasUUl, ih, Bool.or_false,
              show isUpperAZ ' ' = false from rfl, Bool.and_false, Bool.false_or,
              Bool.false_and]
        · next h =>
          rcases r7core_two_shape b c rest'' with hsh | hsh
          · rw [hsh]
            rw [hsh] at ih
            simp only [hasUUl, ih, Bool.or_false,
              show isLowerAZ ' ' = false from rfl, Bool.and_false, Bool.false_or,
              show isUpperAZ ' ' = false from rfl, Bool.false_and]
          · rw [hsh]
            rw [hsh] at ih
            obtain ⟨t', ht'⟩ := r7core_head c rest''
            rw [ht']
            rw [ht'] at ih
            simp only [hasUUl, ih, Bool.or_false]
            exact Bool.eq_false_iff.mpr h

end InjuryParse

namespace InjuryParse

/-! ### Preservation of global site-freeness under space insertion -/

theorem hasBadComma_SpIns {z v : List Char} (h : SpIns z v)
    (hz : hasBadComma z = false) : hasBadComma v = false := by
  cases hs : hasBadComma v
  · rfl
  · exfalso
    obtain ⟨a, d, b, hd, hdws⟩ := hasBadComma_spec hs
    have hd2 : v = a ++ [',', d] ++ b := by rw [hd]; simp
    obtain ⟨a', b', hz'⟩ := SpIns_seg h hd2 (by
      intro hm
      rcases List.mem_cons.mp hm with h1 | h1
      · exact absurd h1.symm (by decide)
      · rcases List.mem_cons.mp h1 with h1 | h1
        · rw [← h1] at hdws
          exact absurd hdws (by decide)
        · simp at h1)
    have hocc := hasBadComma_occur a' (l := z) d b' (by rw [hz']; simp) hdws
    rw [hz] at hocc
    cases hocc

theorem hasGL_SpIns {z v : List Char} (h : SpIns z v)
    (hz : hasGL z = false) : hasGL v = false := by
  cases hs : hasGL v
  · rfl
  · exfalso
    obtain ⟨a, b, hd⟩ := hasGL_spec hs
    obtain ⟨a', b', hz'⟩ := SpIns_seg h hd (by decide)
    have hocc := hasGL_occur a' (l := z) b' hz'
    rw [hz] at hocc
    cases hocc

theorem hasPW_SpIns {z v : List Char} (h : SpIns z v)
    (hz : hasPW z = false) : hasPW v = false := by
  cases hs : hasPW v
  · rfl
  · exfalso
    obtain ⟨a, d, b, hd, hw⟩ := hasPW_spec hs
    have hd2 : v = a ++ [')', d] ++ b := by rw [hd]; simp
    obtain ⟨a', b', hz'⟩ := SpIns_seg h hd2 (by
      intro hm
      rcases List.mem_cons.mp hm with h1 | h1
      · exact absurd h1.symm (by decide)
      · rcases List.mem_cons.mp h1 with h1 | h1
        · rw [← h1] at hw
          exact absurd hw (by decide)
        · simp at h1)
    have hocc := hasPW_occur a' (l := z) d b' (by rw [hz']; simp) hw
    rw [hz] at hocc
    cases hocc

theorem hasLU_SpIns {z v : List Char} (h : SpIns z v)
    (hz : hasLU z = false) : hasLU v = false := by
  cases hs : hasLU v
  · rfl
  · exfalso
    obtain ⟨a, x, y, b, hd, h1, h2⟩ := hasLU_spec hs
    have hd2 : v = a ++ [x, y] ++ b := by rw [hd]; simp
    obtain ⟨a', b', hz'⟩ := SpIns_seg h hd2 (by
      intro hm
      rcases List.mem_cons.mp hm with hx | hx
      · rw [← hx] at h1
        exact absurd h1 (by decide)
      · rcases List.mem_cons.mp hx with hx | hx
        · rw [← hx] at h2
          exact absurd h2 (by decide)
        · simp at hx)
    have hocc := hasLU_occur a' (l := z) x y b' (by rw [hz']; simp) h1 h2
    rw [hz] at hocc
    cases hocc

theorem hasUUl_SpIns {z v : List Char} (h : SpIns z v)
    (hz : hasUUl z = false) : hasUUl v = false := by
  cases hs : hasUUl v
  · rfl
  · exfalso
    obtain ⟨a, x, y, u, b, hd, h1, h2, h3⟩ := hasUUl_spec hs
    have hd2 : v = a ++ [x, y, u] ++ b := by rw [hd]; simp
    obtain ⟨a', b', hz'⟩ := SpIns_seg h hd2 (by
      intro hm
      rcases List.mem_cons.mp hm with hx | hx
      · rw [← hx] at h1
        exact absurd h1 (by decide)
      · rcases List.mem_cons.mp hx with hx | hx
        · rw [← hx] at h2
          exact absurd h2 (by decide)
        · rcases List.mem_cons.mp hx with hx | hx
          · rw [← hx] at h3
            exact absurd h3 (by decide)
          · simp at hx)
    have hocc := hasUUl_occur a' (l := z) x y u b' (by rw [hz']; simp) h1 h2 h3
    rw [hz] at hocc
    cases hocc

theorem hasDA_SpIns {z v : List Char} (h : SpIns z v)
    (hz : hasDA z = false) : hasDA v = false := by
  cases hs : hasDA v
  · rfl
  · exfalso
    obtain ⟨a, x, y, b, hd, h1, h2⟩ := hasDA_spec hs
    have hd2 : v = a ++ [x, y] ++ b := by rw [hd]; simp
    obtain ⟨a', b', hz'⟩ := SpIns_seg h hd2 (by
      intro hm
      rcases List.mem_cons.mp hm with hx | hx
      · rw [← hx] at h1
        exact absurd h1 (by decide)
      · rcases List.mem_cons.mp hx with hx | hx
        · rw [← hx] at h2
          exact absurd h2 (by decide)
        · simp at hx)
    have hocc := hasDA_occur a' (l := z) x y b' (by rw [hz']; simp) h1 h2
    rw [hz] at hocc
    cases hocc

/-! ### Whitespace-separator homomorphisms, bundled per pass -/

theorem r1core_wsh {d : Char} (hd : jsWs d = true) (A B : List Char) :
    r1core (A ++ d :: B) = r1core A ++ d :: r1core B :=
  r1core_homoW (ws_not_upper hd) (ws_ne hd (by decide)) A B

theorem r2core_wsh {d : Char} (hd : jsWs d = true) (A B : List Char) :
    r2core (A ++ d :: B) = r2core A ++ d :: r2core B :=
  r2core_homoW (ws_notin hd (by decide)) (ws_notin hd (by decide))
    (ws_notin hd (by decide)) (ws_notin hd (by decide)) A B

theorem r3core_wsh {d : Char} (hd : jsWs d = true) (A B : List Char) :
    r3core (A ++ d :: B) = r3core A ++ d :: r3core B :=
  r3core_homoW (ws_ne hd (by decide)) A B

theorem r4core_wsh {d : Char} (hd : jsWs d = true) (A B : List Char) :
    r4core (A ++ d :: B) = r4core A ++ d :: r4core B :=
  r4core_homoW (ws_notin hd (by decide)) A B

theorem r5core_wsh {d : Char} (hd : jsWs d = true) (A B : List Char) :
    r5core (A ++ d :: B) = r5core A ++ d :: r5core B :=
  r5core_homoW (ws_ne hd (by decide)) (ws_not_wordChar hd) A B

theorem r6core_wsh {d : Char} (hd : jsWs d = true) (A B : List Char) :
    r6core (A ++ d :: B) = r6core A ++ d :: r6core B :=
  r6core_homoW (ws_not_lower hd) (ws_not_upper hd) A B

theorem r7core_wsh {d : Char} (hd : jsWs d = true) (A B : List Char) :
    r7core (A ++ d :: B) = r7core A ++ d :: r7core B :=
  r7core_homoW (ws_not_upper hd) (ws_not_lower hd) A B

theorem r8core_wsh {d : Char} (hd : jsWs d = true) (A B : List Char) :
    r8core (A ++ d :: B) = r8core A ++ d :: r8core B :=
  r8core_homoW (ws_not_digit hd) (ws_not_alpha hd) A B

theorem words_of_pass (f : List Char → List Char) (hf0 : f [] = [])
    (hfh : ∀ (d : Char), jsWs d = true → ∀ A B, f (A ++ d :: B) = f A ++ d :: f B)
    (z : List Char) :
    ∀ w' ∈ wordsCL (f z), ∃ w ∈ wordsCL z, w' ∈ wordsCL (f w) := by
  intro w' hw'
  rw [wordsCL_mapPass f hf0 hfh z.length z le_rfl] at hw'
  rw [List.mem_flatten] at hw'
  obtain ⟨L, hL, hwL⟩ := hw'
  rw [List.mem_map] at hL
  obtain ⟨w, hwz, rfl⟩ := hL
  exact ⟨w, hwz, hwL⟩

end InjuryParse

namespace InjuryParse

/-! ### Word facts carried through the pass pipeline -/

/-- The nine normalization passes before whitespace collapsing. -/
def normCore (l : List Char) : List Char :=
  r8core (r7core (r6core (r5core (r4core (r3core (r2core (r1core l)))))))

/-- A word either contains no matchup pattern, or is exactly one. -/
def Mw (w : List Char) : Prop :=
  containsMatchup w = true → matchMatchupAt w = some (w, []) ∧ UpperAt w

/-- A word either contains no status word, or is exactly one. -/
def Sw (w : List Char) : Prop :=
  containsStatus w = true → w ∈ statusWordChars

theorem Mw_step {f : List Char → List Char}
    (hsp : ∀ w, SpIns w (f w))
    (hid : ∀ w, w ≠ [] → WsFree w → matchMatchupAt w = some (w, []) → UpperAt w →
      wordsCL (f w) = [w])
    {w : List Char} (hne : w ≠ []) (hws : WsFree w) (hM : Mw w) :
    ∀ w' ∈ wordsCL (f w), Mw w' := by
  intro w' hw'
  by_cases hc : containsMatchup w = true
  · obtain ⟨hfull, hup⟩ := hM hc
    rw [hid w hne hws hfull hup, List.mem_singleton] at hw'
    subst hw'
    exact hM
  · intro hc'
    obtain ⟨a, b, hab⟩ := word_of_SpIns (hsp w) w' hw'
    exact absurd (containsMatchup_within a b hab hc') hc

theorem Sw_step {f : List Char → List Char}
    (hsp : ∀ w, SpIns w (f w))
    (hid : ∀ w ∈ statusWordChars, wordsCL (f w) = [w])
    {w : List Char} (hS : Sw w) :
    ∀ w' ∈ wordsCL (f w), Sw w' := by
  intro w' hw'
  by_cases hc : containsStatus w = true
  · have hmem := hS hc
    rw [hid w hmem, List.mem_singleton] at hw'
    subst hw'
    exact hS
  · intro hc'
    obtain ⟨a, b, hab⟩ := word_of_SpIns (hsp w) w' hw'
    exact absurd (containsStatus_within a b hab hc') hc

theorem upper_id_r2 : ∀ w : List Char, w ≠ [] → WsFree w →
    matchMatchupAt w = some (w, []) → UpperAt w → wordsCL (r2core w) = [w] := by
  intro w hne hws _ hup
  rw [r2core_id (UpperAt_containsStatus hup)]
  exact wordsCL_single hne hws

theorem upper_id_r3 : ∀ w : List Char, w ≠ [] → WsFree w →
    matchMatchupAt w = some (w, []) → UpperAt w → wordsCL (r3core w) = [w] := by
  intro w hne hws _ hup
  rcases r3core_noInt (UpperAt_hasCommaInt hup) with hid | hpad
  · rw [hid]
    exact wordsCL_single hne hws
  · rw [hpad]
    exact wordsCL_pad hne hws 0 1

theorem upper_id_r4 : ∀ w : List Char, w ≠ [] → WsFree w →
    matchMatchupAt w = some (w, []) → UpperAt w → wordsCL (r4core w) = [w] := by
  intro w hne hws _ hup
  rw [r4core_id (UpperAt_hasGL hup)]
  exact wordsCL_single hne hws

theorem upper_id_r5 : ∀ w : List Char, w ≠ [] → WsFree w →
    matchMatchupAt w = some (w, []) → UpperAt w → wordsCL (r5core w) = [w] := by
  intro w hne hws _ hup
  rw [r5core_id (UpperAt_hasPW hup)]
  exact wordsCL_single hne hws

theorem upper_id_r6 : ∀ w : List Char, w ≠ [] → WsFree w →
    matchMatchupAt w = some (w, []) → UpperAt w → wordsCL (r6core w) = [w] := by
  intro w hne hws _ hup
  rw [r6core_id (UpperAt_hasLU hup)]
  exact wordsCL_single hne hws

theorem upper_id_r7 : ∀ w : List Char, w ≠ [] → WsFree w →
    matchMatchupAt w = some (w, []) → UpperAt w → wordsCL (r7core w) = [w] := by
  intro w hne hws _ hup
  rw [r7core_id (UpperAt_hasUUl hup)]
  exact wordsCL_single hne hws

theorem upper_id_r8 : ∀ w : List Char, w ≠ [] → WsFree w →
    matchMatchupAt w = some (w, []) → UpperAt w → wordsCL (r8core w) = [w] := by
  intro w hne hws _ hup
  rw [r8core_id (UpperAt_hasDA hup)]
  exact wordsCL_single hne hws

theorem status_id_r3 : ∀ w ∈ statusWordChars, wordsCL (r3core w) = [w] := by
  intro w hw
  simp only [statusWordChars, List.mem_cons, List.mem_singleton] at hw
  rcases hw with rfl | rfl | rfl | rfl | h0
  · decide
  · decide
  · decide
  · decide
  · simp at h0

theorem status_id_r4 : ∀ w ∈ statusWordChars, wordsCL (r4core w) = [w] := by
  intro w hw
  simp only [statusWordChars, List.mem_cons, List.mem_singleton] at hw
  rcases hw with rfl | rfl | rfl | rfl | h0
  · decide
  · decide
  · decide
  · decide
  · simp at h0

theorem status_id_r5 : ∀ w ∈ statusWordChars, wordsCL (r5core w) = [w] := by
  intro w hw
  simp only [statusWordChars, List.mem_cons, List.mem_singleton] at hw
  rcases hw with rfl | rfl | rfl | rfl | h0
  · decide
  · decide
  · decide
  · decide
  · simp at h0

theorem status_id_r6 : ∀ w ∈ statusWordChars, wordsCL (r6core w) = [w] := by
  intro w hw
  simp only [statusWordChars, List.mem_cons, List.mem_singleton] at hw
  rcases hw with rfl | rfl | rfl | rfl | h0
  · decide
  · decide
  · decide
  · decide
  · simp at h0

theorem status_id_r7 : ∀ w ∈ statusWordChars, wordsCL (r7core w) = [w] := by
  intro w hw
  simp only [statusWordChars, List.mem_cons, List.mem_singleton] at hw
  rcases hw with rfl | rfl | rfl | rfl | h0
  · decide
  · decide
  · decide
  · decide
  · simp at h0

theorem status_id_r8 : ∀ w ∈ statusWordChars, wordsCL (r8core w) = [w] := by
  intro w hw
  simp only [statusWordChars, List.mem_cons, List.mem_singleton] at hw
  rcases hw with rfl | rfl | rfl | rfl | h0
  · decide
  · decide
  · decide
  · decide
  · simp at h0

end InjuryParse

namespace InjuryParse

theorem Mw_pass {f : List Char → List Char} (hf0 : f [] = [])
    (hfh : ∀ (d : Char), jsWs d = true → ∀ A B, f (A ++ d :: B) = f A ++ d :: f B)
    (hsp : ∀ w, SpIns w (f w))
    (hid : ∀ w, w ≠ [] → WsFree w → matchMatchupAt w = some (w, []) → UpperAt w →
      wordsCL (f w) = [w])
    {z : List Char} (hz : ∀ u ∈ wordsCL z, Mw u) :
    ∀ u ∈ wordsCL (f z), Mw u := by
  intro u hu
  obtain ⟨v, hv, huv⟩ := words_of_pass f hf0 hfh z u hu
  obtain ⟨hvne, hvws⟩ := wordsCL_wordish z.length z le_rfl v hv
  exact Mw_step hsp hid hvne hvws (hz v hv) u huv

theorem Sw_pass {f : List Char → List Char} (hf0 : f [] = [])
    (hfh : ∀ (d : Char), jsWs d = true → ∀ A B, f (A ++ d :: B) = f A ++ d :: f B)
    (hsp : ∀ w, SpIns w (f w))
    (hid : ∀ w ∈ statusWordChars, wordsCL (f w) = [w])
    {z : List Char} (hz : ∀ u ∈ wordsCL z, Sw u) :
    ∀ u ∈ wordsCL (f z), Sw u := by
  intro u hu
  obtain ⟨v, hv, huv⟩ := words_of_pass f hf0 hfh z u hu
  exact Sw_step hsp hid (hz v hv) u huv

/-- Every word of the pass-pipeline output is matchup-tight, status-tight and
free of every later rewrite site. -/
theorem normCore_words (x : List Char) :
    ∀ w ∈ wordsCL (normCore x),
      (w ≠ [] ∧ WsFree w) ∧ Mw w ∧ Sw w ∧ hasCommaInt w = false ∧ hasGL w = false ∧
      hasPW w = false ∧ hasLU w = false ∧ hasUUl w = false ∧ hasDA w = false := by
  have hM1 : ∀ u ∈ wordsCL (r1core x), Mw u :=
    fun u hu => (r1core_wordsGood x.length x le_rfl).1 u hu
  have hM2 := Mw_pass rfl (fun d hd A B => r2core_wsh hd A B) SpIns_r2 upper_id_r2 hM1
  have hM3 := Mw_pass rfl (fun d hd A B => r3core_wsh hd A B) SpIns_r3 upper_id_r3 hM2
  have hM4 := Mw_pass rfl (fun d hd A B => r4core_wsh hd A B) SpIns_r4 upper_id_r4 hM3
  have hM5 := Mw_pass rfl (fun d hd A B => r5core_wsh hd A B) SpIns_r5 upper_id_r5 hM4
  have hM6 := Mw_pass rfl (fun d hd A B => r6core_wsh hd A B) SpIns_r6 upper_id_r6 hM5
  have hM7 := Mw_pass rfl (fun d hd A B => r7core_wsh hd A B) SpIns_r7 upper_id_r7 hM6
  have hM8 := Mw_pass rfl (fun d hd A B => r8core_wsh hd A B) SpIns_r8 upper_id_r8 hM7
  have hS2 : ∀ u ∈ wordsCL (r2core (r1core x)), Sw u :=
    fun u hu => (r2core_wordsGood (r1core x).length (r1core x) le_rfl).1 u hu
  have hS3 := Sw_pass rfl (fun d hd A B => r3core_wsh hd A B) SpIns_r3 status_id_r3 hS2
  have hS4 := Sw_pass rfl (fun d hd A B => r4core_wsh hd A B) SpIns_r4 status_id_r4 hS3
  have hS5 := Sw_pass rfl (fun d hd A B => r5core_wsh hd A B) SpIns_r5 status_id_r5 hS4
  have hS6 := Sw_pass rfl (fun d hd A B => r6core_wsh hd A B) SpIns_r6 status_id_r6 hS5
  have hS7 := Sw_pass rfl (fun d hd A B => r7core_wsh hd A B) SpIns_r7 status_id_r7 hS6
  have hS8 := Sw_pass rfl (fun d hd A B => r8core_wsh hd A B) SpIns_r8 status_id_r8 hS7
  have hg3 : hasBadComma (r3core (r2core (r1core x))) = false := r3core_noBad _
  have hg4 := hasBadComma_SpIns (SpIns_r4 _) hg3
  have hg5 := hasBadComma_SpIns (SpIns_r5 _) hg4
  have hg6 := hasBadComma_SpIns (SpIns_r6 _) hg5
  have hg7 := hasBadComma_SpIns (SpIns_r7 _) hg6
  have hg8 := hasBadComma_SpIns (SpIns_r8 _) hg7
  have hGL4 : hasGL (r4core (r3core (r2core (r1core x)))) = false :=
    r4core_noGL _ _ le_rfl
  have hGL5 := hasGL_SpIns (SpIns_r5 _) hGL4
  have hGL6 := hasGL_SpIns (SpIns_r6 _) hGL5
  have hGL7 := hasGL_SpIns (SpIns_r7 _) hGL6
  have hGL8 := hasGL_SpIns (SpIns_r8 _) hGL7
  have hPW5 : hasPW (r5core (r4core (r3core (r2core (r1core x))))) = false :=
    r5core_noPW _
  have hPW6 := hasPW_SpIns (SpIns_r6 _) hPW5
  have hPW7 := hasPW_SpIns (SpIns_r7 _) hPW6
  have hPW8 := hasPW_SpIns (SpIns_r8 _) hPW7
  have hLU6 : hasLU (r6core (r5core (r4core (r3core (r2core (r1core x)))))) = false :=
    r6core_noLU _
  have hLU7 := hasLU_SpIns (SpIns_r7 _) hLU6
  have hLU8 := hasLU_SpIns (SpIns_r8 _) hLU7
  have hU7 : hasUUl (r7core (r6core (r5core (r4core (r3core (r2core (r1core x)))))))
      = false := r7core_noUUl _
  have hU8 := hasUUl_SpIns (SpIns_r8 _) hU7
  have hDA8 : hasDA (r8core (r7core (r6core (r5core (r4core (r3core (r2core
      (r1core x)))))))) = false := r8core_noDA _
  intro w hw
  have hww := wordsCL_wordish (normCore x).length (normCore x) le_rfl w hw
  obtain ⟨A, B, hAB⟩ := word_infix_of_mem (normCore x).length (normCore x) le_rfl w hw
  have hcomma : hasCommaInt w = false := by
    cases hq : hasCommaInt w
    · rfl
    · exfalso
      obtain ⟨a, d, b, hd⟩ := hasCommaInt_spec hq
      have hdws : jsWs d = false := hww.2 d (by rw [hd]; simp)
      have hocc : hasBadComma (normCore x) = true :=
        hasBadComma_occur (A ++ a) d (b ++ B) (by rw [hAB, hd]; simp) hdws
      rw [show hasBadComma (normCore x) = false from hg8] at hocc
      cases hocc
  have hgl : hasGL w = false := by
    cases hq : hasGL w
    · rfl
    · exfalso
      obtain ⟨a, b, hd⟩ := hasGL_spec hq
      have hocc : hasGL (normCore x) = true :=
        hasGL_occur (A ++ a) (b ++ B) (by rw [hAB, hd]; simp)
      rw [show hasGL (normCore x) = false from hGL8] at hocc
      cases hocc
  have hpw : hasPW w = false := by
    cases hq : hasPW w
    · rfl
    · exfalso
      obtain ⟨a, d, b, hd, hwc⟩ := hasPW_spec hq
      have hocc : hasPW (normCore x) = true :=
        hasPW_occur (A ++ a) d (b ++ B) (by rw [hAB, hd]; simp) hwc
      rw [show hasPW (normCore x) = false from hPW8] at hocc
      cases hocc
  have hlu : hasLU w = false := by
    cases hq : hasLU w
    · rfl
    · exfalso
      obtain ⟨a, u1, u2, b, hd, h1, h2⟩ := hasLU_spec hq
      have hocc : hasLU (normCore x) = true :=
        hasLU_occur (A ++ a) u1 u2 (b ++ B) (by rw [hAB, hd]; simp) h1 h2
      rw [show hasLU (normCore x) = false from hLU8] at hocc
      cases hocc
  have huul : hasUUl w = false := by
    cases hq : hasUUl w
    · rfl
    · exfalso
      obtain ⟨a, u1, u2, u3, b, hd, h1, h2, h3⟩ := hasUUl_spec hq
      have hocc : hasUUl (normCore x) = true :=
        hasUUl_occur (A ++ a) u1 u2 u3 (b ++ B) (by rw [hAB, hd]; simp) h1 h2 h3
      rw [show hasUUl (normCore x) = false from hU8] at hocc
      cases hocc
  have hda : hasDA w = false := by
    cases hq : hasDA w
    · rfl
    · exfalso
      obtain ⟨a, u1, u2, b, hd, h1, h2⟩ := hasDA_spec hq
      have hocc : hasDA (normCore x) = true :=
        hasDA_occur (A ++ a) u1 u2 (b ++ B) (by rw [hAB, hd]; simp) h1 h2
      rw [show hasDA (normCore x) = false from hDA8] at hocc
      cases hocc
  exact ⟨hww, hM8 w hw, hS8 w hw, hcomma, hgl, hpw, hlu, huul, hda⟩

end InjuryParse

namespace InjuryParse

/-! ### Stability: the pipeline maps each good word to itself, up to padding -/

theorem pad_pass {f : List Char → List Char} (hnil : f [] = [])
    (hsp : ∀ B, f (' ' :: B) = ' ' :: f B)
    (hhomo : ∀ A B, f (A ++ ' ' :: B) = f A ++ ' ' :: f B) (a b : Nat) (u : List Char) :
    f (List.replicate a ' ' ++ u ++ List.replicate b ' ') =
      List.replicate a ' ' ++ f u ++ List.replicate b ' ' := by
  have hsponly : ∀ k, f (List.replicate k ' ') = List.replicate k ' ' := by
    intro k
    induction k with
    | zero => exact hnil
    | succ k ih => rw [List.replicate_succ, hsp, ih]
  have htail : ∀ u : List Char,
      f (u ++ List.replicate b ' ') = f u ++ List.replicate b ' ' := by
    intro u
    cases b with
    | zero => simp
    | succ k =>
      rw [List.replicate_succ, hhomo u (List.replicate k ' '), hsponly k]
  induction a with
  | zero => simpa using htail u
  | succ k ih =>
    rw [List.replicate_succ]
    show f ((' ' :: List.replicate k ' ') ++ u ++ List.replicate b ' ') =
      (' ' :: List.replicate k ' ') ++ f u ++ List.replicate b ' '
    rw [List.cons_append, List.cons_append, List.cons_append, List.cons_append,
      hsp, ih]

theorem r3core_id {l : List Char} (h : ',' ∉ l) : r3core l = l := by
  induction l with
  | nil => rfl
  | cons c rest ih =>
    have hc : c ≠ ',' := fun hx => h (hx ▸ List.mem_cons_self c rest)
    rw [r3core_other hc, ih fun hm => h (List.mem_cons_of_mem c hm)]

/-- A word with the accumulated facts passes through the whole pipeline intact,
up to outer padding. -/
theorem normCore_word_stable {w : List Char} (hne : w ≠ []) (hws : WsFree w)
    (hM : Mw w) (hS : Sw w) (hc : hasCommaInt w = false) (hgl : hasGL w = false)
    (hpw : hasPW w = false) (hlu : hasLU w = false) (huul : hasUUl w = false)
    (hda : hasDA w = false) : wordsCL (normCore w) = [w] := by
  have stage : ∀ (f : List Char → List Char), f [] = [] →
      (∀ B, f (' ' :: B) = ' ' :: f B) →
      (∀ A B, f (A ++ ' ' :: B) = f A ++ ' ' :: f B) → f w = w →
      ∀ (a b : Nat) (v : List Char),
        v = List.replicate a ' ' ++ w ++ List.replicate b ' ' →
        f v = List.replicate a ' ' ++ w ++ List.replicate b ' ' := by
    intro f hnil hsp hhomo hid a b v hv
    rw [hv, pad_pass hnil hsp hhomo, hid]
  by_cases hcm : containsMatchup w = true
  · obtain ⟨hfull, hup⟩ := hM hcm
    have hni : ',' ∉ w := fun hm => (UpperAt_char_facts (hup ',' hm)).2.2.1 rfl
    have h1 : r1core w = List.replicate 1 ' ' ++ w ++ List.replicate 1 ' ' := by
      cases w with
      | nil => exact absurd rfl hne
      | cons c rest =>
        rw [r1core_match hfull]
        rfl
    have h2 := stage r2core rfl r2core_space r2core_homo
      (r2core_id (UpperAt_containsStatus hup)) 1 1 _ h1
    have h3 := stage r3core rfl r3core_space r3core_homo (r3core_id hni) 1 1 _ h2
    have h4 := stage r4core rfl r4core_space r4core_homo (r4core_id hgl) 1 1 _ h3
    have h5 := stage r5core rfl r5core_space r5core_homo (r5core_id hpw) 1 1 _ h4
    have h6 := stage r6core rfl r6core_space r6core_homo (r6core_id hlu) 1 1 _ h5
    have h7 := stage r7core rfl r7core_space r7core_homo (r7core_id huul) 1 1 _ h6
    have h8 := stage r8core rfl r8core_space r8core_homo (r8core_id hda) 1 1 _ h7
    show wordsCL (r8core (r7core (r6core (r5core (r4core (r3core (r2core
      (r1core w)))))))) = [w]
    rw [h8]
    exact wordsCL_pad hne hws 1 1
  · by_cases hcs : containsStatus w = true
    · have hmem := hS hcs
      have hni : ',' ∉ w := by
        simp only [statusWordChars, List.mem_cons, List.mem_singleton] at hmem
        rcases hmem with rfl | rfl | rfl | rfl | h0
        · decide
        · decide
        · decide
        · decide
        · simp at h0
      have h1 : r1core w = w := r1core_id (Bool.eq_false_iff.mpr hcm)
      have h2 : r2core (r1core w) =
          List.replicate 1 ' ' ++ w ++ List.replicate 1 ' ' := by
        rw [h1]
        cases w with
        | nil => exact absurd rfl hne
        | cons c rest =>
          rw [r2core_match (statusWord_self _ hmem)]
          rfl
      have h3 := stage r3core rfl r3core_space r3core_homo (r3core_id hni) 1 1 _ h2
      have h4 := stage r4core rfl r4core_space r4core_homo (r4core_id hgl) 1 1 _ h3
      have h5 := stage r5core rfl r5core_space r5core_homo (r5core_id hpw) 1 1 _ h4
      have h6 := stage r6core rfl r6core_space r6core_homo (r6core_id hlu) 1 1 _ h5
      have h7 := stage r7core rfl r7core_space r7core_homo (r7core_id huul) 1 1 _ h6
      have h8 := stage r8core rfl r8core_space r8core_homo (r8core_id hda) 1 1 _ h7
      show wordsCL (r8core (r7core (r6core (r5core (r4core (r3core (r2core
        (r1core w)))))))) = [w]
      rw [h8]
      exact wordsCL_pad hne hws 1 1
    · have h1 : r1core w = w := r1core_id (Bool.eq_false_iff.mpr hcm)
      have h2 : r2core w = w := r2core_id (Bool.eq_false_iff.mpr hcs)
      rcases r3core_noInt hc with h3 | h3
      · have hid : normCore w = w := by
          show r8core (r7core (r6core (r5core (r4core (r3core (r2core
            (r1core w))))))) = w
          rw [h1, h2, h3, r4core_id hgl, r5core_id hpw, r6core_id hlu,
            r7core_id huul, r8core_id hda]
        rw [hid]
        exact wordsCL_single hne hws
      · have h3' : r3core (r2core (r1core w)) =
            List.replicate 0 ' ' ++ w ++ List.replicate 1 ' ' := by
          rw [h1, h2, h3]
          rfl
        have h4 := stage r4core rfl r4core_space r4core_homo (r4core_id hgl) 0 1 _ h3'
        have h5 := stage r5core rfl r5core_space r5core_homo (r5core_id hpw) 0 1 _ h4
        have h6 := stage r6core rfl r6core_space r6core_homo (r6core_id hlu) 0 1 _ h5
        have h7 := stage r7core rfl r7core_space r7core_homo (r7core_id huul) 0 1 _ h6
        have h8 := stage r8core rfl r8core_space r8core_homo (r8core_id hda) 0 1 _ h7
        show wordsCL (r8core (r7core (r6core (r5core (r4core (r3core (r2core
          (r1core w)))))))) = [w]
        rw [h8]
        exact wordsCL_pad hne hws 0 1

end InjuryParse

namespace InjuryParse

/-! ### Idempotence of normalization -/

theorem normCore_homo (A B : List Char) :
    normCore (A ++ ' ' :: B) = normCore A ++ ' ' :: normCore B := by
  show r8core (r7core (r6core (r5core (r4core (r3core (r2core
    (r1core (A ++ ' ' :: B)))))))) = _
  rw [r1core_homo A B, r2core_homo, r3core_homo, r4core_homo, r5core_homo,
    r6core_homo, r7core_homo, r8core_homo]
  rfl

theorem normCore_joinWords {ws : List (List Char)}
    (h : ∀ w ∈ ws, wordsCL (normCore w) = [w]) :
    wordsCL (normCore (joinWords ws)) = ws := by
  induction ws with
  | nil => rfl
  | cons w rest ih =>
    cases rest with
    | nil =>
      show wordsCL (normCore w) = [w]
      exact h w (List.mem_cons_self _ _)
    | cons v rest' =>
      show wordsCL (normCore (w ++ ' ' :: joinWords (v :: rest'))) = w :: v :: rest'
      rw [normCore_homo, wordsCL_append_ws2 (by decide), h w (List.mem_cons_self _ _),
        ih fun u hu => h u (List.mem_cons_of_mem _ hu)]
      rfl

theorem normalizeForParsing_idem (x : String) :
    normalizeForParsing (normalizeForParsing x) = normalizeForParsing x := by
  have key : r9core (normCore (r9core (normCore x.data))) =
      r9core (normCore x.data) := by
    have hfacts := normCore_words x.data
    rw [r9core_eq_joinWords (normCore x.data)]
    rw [r9core_eq_joinWords (normCore (joinWords (wordsCL (normCore x.data))))]
    rw [normCore_joinWords]
    intro w hw
    obtain ⟨⟨hne, hws⟩, hM, hS, hc, hgl, hpw, hlu, huul, hda⟩ := hfacts w hw
    exact normCore_word_stable hne hws hM hS hc hgl hpw hlu huul hda
  show (⟨r9core (normCore (r9core (normCore x.data)))⟩ : String) =
    ⟨r9core (normCore x.data)⟩
  exact congrArg (fun l => (⟨l⟩ : String)) key

end InjuryParse

namespace InjuryParse

/-- **C8**: `normalizeForParsing` is idempotent — for every string `x`,
`normalizeForParsing (normalizeForParsing x) = normalizeForParsing x` — and
consequently the summarizer is idempotent over normalization:
`summarizeInjuriesFromPdfText (normalizeForParsing x) =
summarizeInjuriesFromPdfText (normalizeForParsing (normalizeForParsing x))`. -/
theorem normalizeIdempotent (x : String) :
    normalizeForParsing (normalizeForParsing x) = normalizeForParsing x ∧
    summarizeInjuriesFromPdfText (normalizeForParsing x) =
      summarizeInjuriesFromPdfText (normalizeForParsing (normalizeForParsing x)) := by
  refine ⟨normalizeForParsing_idem x, ?_⟩
  rw [normalizeForParsing_idem x]

end InjuryParse
